import Mathlib

/-!
# Skeleton animation core: skeleton model, keyframe sampler, hierarchy evaluator,
animation state machine and capsule raycast

A shallow embedding of `FBXStateMachine.cpp`, `FBXStateMachine.h`,
`CharacterPhysics.h` and `AnimationMixer.h`.

Modelling conventions.
* `float` and `double` values are elements of an arbitrary linearly ordered field `K`.
  The main definitions compute in exact arithmetic; the section *Evaluation with rounding*
  repeats the sampler of positions and scales and the raycast with an explicit rounding
  after every floating-point operation (`Arith`), instantiated at binary32 / binary64 by
  `roundBin`.  The definitions are computable and can be evaluated at `K = ℚ`.
* `glm::mat4` is `Matrix (Fin 4) (Fin 4) K`, `glm::vec3` and `aiVector3D` are `Vec3 K`.
* `std::vector` is `List`; `std::map<Key, int>` is a finite partial function
  `Key → Option Int` (`find` is application, `m[k] = v` is `mapInsert`).
* Functions of the Assimp and C maths libraries whose code is not part of the repository
  (`sqrt`, `aiQuaternion::Interpolate`, `aiQuaternion::Normalize`,
  `aiQuaternion::GetMatrix`) are the fields of a parameter `Lib K`.
* A read outside an array (undefined behaviour in C++) yields a caller supplied
  unspecified value; every theorem holds for all such values.
-/

namespace Origin

variable {K : Type}

/-! ## Vectors, matrices, quaternions -/

/-- `glm::vec3` / `aiVector3D`. -/
structure Vec3 (K : Type) where
  x : K
  y : K
  z : K
deriving DecidableEq, Repr

/-- `aiQuaternion`. -/
structure Quat (K : Type) where
  w : K
  x : K
  y : K
  z : K
deriving DecidableEq, Repr

/-- `glm::mat4`, indexed row then column (the mathematical convention). -/
abbrev Mat4 (K : Type) := Matrix (Fin 4) (Fin 4) K

namespace Vec3

variable [Field K]

/-- Component-wise sum. -/
def add (u v : Vec3 K) : Vec3 K := ⟨u.x + v.x, u.y + v.y, u.z + v.z⟩

/-- Component-wise difference. -/
def sub (u v : Vec3 K) : Vec3 K := ⟨u.x - v.x, u.y - v.y, u.z - v.z⟩

/-- Multiplication of every component by a scalar. -/
def smul (c : K) (v : Vec3 K) : Vec3 K := ⟨c * v.x, c * v.y, c * v.z⟩

/-- `glm::dot`. -/
def dot (u v : Vec3 K) : K := u.x * v.x + u.y * v.y + u.z * v.z

end Vec3

/-- Functions of the C maths library and of Assimp used by the code. -/
structure Lib (K : Type) where
  /-- `sqrt` of `<cmath>`. -/
  sqrt : K → K
  /-- `aiQuaternion::Interpolate(out, start, end, factor)`. -/
  quatInterpolate : Quat K → Quat K → K → Quat K
  /-- `aiQuaternion::Normalize`. -/
  quatNormalize : Quat K → Quat K
  /-- `aiMatrix4x4(aiQuaternion::GetMatrix())` converted to `glm::mat4`. -/
  quatGetMatrix : Quat K → Mat4 K

/-! ## Imported scene data (the Assimp structures read by the code) -/

/-- `aiNode`: name, local rest transform (already converted to `glm::mat4`), children. -/
inductive Node (K : Type) where
  | mk (mName : String) (mTransformation : Mat4 K) (mChildren : List (Node K)) : Node K

namespace Node

/-- `node->mName`. -/
def mName : Node K → String
  | mk n _ _ => n

/-- `node->mTransformation`, as the `glm::mat4` the code converts it to. -/
def mTransformation : Node K → Mat4 K
  | mk _ t _ => t

/-- `node->mChildren`. -/
def mChildren : Node K → List (Node K)
  | mk _ _ c => c

end Node

/-- `aiVectorKey` / `aiQuatKey`: a time stamp and a value. -/
structure Key (K V : Type) where
  mTime : K
  mValue : V

/-- `aiNodeAnim`: the channel of one node. -/
structure NodeAnim (K : Type) where
  mNodeName : String
  mPositionKeys : List (Key K (Vec3 K))
  mRotationKeys : List (Key K (Quat K))
  mScalingKeys : List (Key K (Vec3 K))

/-- `aiAnimation`. -/
structure Animation (K : Type) where
  mDuration : K
  mTicksPerSecond : K
  mChannels : List (NodeAnim K)

/-- `aiBone` as read by `loadFBX`: a bone name and its offset matrix. -/
structure AiBone (K : Type) where
  mName : String
  mOffsetMatrix : Mat4 K

/-- `aiScene`, restricted to what the animation core reads. -/
structure Scene (K : Type) where
  mRootNode : Node K
  mAnimations : List (Animation K)
  mMeshBones : List (List (AiBone K))

/-! ## Skeleton model -/

/-- `struct Bone`. -/
structure Bone (K : Type) where
  name : String
  offsetMatrix : Mat4 K
  localTransform : Mat4 K
  finalTransform : Mat4 K
  parentIndex : Int
  children : List Int
  worldTransform : Mat4 K

/-- `enum State`. -/
inductive State where
  | IDLE
  | RUN
  | JUMP
deriving DecidableEq, Repr

/-- `std::map::operator[]=` : insert or overwrite. -/
def mapInsert {α β : Type} [DecidableEq α] (m : α → Option β) (k : α) (v : β) : α → Option β :=
  fun k' => if k' = k then some v else m k'

/-- The data members of `class FBXStateMachine` used by the animation core. -/
structure Machine (K : Type) where
  scene : Option (Scene K)
  bones : List (Bone K)
  boneMapping : String → Option Int
  finalBoneMatrices : List (Mat4 K)
  globalInverseTransform : Mat4 K
  currentState : State
  currentTime : K
  stateToClipIndex : State → Option Int
  nextState : State
  crossfadeTime : K
  crossfadeDuration : K
  isCrossfading : Bool

/-- `bones[i].f(...)` for an `int` index: modify the bone at index `i` in place. -/
def modifyBone (f : Bone K → Bone K) (i : Int) (bones : List (Bone K)) : List (Bone K) :=
  if 0 ≤ i then bones.modify f i.toNat else bones

section Skeleton

variable [Field K]

mutual
/-- `FBXStateMachine::processNode`.  `uninit` is the value of the member
`finalTransform`, which the constructor of `Bone` leaves uninitialised.  The cast
`static_cast<int>(bones.size())` is exact: bone counts stay below `2^31`. -/
def processNode (uninit : Mat4 K) : Node K → Int → Machine K → Machine K
  | Node.mk mName mTransformation mChildren, parentIdx, s =>
    let bone : Bone K :=
      { name := mName, parentIndex := parentIdx, localTransform := mTransformation,
        offsetMatrix := 1, finalTransform := uninit, children := [], worldTransform := 1 }
    let currentIdx : Int := (s.bones.length : Int)
    let s1 : Machine K := { s with bones := s.bones ++ [bone] }
    let s2 : Machine K := { s1 with boneMapping := mapInsert s1.boneMapping bone.name currentIdx }
    let s3 : Machine K :=
      if parentIdx ≠ -1 then
        { s2 with
          bones := modifyBone (fun b => { b with children := b.children ++ [currentIdx] }) parentIdx s2.bones }
      else s2
    processChildren uninit mChildren currentIdx s3
/-- The loop `for (i < node->mNumChildren) processNode(node->mChildren[i], currentIdx)`. -/
def processChildren (uninit : Mat4 K) : List (Node K) → Int → Machine K → Machine K
  | [], _, s => s
  | c :: cs, currentIdx, s => processChildren uninit cs currentIdx (processNode uninit c currentIdx s)
end

mutual
/-- Names of the nodes of a tree in the order `processNode` visits them (pre-order). -/
def nodeNames : Node K → List String
  | Node.mk mName _ mChildren => mName :: nodeNamesList mChildren
/-- Names of the nodes of a list of trees, in visiting order. -/
def nodeNamesList : List (Node K) → List String
  | [] => []
  | c :: cs => nodeNames c ++ nodeNamesList cs
end

end Skeleton

/-! ## Keyframe sampler -/

/-- Values standing for what a read outside an array returns. -/
structure Undef (K : Type) where
  vecKey : Key K (Vec3 K)
  quatKey : Key K (Quat K)
  animation : Animation K

section Sampler

variable [LinearOrderedField K]

/-- The loop `for (; i < bound; i++) if (t < keys[i+1].mTime) return i; return 0;` with
`remaining = bound - i` iterations left. -/
def findKeyLoop {V : Type} (junk : Key K V) (animationTime : K) (keys : List (Key K V)) :
    Nat → Nat → Nat
  | 0, _ => 0
  | remaining + 1, i =>
    if animationTime < (keys.getD (i + 1) junk).mTime then i
    else findKeyLoop junk animationTime keys remaining (i + 1)

/-- The common body of `findRotation`, `findPosition`, `findScaling`:
`for (unsigned i = 0; i < numKeys - 1; i++) if (t < keys[i+1].mTime) return i; return 0;`
with `numKeys - 1` computed on 32-bit unsigned integers. -/
def findKey {V : Type} (junk : Key K V) (animationTime : K) (keys : List (Key K V)) : Nat :=
  findKeyLoop junk animationTime keys ((keys.length + 4294967295) % 4294967296) 0

/-- `FBXStateMachine::findRotation`. -/
def findRotation (u : Undef K) (animationTime : K) (pNodeAnim : NodeAnim K) : Nat :=
  findKey u.quatKey animationTime pNodeAnim.mRotationKeys

/-- `FBXStateMachine::findPosition`. -/
def findPosition (u : Undef K) (animationTime : K) (pNodeAnim : NodeAnim K) : Nat :=
  findKey u.vecKey animationTime pNodeAnim.mPositionKeys

/-- `FBXStateMachine::findScaling`. -/
def findScaling (u : Undef K) (animationTime : K) (pNodeAnim : NodeAnim K) : Nat :=
  findKey u.vecKey animationTime pNodeAnim.mScalingKeys

/-- `FBXStateMachine::calcInterpolatedRotation`. -/
def calcInterpolatedRotation (lib : Lib K) (u : Undef K) (animationTime : K)
    (pNodeAnim : NodeAnim K) : Quat K :=
  if pNodeAnim.mRotationKeys.length = 1 then
    (pNodeAnim.mRotationKeys.getD 0 u.quatKey).mValue
  else
    let rotationIndex := findRotation u animationTime pNodeAnim
    let nextRotationIndex := (rotationIndex + 1) % 4294967296
    let deltaTime := (pNodeAnim.mRotationKeys.getD nextRotationIndex u.quatKey).mTime
      - (pNodeAnim.mRotationKeys.getD rotationIndex u.quatKey).mTime
    let factor :=
      (animationTime - (pNodeAnim.mRotationKeys.getD rotationIndex u.quatKey).mTime) / deltaTime
    let startRotationQ := (pNodeAnim.mRotationKeys.getD rotationIndex u.quatKey).mValue
    let endRotationQ := (pNodeAnim.mRotationKeys.getD nextRotationIndex u.quatKey).mValue
    lib.quatNormalize (lib.quatInterpolate startRotationQ endRotationQ factor)

/-- `FBXStateMachine::calcInterpolatedPosition`. -/
def calcInterpolatedPosition (u : Undef K) (animationTime : K) (pNodeAnim : NodeAnim K) :
    Vec3 K :=
  if pNodeAnim.mPositionKeys.length = 1 then
    (pNodeAnim.mPositionKeys.getD 0 u.vecKey).mValue
  else
    let positionIndex := findPosition u animationTime pNodeAnim
    let nextPositionIndex := (positionIndex + 1) % 4294967296
    let deltaTime := (pNodeAnim.mPositionKeys.getD nextPositionIndex u.vecKey).mTime
      - (pNodeAnim.mPositionKeys.getD positionIndex u.vecKey).mTime
    let factor :=
      (animationTime - (pNodeAnim.mPositionKeys.getD positionIndex u.vecKey).mTime) / deltaTime
    let start := (pNodeAnim.mPositionKeys.getD positionIndex u.vecKey).mValue
    let endValue := (pNodeAnim.mPositionKeys.getD nextPositionIndex u.vecKey).mValue
    let delta := Vec3.sub endValue start
    Vec3.add start (Vec3.smul factor delta)

/-- `FBXStateMachine::calcInterpolatedScaling`. -/
def calcInterpolatedScaling (u : Undef K) (animationTime : K) (pNodeAnim : NodeAnim K) :
    Vec3 K :=
  if pNodeAnim.mScalingKeys.length = 1 then
    (pNodeAnim.mScalingKeys.getD 0 u.vecKey).mValue
  else
    let scalingIndex := findScaling u animationTime pNodeAnim
    let nextScalingIndex := (scalingIndex + 1) % 4294967296
    let deltaTime := (pNodeAnim.mScalingKeys.getD nextScalingIndex u.vecKey).mTime
      - (pNodeAnim.mScalingKeys.getD scalingIndex u.vecKey).mTime
    let factor :=
      (animationTime - (pNodeAnim.mScalingKeys.getD scalingIndex u.vecKey).mTime) / deltaTime
    let start := (pNodeAnim.mScalingKeys.getD scalingIndex u.vecKey).mValue
    let endValue := (pNodeAnim.mScalingKeys.getD nextScalingIndex u.vecKey).mValue
    let delta := Vec3.sub endValue start
    Vec3.add start (Vec3.smul factor delta)

/-- `FBXStateMachine::findNodeAnim`; a null `pAnimation` is `none`. -/
def findNodeAnim (pAnimation : Option (Animation K)) (nodeName : String) : Option (NodeAnim K) :=
  match pAnimation with
  | none => none
  | some anim => anim.mChannels.find? (fun pNodeAnim => decide (pNodeAnim.mNodeName = nodeName))

end Sampler

/-! ## Hierarchy evaluator -/

section Evaluator

variable [LinearOrderedField K]

/-- `glm::scale(glm::mat4(1.0f), v)`. -/
def scaleM (v : Vec3 K) : Mat4 K :=
  !![v.x, 0, 0, 0; 0, v.y, 0, 0; 0, 0, v.z, 0; 0, 0, 0, 1]

/-- `glm::translate(glm::mat4(1.0f), v)`. -/
def translateM (v : Vec3 K) : Mat4 K :=
  !![1, 0, 0, v.x; 0, 1, 0, v.y; 0, 0, 1, v.z; 0, 0, 0, 1]

/-- The local transform `readNodeHierarchy` uses for a node: the sampled
`translationM * rotationM * scalingM` when the animation has a channel for the node,
the node's rest transform otherwise. -/
def nodeLocalTransform (lib : Lib K) (u : Undef K) (animationTime : K)
    (pAnimation : Option (Animation K)) (nodeName : String) (mTransformation : Mat4 K) : Mat4 K :=
  match findNodeAnim pAnimation nodeName with
  | some pNodeAnim =>
    let scalingM := scaleM (calcInterpolatedScaling u animationTime pNodeAnim)
    let rotationM := lib.quatGetMatrix (calcInterpolatedRotation lib u animationTime pNodeAnim)
    let translationM := translateM (calcInterpolatedPosition u animationTime pNodeAnim)
    translationM * rotationM * scalingM
  | none => mTransformation

/-- The write `bones[boneIndex].worldTransform = globalTransform;
bones[boneIndex].finalTransform = globalInverseTransform * globalTransform * offsetMatrix`
of `readNodeHierarchy`, done when `boneMapping` holds the node name. -/
def writeBone (nodeName : String) (globalTransform : Mat4 K) (s : Machine K) : Machine K :=
  match s.boneMapping nodeName with
  | some boneIndex =>
    { s with
      bones := modifyBone (fun b => { b with worldTransform := globalTransform, finalTransform := s.globalInverseTransform * globalTransform * b.offsetMatrix }) boneIndex s.bones }
  | none => s

mutual
/-- `FBXStateMachine::readNodeHierarchy`. -/
def readNodeHierarchy (lib : Lib K) (u : Undef K) (animationTime : K) :
    Node K → Mat4 K → Option (Animation K) → Machine K → Machine K
  | Node.mk mName mTransformation mChildren, parentTransform, pAnimation, s =>
    let nodeTransform := nodeLocalTransform lib u animationTime pAnimation mName mTransformation
    let globalTransform := parentTransform * nodeTransform
    readChildren lib u animationTime mChildren globalTransform pAnimation
      (writeBone mName globalTransform s)
/-- The loop over `pNode->mChildren` at the end of `readNodeHierarchy`. -/
def readChildren (lib : Lib K) (u : Undef K) (animationTime : K) :
    List (Node K) → Mat4 K → Option (Animation K) → Machine K → Machine K
  | [], _, _, s => s
  | c :: cs, globalTransform, pAnimation, s =>
    readChildren lib u animationTime cs globalTransform pAnimation
      (readNodeHierarchy lib u animationTime c globalTransform pAnimation s)
end

end Evaluator

/-! ## Animation state machine -/

section StateMachine

variable [LinearOrderedField K] [FloorRing K]

/-- `FBXStateMachine::setState`. -/
def setState (s : Machine K) (state : State) : Machine K :=
  if s.currentState = state then s
  else { s with nextState := state, isCrossfading := true, crossfadeTime := 0 }

/-- `FBXStateMachine::setAnimationMapping`. -/
def setAnimationMapping (s : Machine K) (state : State) (clipIndex : Int) : Machine K :=
  { s with stateToClipIndex := mapInsert s.stateToClipIndex state clipIndex }

/-- `fmod` of `<cmath>` in exact arithmetic: `x - n * y` with `n` the quotient `x / y`
rounded toward zero. -/
def fmod (x y : K) : K :=
  x - ((if 0 ≤ x / y then ⌊x / y⌋ else ⌈x / y⌉ : Int) : K) * y

/-- `std::map::operator[]` used as a read: the stored value, or `0` inserted when the key
is missing.  Returns the value and the map afterwards. -/
def mapIndex {α : Type} [DecidableEq α] (m : α → Option Int) (k : α) : Int × (α → Option Int) :=
  match m k with
  | some v => (v, m)
  | none => (0, mapInsert m k 0)

/-- `scene->mAnimations[i]` for an `int` index. -/
def animationAt (u : Undef K) (anims : List (Animation K)) (i : Int) : Animation K :=
  if 0 ≤ i then anims.getD i.toNat u.animation else u.animation

/-- The crossfade bookkeeping at the end of `FBXStateMachine::update`. -/
def advanceCrossfade (s : Machine K) (dt : K) : Machine K :=
  if s.isCrossfading = true then
    let s1 : Machine K := { s with crossfadeTime := s.crossfadeTime + dt }
    if s1.crossfadeTime ≥ s1.crossfadeDuration then
      { s1 with currentState := s1.nextState, isCrossfading := false }
    else s1
  else s

/-- `FBXStateMachine::update`. -/
def update (lib : Lib K) (u : Undef K) (s : Machine K) (dt : K) : Machine K :=
  match s.scene with
  | none => s
  | some scene =>
    if scene.mAnimations.length = 0 then s
    else
      let s1 : Machine K := { s with currentTime := s.currentTime + dt }
      let clip := mapIndex s1.stateToClipIndex s1.currentState
      let s2 : Machine K := { s1 with stateToClipIndex := clip.2 }
      let pAnimation := animationAt u scene.mAnimations clip.1
      let ticksPerSecond := if pAnimation.mTicksPerSecond ≠ 0 then pAnimation.mTicksPerSecond else 25
      let timeInTicks := s2.currentTime * ticksPerSecond
      let animationTime := fmod timeInTicks pAnimation.mDuration
      let s3 := readNodeHierarchy lib u animationTime scene.mRootNode 1 (some pAnimation) s2
      let s4 : Machine K := { s3 with finalBoneMatrices := s3.bones.map (fun b => b.finalTransform) }
      advanceCrossfade s4 dt

end StateMachine

/-! ## Capsule colliders and raycast -/

/-- `struct Capsule`; `endPoint` is the member `end`. -/
structure Capsule (K : Type) where
  boneName : String
  radius : K
  height : K
  damageMultiplier : K
  start : Vec3 K
  endPoint : Vec3 K

/-- `struct HitResult`. -/
structure HitResult (K : Type) where
  boneName : String
  position : Vec3 K
  normal : Vec3 K
  damage : K

section Physics

variable [LinearOrderedField K]

/-- `glm::normalize`: `v * inversesqrt(dot(v, v))`. -/
def normalize (lib : Lib K) (v : Vec3 K) : Vec3 K :=
  Vec3.smul (1 / lib.sqrt (Vec3.dot v v)) v

/-- `CharacterPhysics::rayCapsuleIntersection`: `some t` when the function returns `true`
with the out-parameter set to `t`, `none` when it returns `false`. -/
def rayCapsuleIntersection (lib : Lib K) (ro rd a b : Vec3 K) (r : K) : Option K :=
  let ba := Vec3.sub b a
  let oa := Vec3.sub ro a
  let baba := Vec3.dot ba ba
  let bard := Vec3.dot ba rd
  let baoa := Vec3.dot ba oa
  let rdoa := Vec3.dot rd oa
  let oaoa := Vec3.dot oa oa
  let a_coeff := baba - bard * bard
  let b_coeff := baba * rdoa - baoa * bard
  let c_coeff := baba * oaoa - baoa * baoa - r * r * baba
  let h := b_coeff * b_coeff - a_coeff * c_coeff
  if h ≥ 0 then
    let t := (-b_coeff - lib.sqrt h) / a_coeff
    let y := baoa + t * bard
    if y > 0 ∧ y < baba then some t
    else
      let oc := if y ≤ 0 then oa else Vec3.sub ro b
      let b_coeff := Vec3.dot rd oc
      let c_coeff := Vec3.dot oc oc - r * r
      let h := b_coeff * b_coeff - c_coeff
      if h ≥ 0 then some (-b_coeff - lib.sqrt h) else none
  else none

/-- The local variables `minDist`, `found` and the out-parameter `hit` of `raycast`. -/
structure RayState (K : Type) where
  minDist : K
  found : Bool
  hit : HitResult K

/-- One iteration of the loop over `colliders` in `CharacterPhysics::raycast`. -/
def raycastStep (lib : Lib K) (rayOrigin rayDir : Vec3 K) (st : RayState K) (cap : Capsule K) :
    RayState K :=
  match rayCapsuleIntersection lib rayOrigin rayDir cap.start cap.endPoint cap.radius with
  | some t =>
    if t < st.minDist then
      let position := Vec3.add rayOrigin (Vec3.smul t rayDir)
      { minDist := t,
        found := true,
        hit :=
          { boneName := cap.boneName,
            position := position,
            normal := normalize lib
              (Vec3.sub position (Vec3.smul (1 / 2) (Vec3.add cap.start cap.endPoint))),
            damage := cap.damageMultiplier } }
    else st
  | none => st

/-- The loop of `CharacterPhysics::raycast` with its final local state. -/
def raycastLoop (lib : Lib K) (colliders : List (Capsule K)) (rayOrigin rayDir : Vec3 K)
    (maxDist : K) (hit : HitResult K) : RayState K :=
  colliders.foldl (raycastStep lib rayOrigin rayDir) { minDist := maxDist, found := false, hit := hit }

/-- `CharacterPhysics::raycast`: the returned flag and the out-parameter `hit` afterwards. -/
def raycast (lib : Lib K) (colliders : List (Capsule K)) (rayOrigin rayDir : Vec3 K)
    (maxDist : K) (hit : HitResult K) : Bool × HitResult K :=
  let st := raycastLoop lib colliders rayOrigin rayDir maxDist hit
  (st.found, st.hit)

end Physics

/-! ## Capsule repositioning (`CharacterPhysics::update`) -/

section PhysicsUpdate

variable [LinearOrderedField K]

/-- `glm::vec3(M * glm::vec4(p, 1))`: the point `p` mapped through the matrix `M`. -/
def transformPoint (M : Mat4 K) (p : Vec3 K) : Vec3 K :=
  ⟨M 0 0 * p.x + M 0 1 * p.y + M 0 2 * p.z + M 0 3,
   M 1 0 * p.x + M 1 1 * p.y + M 1 2 * p.z + M 1 3,
   M 2 0 * p.x + M 2 1 * p.y + M 2 2 * p.z + M 2 3⟩

/-- The body of the outer loop of `CharacterPhysics::update` for one capsule: the first bone
in index order whose name is the capsule's bone name repositions it; without such a bone
the capsule is left as it is. -/
def updateCapsule (bones : List (Bone K)) (modelTransform : Mat4 K) (cap : Capsule K) :
    Capsule K :=
  match bones.find? (fun bone => decide (bone.name = cap.boneName)) with
  | some bone =>
    let boneWorld := modelTransform * bone.finalTransform
    { cap with
      start := transformPoint boneWorld ⟨0, 0, 0⟩,
      endPoint := transformPoint boneWorld ⟨0, cap.height, 0⟩ }
  | none => cap

/-- `CharacterPhysics::setupColliders`: the new value of the member `colliders`. -/
def CharacterPhysics.setupColliders (config : List (Capsule K)) : List (Capsule K) := config

/-- `CharacterPhysics::update`: the member `colliders` afterwards. -/
def CharacterPhysics.update (colliders : List (Capsule K)) (bones : List (Bone K))
    (modelTransform : Mat4 K) : List (Capsule K) :=
  colliders.map (updateCapsule bones modelTransform)

end PhysicsUpdate

/-! ## Loading (`FBXStateMachine::loadFBX`) -/

section Loading

variable [LinearOrderedField K]

/-- `aiMatrix4x4::Inverse` in exact arithmetic: the adjugate divided by the determinant. -/
def matInverse (A : Mat4 K) : Mat4 K := (A.det)⁻¹ • A.adjugate

/-- The assignment `bones[boneMapping[boneName]].offsetMatrix = ...` that `loadFBX` makes
for a mesh bone whose name is in `boneMapping`. -/
def applyOffset (s : Machine K) (aiBone : AiBone K) : Machine K :=
  match s.boneMapping aiBone.mName with
  | some boneIdx =>
    { s with
      bones := modifyBone (fun b => { b with offsetMatrix := aiBone.mOffsetMatrix }) boneIdx s.bones }
  | none => s

/-- `FBXStateMachine::loadFBX`, restricted to the members of `Machine`.  `imported` is the
result of `importer.ReadFile(path, ...)`: `none` when the import yields no scene. -/
def loadFBX (lib : Lib K) (u : Undef K) (uninit : Mat4 K) (imported : Option (Scene K))
    (s : Machine K) : Machine K :=
  match imported with
  | none => { s with scene := none }
  | some scene =>
    let s1 : Machine K :=
      { s with scene := some scene, bones := [], boneMapping := fun _ => none }
    let s2 := processNode uninit scene.mRootNode (-1) s1
    let s3 := scene.mMeshBones.foldl (fun acc mesh => mesh.foldl applyOffset acc) s2
    let s4 : Machine K :=
      { s3 with globalInverseTransform := matInverse scene.mRootNode.mTransformation }
    let s5 := readNodeHierarchy lib u 0 scene.mRootNode 1 none s4
    { s5 with finalBoneMatrices := s5.bones.map (fun b => b.finalTransform) }

end Loading

/-! ## Matrix blending (`AnimationMixer::blend`) -/

section Mixer

variable [LinearOrderedField K]

/-- `AnimationMixer::blend`.  `junk` stands for a read of `b[i]` outside `b`. -/
def AnimationMixer.blend (junk : Mat4 K) (a b : List (Mat4 K)) (alpha : K) : List (Mat4 K) :=
  if alpha ≤ 0 then a
  else if alpha ≥ 1 then b
  else
    (List.range a.length).map
      (fun i => (1 - alpha) • a.getD i junk + alpha • b.getD i junk)

end Mixer

/-! ## Specification predicates -/

/-- A list of parent indices is in topological order from position `base` on: the entry at
position `base + k` lies in `[lo, base + k)`. -/
def TopoFrom : Nat → Int → List Int → Prop
  | _, _, [] => True
  | base, lo, x :: xs => (lo ≤ x ∧ x < (base : Int)) ∧ TopoFrom (base + 1) lo xs

/-- The list of parent indices of the bones of a machine. -/
def parents (s : Machine K) : List Int := s.bones.map Bone.parentIndex

/-- The skinning equation of a bone: `finalTransform = globalInverse * world * offset`. -/
def FinalOk [Field K] (globalInverse : Mat4 K) (b : Bone K) : Prop :=
  b.finalTransform = globalInverse * b.worldTransform * b.offsetMatrix

/-- The bone at index `i` of a machine, when there is one, satisfies the skinning equation. -/
def GoodAt [Field K] (s : Machine K) (i : Nat) : Prop :=
  ∀ b, s.bones[i]? = some b → FinalOk s.globalInverseTransform b

/-- The name-to-index map after inserting `names` with consecutive indices from `start`,
in order (later insertions overwrite earlier ones). -/
def insertNames : List String → Nat → (String → Option Int) → (String → Option Int)
  | [], _, m => m
  | n :: ns, start, m => insertNames ns (start + 1) (mapInsert m n (start : Int))

/-- The hit recorded in a loop state of `raycast` is the one of a capsule `l[i]` whose
intersection distance `t` is the running minimum, is below `maxDist`, and is strictly below
the distance of every capsule earlier in `l`. -/
def EarliestHit [LinearOrderedField K] (lib : Lib K) (rayOrigin rayDir : Vec3 K) (maxDist : K)
    (l : List (Capsule K)) (st : RayState K) : Prop :=
  ∃ (i : Nat) (cap : Capsule K) (t : K), l[i]? = some cap ∧
    rayCapsuleIntersection lib rayOrigin rayDir cap.start cap.endPoint cap.radius = some t ∧
    t < maxDist ∧ st.minDist = t ∧
    (∀ (j : Nat) (c' : Capsule K) (t' : K), j < i → l[j]? = some c' →
      rayCapsuleIntersection lib rayOrigin rayDir c'.start c'.endPoint c'.radius = some t' →
      t < t') ∧
    st.hit.boneName = cap.boneName ∧ st.hit.damage = cap.damageMultiplier ∧
    st.hit.position = Vec3.add rayOrigin (Vec3.smul t rayDir)

/-- Invariant of the loop of `raycast` after the capsules `l` have been processed: the running
minimum is at most `maxDist` and at most every intersection distance seen, and once `found`
is set the recorded hit is the earliest nearest one. -/
def RayInv [LinearOrderedField K] (lib : Lib K) (rayOrigin rayDir : Vec3 K) (maxDist : K)
    (l : List (Capsule K)) (st : RayState K) : Prop :=
  st.minDist ≤ maxDist ∧
    (∀ c' ∈ l, ∀ t',
      rayCapsuleIntersection lib rayOrigin rayDir c'.start c'.endPoint c'.radius = some t' →
      st.minDist ≤ t') ∧
    (st.found = true → EarliestHit lib rayOrigin rayDir maxDist l st)

/-- The time at which `update` samples a clip when the playback clock is `clock`:
`fmod(clock * tps, duration)` with `tps` the clip's ticks-per-second if non-zero and `25`
otherwise. -/
def clipTime [LinearOrderedField K] [FloorRing K] (clip : Animation K) (clock : K) : K :=
  fmod (clock * (if clip.mTicksPerSecond ≠ 0 then clip.mTicksPerSecond else 25)) clip.mDuration

mutual
/-- World transforms of the nodes of a tree in pre-order: each node's world transform is its
parent's world transform times its local transform `localOf name rest` (the product of the
local transforms along the path from the root to the node). -/
def worldList [Field K] (localOf : String → Mat4 K → Mat4 K) : Node K → Mat4 K → List (Mat4 K)
  | Node.mk mName mTransformation mChildren, parent =>
    (parent * localOf mName mTransformation)
      :: worldListChildren localOf mChildren (parent * localOf mName mTransformation)
/-- World transforms of the nodes of a list of sibling trees, in pre-order. -/
def worldListChildren [Field K] (localOf : String → Mat4 K → Mat4 K) :
    List (Node K) → Mat4 K → List (Mat4 K)
  | [], _ => []
  | c :: cs, parent => worldList localOf c parent ++ worldListChildren localOf cs parent
end

/-- The local `a_coeff = baba - bard * bard` of `rayCapsuleIntersection`. -/
def capsuleACoeff [Field K] (rd a b : Vec3 K) : K :=
  Vec3.dot (Vec3.sub b a) (Vec3.sub b a)
    - Vec3.dot (Vec3.sub b a) rd * Vec3.dot (Vec3.sub b a) rd

/-- The first value of the local `b_coeff = baba * rdoa - baoa * bard`. -/
def capsuleBCoeff [Field K] (ro rd a b : Vec3 K) : K :=
  Vec3.dot (Vec3.sub b a) (Vec3.sub b a) * Vec3.dot rd (Vec3.sub ro a)
    - Vec3.dot (Vec3.sub b a) (Vec3.sub ro a) * Vec3.dot (Vec3.sub b a) rd

/-- The first value of the local `c_coeff = baba * oaoa - baoa * baoa - r * r * baba`. -/
def capsuleCCoeff [Field K] (ro a b : Vec3 K) (r : K) : K :=
  Vec3.dot (Vec3.sub b a) (Vec3.sub b a) * Vec3.dot (Vec3.sub ro a) (Vec3.sub ro a)
    - Vec3.dot (Vec3.sub b a) (Vec3.sub ro a) * Vec3.dot (Vec3.sub b a) (Vec3.sub ro a)
    - r * r * Vec3.dot (Vec3.sub b a) (Vec3.sub b a)

/-- The first value of the local `h = b_coeff * b_coeff - a_coeff * c_coeff`, the
discriminant of the infinite cylinder. -/
def capsuleDiscriminant [Field K] (ro rd a b : Vec3 K) (r : K) : K :=
  capsuleBCoeff ro rd a b * capsuleBCoeff ro rd a b
    - capsuleACoeff rd a b * capsuleCCoeff ro a b r

/-- The value `(-b_coeff - sqrt(h)) / a_coeff` assigned to `t` on the path `h >= 0`. -/
def cylinderT [Field K] (lib : Lib K) (ro rd a b : Vec3 K) (r : K) : K :=
  (-capsuleBCoeff ro rd a b - lib.sqrt (capsuleDiscriminant ro rd a b r)) / capsuleACoeff rd a b

/-- The second value of the local `h = b_coeff * b_coeff - c_coeff`, the discriminant of the
sphere around the end point selected for the cap test (`oc` is the ray origin relative to
it). -/
def capDiscriminant [Field K] (rd oc : Vec3 K) (r : K) : K :=
  Vec3.dot rd oc * Vec3.dot rd oc - (Vec3.dot oc oc - r * r)

/-- The cap test of `rayCapsuleIntersection` against the end point `oc = ro - c`. -/
def capTest [LinearOrderedField K] (lib : Lib K) (rd oc : Vec3 K) (r : K) : Option K :=
  if capDiscriminant rd oc r ≥ 0 then
    some (-(Vec3.dot rd oc) - lib.sqrt (capDiscriminant rd oc r))
  else none

/-- The machine states reachable from `s0` by calls of `setState`, `setAnimationMapping`,
`update` and `loadFBX` with arbitrary arguments. -/
inductive Reachable [LinearOrderedField K] [FloorRing K] (lib : Lib K) (u : Undef K)
    (s0 : Machine K) : Machine K → Prop where
  | start : Reachable lib u s0 s0
  | afterSetState (s : Machine K) (state : State) :
      Reachable lib u s0 s → Reachable lib u s0 (setState s state)
  | afterSetAnimationMapping (s : Machine K) (state : State) (clipIndex : Int) :
      Reachable lib u s0 s → Reachable lib u s0 (setAnimationMapping s state clipIndex)
  | afterUpdate (s : Machine K) (dt : K) :
      Reachable lib u s0 s → Reachable lib u s0 (update lib u s dt)
  | afterLoadFBX (s : Machine K) (uninit : Mat4 K) (imported : Option (Scene K)) :
      Reachable lib u s0 s → Reachable lib u s0 (loadFBX lib u uninit imported s)

/-- The crossfade flag is set exactly when the target state differs from the current one. -/
def FlagMatchesTarget (s : Machine K) : Prop :=
  s.isCrossfading = true ↔ s.nextState ≠ s.currentState

/-- The machine after `n` consecutive calls `update(dt)`. -/
def updateTimes [LinearOrderedField K] [FloorRing K] (lib : Lib K) (u : Undef K) (dt : K) :
    Nat → Machine K → Machine K
  | 0, s => s
  | n + 1, s => update lib u (updateTimes lib u dt n s) dt

/-- The part of a bone that `processNode` fixes and no later code changes: parent index,
name and rest transform. -/
def boneSkel (b : Bone K) : Int × String × Mat4 K := (b.parentIndex, b.name, b.localTransform)

mutual
/-- Parent index, name and rest transform of the nodes of a tree in pre-order, when the root
of the tree has parent index `parent` and receives the index `start`. -/
def skelList [Field K] : Node K → Int → Nat → List (Int × String × Mat4 K)
  | Node.mk mName mTransformation mChildren, parent, start =>
    (parent, mName, mTransformation) :: skelListChildren mChildren (start : Int) (start + 1)
/-- Parent index, name and rest transform of the nodes of a list of sibling trees whose
common parent has index `parent`, the first node receiving the index `start`. -/
def skelListChildren [Field K] : List (Node K) → Int → Nat → List (Int × String × Mat4 K)
  | [], _, _ => []
  | c :: cs, parent, start =>
    skelList c parent start ++ skelListChildren cs parent (start + (nodeNames c).length)
end

/-! ## Evaluation with rounding

The definitions above compute in exact arithmetic.  The definitions of this section follow
the same source lines with every floating-point operation followed by the rounding of the
format it is carried out in (each operation rounded on its own, no fused multiply-add); with
the identity as rounding they are the definitions above.  Results are assumed to stay below
the overflow threshold (no infinity or NaN arises). -/

/-- The rounding functions of the floating-point formats the code computes in.  `f32` rounds
a result to `float` (binary32) and `f64` to `double` (binary64).  `wide` is the rounding of
the format in which the expressions around the unqualified call `sqrt(h)` of
`rayCapsuleIntersection` are evaluated: `float` where the call resolves to the `float`
overload, `double` where it resolves to `::sqrt(double)`. -/
structure Arith (K : Type) where
  f32 : K → K
  f64 : K → K
  wide : K → K

/-- Exact arithmetic: no rounding. -/
def exactArith : Arith K := { f32 := fun x => x, f64 := fun x => x, wide := fun x => x }

namespace Rounded

section RoundedModel

variable [LinearOrderedField K]

/-- Component-wise `float` sum (`operator+` of `glm::vec3` and `aiVector3D`). -/
def add (ar : Arith K) (u v : Vec3 K) : Vec3 K :=
  ⟨ar.f32 (u.x + v.x), ar.f32 (u.y + v.y), ar.f32 (u.z + v.z)⟩

/-- Component-wise `float` difference (`operator-` of `glm::vec3` and `aiVector3D`). -/
def sub (ar : Arith K) (u v : Vec3 K) : Vec3 K :=
  ⟨ar.f32 (u.x - v.x), ar.f32 (u.y - v.y), ar.f32 (u.z - v.z)⟩

/-- Product of a vector and a `float` scalar, component-wise. -/
def smul (ar : Arith K) (c : K) (v : Vec3 K) : Vec3 K :=
  ⟨ar.f32 (c * v.x), ar.f32 (c * v.y), ar.f32 (c * v.z)⟩

/-- `glm::dot` on `vec3`: `tmp = u * v; return tmp.x + tmp.y + tmp.z`. -/
def dot (ar : Arith K) (u v : Vec3 K) : K :=
  ar.f32 (ar.f32 (ar.f32 (u.x * v.x) + ar.f32 (u.y * v.y)) + ar.f32 (u.z * v.z))

/-- The loop of `findPosition` / `findScaling` with the cast `(float)keys[i+1].mTime`. -/
def findKeyLoop {V : Type} (ar : Arith K) (junk : Key K V) (animationTime : K)
    (keys : List (Key K V)) : Nat → Nat → Nat
  | 0, _ => 0
  | remaining + 1, i =>
    if animationTime < ar.f32 (keys.getD (i + 1) junk).mTime then i
    else findKeyLoop ar junk animationTime keys remaining (i + 1)

/-- The common body of `findPosition` and `findScaling`, `numKeys - 1` computed on 32-bit
unsigned integers. -/
def findKey {V : Type} (ar : Arith K) (junk : Key K V) (animationTime : K)
    (keys : List (Key K V)) : Nat :=
  findKeyLoop ar junk animationTime keys ((keys.length + 4294967295) % 4294967296) 0

/-- `FBXStateMachine::findPosition`. -/
def findPosition (ar : Arith K) (u : Undef K) (animationTime : K) (pNodeAnim : NodeAnim K) :
    Nat :=
  findKey ar u.vecKey animationTime pNodeAnim.mPositionKeys

/-- `FBXStateMachine::findScaling`. -/
def findScaling (ar : Arith K) (u : Undef K) (animationTime : K) (pNodeAnim : NodeAnim K) :
    Nat :=
  findKey ar u.vecKey animationTime pNodeAnim.mScalingKeys

/-- `FBXStateMachine::calcInterpolatedPosition`: the key times are `double`, their difference
is taken in `double` and cast to `float`; everything else is `float` arithmetic. -/
def calcInterpolatedPosition (ar : Arith K) (u : Undef K) (animationTime : K)
    (pNodeAnim : NodeAnim K) : Vec3 K :=
  if pNodeAnim.mPositionKeys.length = 1 then
    (pNodeAnim.mPositionKeys.getD 0 u.vecKey).mValue
  else
    let positionIndex := findPosition ar u animationTime pNodeAnim
    let nextPositionIndex := (positionIndex + 1) % 4294967296
    let deltaTime := ar.f32 (ar.f64
      ((pNodeAnim.mPositionKeys.getD nextPositionIndex u.vecKey).mTime
        - (pNodeAnim.mPositionKeys.getD positionIndex u.vecKey).mTime))
    let factor := ar.f32
      (ar.f32 (animationTime - ar.f32 (pNodeAnim.mPositionKeys.getD positionIndex u.vecKey).mTime)
        / deltaTime)
    let start := (pNodeAnim.mPositionKeys.getD positionIndex u.vecKey).mValue
    let endValue := (pNodeAnim.mPositionKeys.getD nextPositionIndex u.vecKey).mValue
    let delta := sub ar endValue start
    add ar start (smul ar factor delta)

/-- `FBXStateMachine::calcInterpolatedScaling`. -/
def calcInterpolatedScaling (ar : Arith K) (u : Undef K) (animationTime : K)
    (pNodeAnim : NodeAnim K) : Vec3 K :=
  if pNodeAnim.mScalingKeys.length = 1 then
    (pNodeAnim.mScalingKeys.getD 0 u.vecKey).mValue
  else
    let scalingIndex := findScaling ar u animationTime pNodeAnim
    let nextScalingIndex := (scalingIndex + 1) % 4294967296
    let deltaTime := ar.f32 (ar.f64
      ((pNodeAnim.mScalingKeys.getD nextScalingIndex u.vecKey).mTime
        - (pNodeAnim.mScalingKeys.getD scalingIndex u.vecKey).mTime))
    let factor := ar.f32
      (ar.f32 (animationTime - ar.f32 (pNodeAnim.mScalingKeys.getD scalingIndex u.vecKey).mTime)
        / deltaTime)
    let start := (pNodeAnim.mScalingKeys.getD scalingIndex u.vecKey).mValue
    let endValue := (pNodeAnim.mScalingKeys.getD nextScalingIndex u.vecKey).mValue
    let delta := sub ar endValue start
    add ar start (smul ar factor delta)

/-- `glm::normalize`: `v * inversesqrt(dot(v, v))` with `inversesqrt(x) = 1 / sqrt(x)`. -/
def normalize (ar : Arith K) (lib : Lib K) (v : Vec3 K) : Vec3 K :=
  smul ar (ar.f32 (1 / lib.sqrt (dot ar v v))) v

/-- `CharacterPhysics::rayCapsuleIntersection`.  `lib.sqrt` is the library function the call
`sqrt(h)` resolves to; the subtraction and the division around it are carried out in the
format `wide`, and the assignment to the `float` variable `t` rounds to `float`.  A zero
`a_coeff` (a NaN or an infinity in the source) is outside the model. -/
def rayCapsuleIntersection (ar : Arith K) (lib : Lib K) (ro rd a b : Vec3 K) (r : K) :
    Option K :=
  let ba := sub ar b a
  let oa := sub ar ro a
  let baba := dot ar ba ba
  let bard := dot ar ba rd
  let baoa := dot ar ba oa
  let rdoa := dot ar rd oa
  let oaoa := dot ar oa oa
  let a_coeff := ar.f32 (baba - ar.f32 (bard * bard))
  let b_coeff := ar.f32 (ar.f32 (baba * rdoa) - ar.f32 (baoa * bard))
  let c_coeff :=
    ar.f32 (ar.f32 (ar.f32 (baba * oaoa) - ar.f32 (baoa * baoa)) - ar.f32 (ar.f32 (r * r) * baba))
  let h := ar.f32 (ar.f32 (b_coeff * b_coeff) - ar.f32 (a_coeff * c_coeff))
  if h ≥ 0 then
    let t := ar.f32 (ar.wide (ar.wide (-b_coeff - lib.sqrt h) / a_coeff))
    let y := ar.f32 (baoa + ar.f32 (t * bard))
    if y > 0 ∧ y < baba then some t
    else
      let oc := if y ≤ 0 then oa else sub ar ro b
      let b_coeff := dot ar rd oc
      let c_coeff := ar.f32 (dot ar oc oc - ar.f32 (r * r))
      let h := ar.f32 (ar.f32 (b_coeff * b_coeff) - c_coeff)
      if h ≥ 0 then some (ar.f32 (ar.wide (-b_coeff - lib.sqrt h))) else none
  else none

/-- One iteration of the loop over `colliders` in `CharacterPhysics::raycast`. -/
def raycastStep (ar : Arith K) (lib : Lib K) (rayOrigin rayDir : Vec3 K) (st : RayState K)
    (cap : Capsule K) : RayState K :=
  match rayCapsuleIntersection ar lib rayOrigin rayDir cap.start cap.endPoint cap.radius with
  | some t =>
    if t < st.minDist then
      let position := add ar rayOrigin (smul ar t rayDir)
      { minDist := t,
        found := true,
        hit :=
          { boneName := cap.boneName,
            position := position,
            normal := normalize ar lib
              (sub ar position (smul ar (1 / 2) (add ar cap.start cap.endPoint))),
            damage := cap.damageMultiplier } }
    else st
  | none => st

/-- The loop of `CharacterPhysics::raycast` with its final local state. -/
def raycastLoop (ar : Arith K) (lib : Lib K) (colliders : List (Capsule K))
    (rayOrigin rayDir : Vec3 K) (maxDist : K) (hit : HitResult K) : RayState K :=
  colliders.foldl (raycastStep ar lib rayOrigin rayDir)
    { minDist := maxDist, found := false, hit := hit }

/-- `CharacterPhysics::raycast`: the returned flag and the out-parameter `hit` afterwards. -/
def raycast (ar : Arith K) (lib : Lib K) (colliders : List (Capsule K))
    (rayOrigin rayDir : Vec3 K) (maxDist : K) (hit : HitResult K) : Bool × HitResult K :=
  let st := raycastLoop ar lib colliders rayOrigin rayDir maxDist hit
  (st.found, st.hit)

end RoundedModel

end Rounded

/-- A two-node tree: `root` with the single child `hip`. -/
def demoTree : Node ℚ :=
  Node.mk "root" 1 [Node.mk "hip" 1 []]

/-- A machine as the constructor of `FBXStateMachine` leaves it (no scene, no bones,
`IDLE`, crossfade duration `0.2`). -/
def initialMachine : Machine ℚ :=
  { scene := none, bones := [], boneMapping := fun _ => none, finalBoneMatrices := [],
    globalInverseTransform := 1, currentState := State.IDLE, currentTime := 0,
    stateToClipIndex := fun _ => none, nextState := State.IDLE, crossfadeTime := 0,
    crossfadeDuration := 1 / 5, isCrossfading := false }

/-- The initial machine after `setState(RUN)` and `0.1` seconds of crossfade: current state
`IDLE`, target `RUN`, crossfade timer `1/10`, flag set. -/
def fadingMachine : Machine ℚ :=
  { initialMachine with nextState := State.RUN, isCrossfading := true, crossfadeTime := 1 / 10 }

/-- An animation of duration `1` with no channel. -/
def demoAnimation : Animation ℚ :=
  { mDuration := 1, mTicksPerSecond := 0, mChannels := [] }

/-- A scene with `demoTree` as hierarchy and one animation. -/
def demoScene : Scene ℚ :=
  { mRootNode := demoTree, mAnimations := [demoAnimation], mMeshBones := [] }

/-- Exact square root of a rational square: the integer square roots of numerator and
denominator. -/
def ratSqrt (q : ℚ) : ℚ := (Nat.sqrt q.num.toNat : ℚ) / (Nat.sqrt q.den : ℚ)

/-- A library instance over `ℚ`: exact root on squares, component-wise linear
interpolation for quaternions, no renormalisation, identity rotation matrix. -/
def demoLib : Lib ℚ :=
  { sqrt := ratSqrt,
    quatInterpolate := fun a b f =>
      ⟨a.w + f * (b.w - a.w), a.x + f * (b.x - a.x), a.y + f * (b.y - a.y), a.z + f * (b.z - a.z)⟩,
    quatNormalize := fun q => q,
    quatGetMatrix := fun _ => 1 }

/-- Values returned for reads outside an array in the concrete runs. -/
def demoUndef : Undef ℚ :=
  { vecKey := ⟨0, ⟨0, 0, 0⟩⟩, quatKey := ⟨0, ⟨1, 0, 0, 0⟩⟩, animation := demoAnimation }

/-- A hit record as the caller passes it in, before the query. -/
def demoHit : HitResult ℚ :=
  { boneName := "", position := ⟨0, 0, 0⟩, normal := ⟨0, 0, 0⟩, damage := 0 }

/-- Two capsules with the same geometry (radius `1`, axis from `(0,0,0)` to `(0,2,0)`) owned
by different bones: every ray meets both at the same distance. -/
def tiedCapsules : List (Capsule ℚ) :=
  [{ boneName := "hip", radius := 1, height := 2, damageMultiplier := 3,
     start := ⟨0, 0, 0⟩, endPoint := ⟨0, 2, 0⟩ },
   { boneName := "arm", radius := 1, height := 2, damageMultiplier := 5,
     start := ⟨0, 0, 0⟩, endPoint := ⟨0, 2, 0⟩ }]

/-- A bone `hip` after an evaluation pass with identity global inverse: world transform the
identity, bind-pose offset the translation by `(1,0,0)`, hence final transform that
translation. -/
def offsetBone : Bone ℚ :=
  { name := "hip", offsetMatrix := translateM ⟨1, 0, 0⟩, localTransform := 1,
    finalTransform := translateM ⟨1, 0, 0⟩, parentIndex := -1, children := [],
    worldTransform := 1 }

/-- A capsule for the bone `hip` as `main` builds it: start and end zero-initialised. -/
def hipCapsule : Capsule ℚ :=
  { boneName := "hip", radius := 1, height := 2, damageMultiplier := 3,
    start := ⟨0, 0, 0⟩, endPoint := ⟨0, 0, 0⟩ }

/-- A capsule whose bone name `ghost` is the name of no bone, as `main` builds it. -/
def ghostCapsule : Capsule ℚ :=
  { boneName := "ghost", radius := 1, height := 2, damageMultiplier := 3,
    start := ⟨0, 0, 0⟩, endPoint := ⟨0, 0, 0⟩ }

/-- An animation of duration `1` whose ticks-per-second value is `-1`. -/
def backwardAnimation : Animation ℚ :=
  { mDuration := 1, mTicksPerSecond := -1, mChannels := [] }

/-- A scene with `demoTree` as hierarchy whose only animation is `backwardAnimation`. -/
def backwardScene : Scene ℚ :=
  { mRootNode := demoTree, mAnimations := [backwardAnimation], mMeshBones := [] }

/-- The initial machine holding `backwardScene`. -/
def backwardMachine : Machine ℚ :=
  { initialMachine with scene := some backwardScene }

/-- The initial machine holding `demoScene`. -/
def sceneMachine : Machine ℚ :=
  { initialMachine with scene := some demoScene }

/-- A one-entry matrix list: the identity. -/
def blendA : List (Mat4 ℚ) := [1]

/-- A one-entry matrix list: the scaling by `3`. -/
def blendB : List (Mat4 ℚ) := [scaleM ⟨3, 3, 3⟩]

/-- A two-node tree whose nodes share the name `a`: the root has the scaling by `2` as rest
transform, its child the identity. -/
def dupTree : Node ℚ :=
  Node.mk "a" (scaleM ⟨2, 2, 2⟩) [Node.mk "a" 1 []]

/-- A channel whose three tracks have two keys each, at times `0` and `1`. -/
def demoChannel : NodeAnim ℚ :=
  { mNodeName := "hip",
    mPositionKeys := [⟨0, ⟨0, 0, 0⟩⟩, ⟨1, ⟨1, 1, 1⟩⟩],
    mRotationKeys := [⟨0, ⟨1, 0, 0, 0⟩⟩, ⟨1, ⟨0, 1, 0, 0⟩⟩],
    mScalingKeys := [⟨0, ⟨1, 1, 1⟩⟩, ⟨1, ⟨2, 2, 2⟩⟩] }

/-- A capsule for the bone `hip` along the `y` axis from the origin to `(0,2,0)`, radius `1`. -/
def axisCapsule : Capsule ℚ :=
  { boneName := "hip", radius := 1, height := 2, damageMultiplier := 3,
    start := ⟨0, 0, 0⟩, endPoint := ⟨0, 2, 0⟩ }

/-- A two-node tree with non-trivial rest transforms: `root` (scaling by `2`) with the single
child `hip` (translation by `(5,0,0)`). -/
def poseTree : Node ℚ :=
  Node.mk "root" (scaleM ⟨2, 2, 2⟩) [Node.mk "hip" (translateM ⟨5, 0, 0⟩) []]

/-- An animation of duration `1` whose only channel is `demoChannel`, the channel of `hip`. -/
def hipAnimation : Animation ℚ :=
  { mDuration := 1, mTicksPerSecond := 0, mChannels := [demoChannel] }

section SkeletonTheorems

theorem topoFrom_append (l₁ l₂ : List Int) (base : Nat) (lo : Int) :
    TopoFrom base lo (l₁ ++ l₂) ↔ TopoFrom base lo l₁ ∧ TopoFrom (base + l₁.length) lo l₂ := by
  induction l₁ generalizing base with
  | nil => simp [TopoFrom]
  | cons x xs ih =>
    have hlen : base + 1 + xs.length = base + (xs.length + 1) := by omega
    have e1 : TopoFrom base lo (x :: xs ++ l₂)
        = ((lo ≤ x ∧ x < (base : Int)) ∧ TopoFrom (base + 1) lo (xs ++ l₂)) := rfl
    have e2 : TopoFrom base lo (x :: xs)
        = ((lo ≤ x ∧ x < (base : Int)) ∧ TopoFrom (base + 1) lo xs) := rfl
    rw [e1, e2, ih (base + 1), hlen, List.length_cons]
    tauto

theorem topoFrom_mono (l : List Int) (base : Nat) (lo lo' : Int) (h : lo' ≤ lo)
    (ht : TopoFrom base lo l) : TopoFrom base lo' l := by
  induction l generalizing base with
  | nil => trivial
  | cons x xs ih =>
    obtain ⟨⟨h1, h2⟩, h3⟩ := ht
    exact ⟨⟨le_trans h h1, h2⟩, ih _ h3⟩

theorem topoFrom_getElem (l : List Int) (base : Nat) (lo : Int) (ht : TopoFrom base lo l)
    (k : Nat) (x : Int) (hk : l[k]? = some x) : lo ≤ x ∧ x < (base : Int) + k := by
  induction l generalizing base k with
  | nil => simp at hk
  | cons y ys ih =>
    obtain ⟨⟨h1, h2⟩, h3⟩ := ht
    cases k with
    | zero =>
      simp at hk
      subst hk
      exact ⟨h1, by simpa using h2⟩
    | succ k =>
      simp at hk
      have := ih (base + 1) h3 k hk
      refine ⟨this.1, ?_⟩
      have h4 := this.2
      push_cast at h4 ⊢
      omega

theorem map_parentIndex_modifyBone (f : Bone K → Bone K) (hf : ∀ b, (f b).parentIndex = b.parentIndex)
    (i : Int) (bones : List (Bone K)) :
    (modifyBone f i bones).map Bone.parentIndex = bones.map Bone.parentIndex := by
  unfold modifyBone
  split
  · generalize i.toNat = n
    induction bones generalizing n with
    | nil => simp
    | cons b bs ih =>
      cases n with
      | zero => simp [hf]
      | succ n => simp [ih]
  · rfl

theorem length_modifyBone (f : Bone K → Bone K) (i : Int) (bones : List (Bone K)) :
    (modifyBone f i bones).length = bones.length := by
  unfold modifyBone
  split <;> simp

variable [Field K]

mutual
theorem processNode_parents (uninit : Mat4 K) :
    ∀ (c : Node K) (p : Int) (s : Machine K),
      ∃ rest, parents (processNode uninit c p s) = parents s ++ p :: rest ∧
        TopoFrom (s.bones.length + 1) (s.bones.length : Int) rest
  | Node.mk mName mTransformation mChildren, p, s => by
    rw [processNode]
    simp only []
    split
    · have ih := processChildren_parents uninit mChildren (s.bones.length : Int)
        { s with
          bones := modifyBone (fun b => { b with children := b.children ++ [(s.bones.length : Int)] }) p (s.bones ++ [{ name := mName, parentIndex := p, localTransform := mTransformation, offsetMatrix := 1, finalTransform := uninit, children := [], worldTransform := 1 }])
          boneMapping := mapInsert s.boneMapping mName (s.bones.length : Int) }
        (by simp [length_modifyBone])
      obtain ⟨rest, h1, h2⟩ := ih
      refine ⟨rest, ?_, ?_⟩
      · rw [h1]
        simp [parents, map_parentIndex_modifyBone]
      · simpa [length_modifyBone] using h2
    · have ih := processChildren_parents uninit mChildren (s.bones.length : Int)
        { s with
          bones := s.bones ++ [{ name := mName, parentIndex := p, localTransform := mTransformation, offsetMatrix := 1, finalTransform := uninit, children := [], worldTransform := 1 }]
          boneMapping := mapInsert s.boneMapping mName (s.bones.length : Int) }
        (by simp)
      obtain ⟨rest, h1, h2⟩ := ih
      refine ⟨rest, ?_, ?_⟩
      · rw [h1]
        simp [parents]
      · simpa using h2
theorem processChildren_parents (uninit : Mat4 K) :
    ∀ (cs : List (Node K)) (cur : Int) (s : Machine K), cur < (s.bones.length : Int) →
      ∃ rest, parents (processChildren uninit cs cur s) = parents s ++ rest ∧
        TopoFrom s.bones.length cur rest
  | [], cur, s, _ => ⟨[], by simp [processChildren], trivial⟩
  | c :: cs, cur, s, hcur => by
    rw [processChildren]
    obtain ⟨r1, h1, t1⟩ := processNode_parents uninit c cur s
    have hlen : (processNode uninit c cur s).bones.length = s.bones.length + 1 + r1.length := by
      have := congrArg List.length h1
      simp [parents] at this
      omega
    obtain ⟨r2, h2, t2⟩ := processChildren_parents uninit cs cur (processNode uninit c cur s)
      (by rw [hlen]; push_cast; omega)
    refine ⟨cur :: (r1 ++ r2), ?_, ?_⟩
    · rw [h2, h1]
      simp
    · refine ⟨⟨le_refl _, hcur⟩, ?_⟩
      rw [topoFrom_append]
      refine ⟨topoFrom_mono _ _ _ _ (le_of_lt hcur) t1, ?_⟩
      rw [hlen] at t2
      exact t2
end

/-- C2: for every node tree, the bone list built by `processNode(root, -1)` on the cleared
skeleton has a bone 0 with `parentIndex = -1`, bone 0 is the only bone with
`parentIndex = -1`, and every other bone at index `i` has `0 ≤ parentIndex < i`. -/
theorem processNode_topological_order (uninit : Mat4 K) (root : Node K) (s0 : Machine K) :
    (∃ b, (processNode uninit root (-1)
        { s0 with bones := [], boneMapping := fun _ => none }).bones[0]? = some b ∧
      b.parentIndex = -1) ∧
    ∀ (i : Nat) (b : Bone K),
      (processNode uninit root (-1)
        { s0 with bones := [], boneMapping := fun _ => none }).bones[i]? = some b →
      (b.parentIndex = -1 ↔ i = 0) ∧
      (i ≠ 0 → 0 ≤ b.parentIndex ∧ b.parentIndex < (i : Int)) := by
  obtain ⟨rest, h1, h2⟩ := processNode_parents uninit root (-1)
    { s0 with bones := [], boneMapping := fun _ => none }
  simp only [parents, List.map_nil, List.nil_append, List.length_nil, Nat.zero_add,
    Nat.cast_zero] at h1 h2
  have key : ∀ (i : Nat) (b : Bone K),
      (processNode uninit root (-1)
        { s0 with bones := [], boneMapping := fun _ => none }).bones[i]? = some b →
      ((-1 : Int) :: rest)[i]? = some b.parentIndex := by
    intro i b hb
    rw [← h1, List.getElem?_map, hb]
    rfl
  constructor
  · cases hb : (processNode uninit root (-1)
        { s0 with bones := [], boneMapping := fun _ => none }).bones with
    | nil =>
      rw [hb] at h1
      simp at h1
    | cons b bs =>
      refine ⟨b, by simp, ?_⟩
      have := key 0 b (by rw [hb]; simp)
      simpa using this.symm
  · intro i b hb
    have hk := key i b hb
    cases i with
    | zero =>
      simp at hk
      simp [← hk]
    | succ i =>
      simp only [List.getElem?_cons_succ] at hk
      have := topoFrom_getElem rest 1 0 h2 i _ hk
      push_cast at this ⊢
      constructor
      · constructor
        · intro h
          omega
        · intro h
          exact h.elim
      · intro _
        omega

theorem processNode_topological_order_witness :
    ∃ b : Bone ℚ,
      (processNode 0 demoTree (-1)
        { initialMachine with bones := [], boneMapping := fun _ => none }).bones[1]? = some b ∧
      (b.parentIndex = -1 ↔ 1 = 0) ∧ (1 ≠ 0 → 0 ≤ b.parentIndex ∧ b.parentIndex < ((1 : Nat) : Int)) :=
  ⟨_, rfl, (processNode_topological_order 0 demoTree initialMachine).2 1 _ rfl⟩

end SkeletonTheorems

/-! ## Theorems: keyframe sampler -/

section SamplerTheorems

variable [LinearOrderedField K]

/-- C3: for every channel whose position, rotation and scale tracks each hold exactly one
key, and for every query time, `calcInterpolatedPosition`, `calcInterpolatedRotation` and
`calcInterpolatedScaling` return that single key's value unchanged. -/
theorem calcInterpolated_single_key (lib : Lib K) (u : Undef K) (animationTime : K)
    (nodeName : String) (kp ks : Key K (Vec3 K)) (kr : Key K (Quat K)) :
    calcInterpolatedPosition u animationTime
        { mNodeName := nodeName, mPositionKeys := [kp], mRotationKeys := [kr],
          mScalingKeys := [ks] } = kp.mValue ∧
    calcInterpolatedRotation lib u animationTime
        { mNodeName := nodeName, mPositionKeys := [kp], mRotationKeys := [kr],
          mScalingKeys := [ks] } = kr.mValue ∧
    calcInterpolatedScaling u animationTime
        { mNodeName := nodeName, mPositionKeys := [kp], mRotationKeys := [kr],
          mScalingKeys := [ks] } = ks.mValue := by
  refine ⟨?_, ?_, ?_⟩
  · simp [calcInterpolatedPosition]
  · simp [calcInterpolatedRotation]
  · simp [calcInterpolatedScaling]

/-- The index search on a two-key track runs one iteration: it returns `0` whatever the
query time is. -/
theorem findKey_two {V : Type} (junk k0 k1 : Key K V) (t : K) : findKey junk t [k0, k1] = 0 := by
  have h : (([k0, k1] : List (Key K V)).length + 4294967295) % 4294967296 = 1 := by
    norm_num
  unfold findKey
  rw [h]
  simp [findKeyLoop]

/-- In exact arithmetic: for every position track and every scale track with exactly two
keys, value `A` at time `0` and value `B` at time `1`, `calcInterpolatedPosition` and
`calcInterpolatedScaling` return `A` at `t = 0`, `B` at `t = 1` and the component-wise
midpoint `(A + B) / 2` at `t = 1/2`. -/
theorem calcInterpolated_two_keys (u : Undef K) (nodeName : String) (A B : Vec3 K)
    (rot : List (Key K (Quat K))) (other : List (Key K (Vec3 K))) :
    (calcInterpolatedPosition u 0
        { mNodeName := nodeName, mPositionKeys := [⟨0, A⟩, ⟨1, B⟩], mRotationKeys := rot,
          mScalingKeys := other } = A ∧
      calcInterpolatedPosition u 1
        { mNodeName := nodeName, mPositionKeys := [⟨0, A⟩, ⟨1, B⟩], mRotationKeys := rot,
          mScalingKeys := other } = B ∧
      calcInterpolatedPosition u (1 / 2)
        { mNodeName := nodeName, mPositionKeys := [⟨0, A⟩, ⟨1, B⟩], mRotationKeys := rot,
          mScalingKeys := other }
        = ⟨(A.x + B.x) / 2, (A.y + B.y) / 2, (A.z + B.z) / 2⟩) ∧
    (calcInterpolatedScaling u 0
        { mNodeName := nodeName, mPositionKeys := other, mRotationKeys := rot,
          mScalingKeys := [⟨0, A⟩, ⟨1, B⟩] } = A ∧
      calcInterpolatedScaling u 1
        { mNodeName := nodeName, mPositionKeys := other, mRotationKeys := rot,
          mScalingKeys := [⟨0, A⟩, ⟨1, B⟩] } = B ∧
      calcInterpolatedScaling u (1 / 2)
        { mNodeName := nodeName, mPositionKeys := other, mRotationKeys := rot,
          mScalingKeys := [⟨0, A⟩, ⟨1, B⟩] }
        = ⟨(A.x + B.x) / 2, (A.y + B.y) / 2, (A.z + B.z) / 2⟩) := by
  have hp : ∀ t : K, calcInterpolatedPosition u t
        { mNodeName := nodeName, mPositionKeys := [⟨0, A⟩, ⟨1, B⟩], mRotationKeys := rot,
          mScalingKeys := other }
        = ⟨A.x + t * (B.x - A.x), A.y + t * (B.y - A.y), A.z + t * (B.z - A.z)⟩ := by
    intro t
    simp [calcInterpolatedPosition, findPosition, findKey_two, Vec3.add, Vec3.smul, Vec3.sub]
  have hs : ∀ t : K, calcInterpolatedScaling u t
        { mNodeName := nodeName, mPositionKeys := other, mRotationKeys := rot,
          mScalingKeys := [⟨0, A⟩, ⟨1, B⟩] }
        = ⟨A.x + t * (B.x - A.x), A.y + t * (B.y - A.y), A.z + t * (B.z - A.z)⟩ := by
    intro t
    simp [calcInterpolatedScaling, findScaling, findKey_two, Vec3.add, Vec3.smul, Vec3.sub]
  have mid : ∀ a b : K, a + 1 / 2 * (b - a) = (a + b) / 2 := by
    intro a b
    ring
  refine ⟨⟨?_, ?_, ?_⟩, ⟨?_, ?_, ?_⟩⟩
  · rw [hp]; simp
  · rw [hp]; simp
  · rw [hp]; simp only [mid]
  · rw [hs]; simp
  · rw [hs]; simp
  · rw [hs]; simp only [mid]

end SamplerTheorems

/-! ## Theorems: animation state machine -/

section StateMachineTheorems

variable [LinearOrderedField K]

/-- C5, counterexample: the machine crossfading from `IDLE` toward `RUN` with timer `1/10`
receives `setState(RUN)` again; the timer is `0` afterwards, not `1/10`. -/
theorem setState_same_target_resets_timer :
    fadingMachine.isCrossfading = true ∧ fadingMachine.nextState = State.RUN ∧
      fadingMachine.crossfadeTime = 1 / 10 ∧
      (setState fadingMachine State.RUN).crossfadeTime = 0 ∧
      (setState fadingMachine State.RUN).crossfadeTime ≠ fadingMachine.crossfadeTime := by
  refine ⟨rfl, rfl, rfl, ?_, ?_⟩
  · simp [setState, fadingMachine, initialMachine]
  · simp [setState, fadingMachine, initialMachine]

/-- C5, amended: for a machine crossfading toward `T` with timer `tau`, `setState(T)` keeps
the target `T` and the crossfade flag; the timer stays `tau` when `T` is the current state
(the call is a no-op) and is reset to `0` when `T` differs from the current state. -/
theorem setState_same_target (s : Machine K) (T : State) (tau : K)
    (hfade : s.isCrossfading = true) (hT : s.nextState = T) (htau : s.crossfadeTime = tau) :
    (setState s T).nextState = T ∧ (setState s T).isCrossfading = true ∧
      (s.currentState = T → setState s T = s ∧ (setState s T).crossfadeTime = tau) ∧
      (s.currentState ≠ T → (setState s T).crossfadeTime = 0) := by
  unfold setState
  by_cases h : s.currentState = T
  · simp [h, hfade, hT, htau]
  · simp [h]

theorem setState_same_target_witness :
    (setState fadingMachine State.RUN).nextState = State.RUN ∧
      (setState fadingMachine State.RUN).isCrossfading = true ∧
      (fadingMachine.currentState = State.RUN →
        setState fadingMachine State.RUN = fadingMachine ∧
          (setState fadingMachine State.RUN).crossfadeTime = 1 / 10) ∧
      (fadingMachine.currentState ≠ State.RUN →
        (setState fadingMachine State.RUN).crossfadeTime = 0) :=
  setState_same_target fadingMachine State.RUN (1 / 10) rfl rfl rfl

/-- C6, counterexample: the machine crossfading from `IDLE` toward `RUN` receives
`setState(IDLE)`, a state different from the target; the call returns at the guard, the
target stays `RUN` and the timer stays `1/10`. -/
theorem setState_current_while_fading_keeps_target :
    fadingMachine.isCrossfading = true ∧ fadingMachine.nextState = State.RUN ∧
      State.IDLE ≠ State.RUN ∧
      (setState fadingMachine State.IDLE).nextState ≠ State.IDLE ∧
      (setState fadingMachine State.IDLE).crossfadeTime ≠ 0 := by
  refine ⟨rfl, rfl, by decide, ?_, ?_⟩
  · simp [setState, fadingMachine, initialMachine]
  · simp [setState, fadingMachine, initialMachine]

/-- C6, amended: for a machine crossfading toward `T` and every state `st` different from
`T` and from the current state, `setState(st)` starts a new crossfade: afterwards the
target is `st`, the timer is `0` and the flag is set. -/
theorem setState_new_target (s : Machine K) (T st : State)
    (_hfade : s.isCrossfading = true) (_hT : s.nextState = T) (_hne : st ≠ T)
    (hcur : st ≠ s.currentState) :
    (setState s st).nextState = st ∧ (setState s st).crossfadeTime = 0 ∧
      (setState s st).isCrossfading = true := by
  have h : ¬ s.currentState = st := fun e => hcur e.symm
  simp [setState, h]

theorem setState_new_target_witness :
    (setState fadingMachine State.JUMP).nextState = State.JUMP ∧
      (setState fadingMachine State.JUMP).crossfadeTime = 0 ∧
      (setState fadingMachine State.JUMP).isCrossfading = true :=
  setState_new_target fadingMachine State.RUN State.JUMP rfl rfl (by decide) (by decide)

/-- C7: `setState(currentState)` is a no-op: the whole machine (current and target state,
crossfade timer and flag, playback clock, bones, matrices, mappings) is unchanged. -/
theorem setState_current_noop (s : Machine K) : setState s s.currentState = s := by
  simp [setState]

theorem writeBone_frame (nodeName : String) (g : Mat4 K) (s : Machine K) :
    ∃ bs, writeBone nodeName g s = { s with bones := bs } := by
  unfold writeBone
  split
  · exact ⟨_, rfl⟩
  · exact ⟨s.bones, rfl⟩

mutual
theorem readNodeHierarchy_frame (lib : Lib K) (u : Undef K) (t : K) :
    ∀ (c : Node K) (pt : Mat4 K) (anim : Option (Animation K)) (s : Machine K),
      ∃ bs, readNodeHierarchy lib u t c pt anim s = { s with bones := bs }
  | Node.mk mName mTransformation mChildren, pt, anim, s => by
    rw [readNodeHierarchy]
    obtain ⟨b1, e1⟩ :=
      writeBone_frame mName (pt * nodeLocalTransform lib u t anim mName mTransformation) s
    obtain ⟨b2, e2⟩ := readChildren_frame lib u t mChildren
      (pt * nodeLocalTransform lib u t anim mName mTransformation) anim
      (writeBone mName (pt * nodeLocalTransform lib u t anim mName mTransformation) s)
    refine ⟨b2, ?_⟩
    rw [e2, e1]
theorem readChildren_frame (lib : Lib K) (u : Undef K) (t : K) :
    ∀ (cs : List (Node K)) (g : Mat4 K) (anim : Option (Animation K)) (s : Machine K),
      ∃ bs, readChildren lib u t cs g anim s = { s with bones := bs }
  | [], _, _, s => by
    rw [readChildren]
    exact ⟨s.bones, rfl⟩
  | c :: cs, g, anim, s => by
    rw [readChildren]
    obtain ⟨b1, e1⟩ := readNodeHierarchy_frame lib u t c g anim s
    obtain ⟨b2, e2⟩ := readChildren_frame lib u t cs g anim (readNodeHierarchy lib u t c g anim s)
    refine ⟨b2, ?_⟩
    rw [e2, e1]
end

/-- An evaluation pass leaves the crossfade fields and the current state untouched. -/
theorem readNodeHierarchy_control (lib : Lib K) (u : Undef K) (t : K) (c : Node K)
    (pt : Mat4 K) (anim : Option (Animation K)) (s : Machine K) :
    (readNodeHierarchy lib u t c pt anim s).isCrossfading = s.isCrossfading ∧
      (readNodeHierarchy lib u t c pt anim s).crossfadeTime = s.crossfadeTime ∧
      (readNodeHierarchy lib u t c pt anim s).crossfadeDuration = s.crossfadeDuration ∧
      (readNodeHierarchy lib u t c pt anim s).nextState = s.nextState ∧
      (readNodeHierarchy lib u t c pt anim s).currentState = s.currentState := by
  obtain ⟨bs, e⟩ := readNodeHierarchy_frame lib u t c pt anim s
  rw [e]
  exact ⟨rfl, rfl, rfl, rfl, rfl⟩

theorem writeBone_nextState (nodeName : String) (g : Mat4 K) (s : Machine K) (target : State) :
    writeBone nodeName g { s with nextState := target }
      = { writeBone nodeName g s with nextState := target } := by
  unfold writeBone
  dsimp only
  cases s.boneMapping nodeName <;> rfl

mutual
theorem readNodeHierarchy_nextState (lib : Lib K) (u : Undef K) (t : K) (target : State) :
    ∀ (c : Node K) (pt : Mat4 K) (anim : Option (Animation K)) (s : Machine K),
      readNodeHierarchy lib u t c pt anim { s with nextState := target }
        = { readNodeHierarchy lib u t c pt anim s with nextState := target }
  | Node.mk mName mTransformation mChildren, pt, anim, s => by
    rw [readNodeHierarchy, readNodeHierarchy, writeBone_nextState,
      readChildren_nextState lib u t target mChildren]
theorem readChildren_nextState (lib : Lib K) (u : Undef K) (t : K) (target : State) :
    ∀ (cs : List (Node K)) (g : Mat4 K) (anim : Option (Animation K)) (s : Machine K),
      readChildren lib u t cs g anim { s with nextState := target }
        = { readChildren lib u t cs g anim s with nextState := target }
  | [], _, _, s => by
    rw [readChildren, readChildren]
  | c :: cs, g, anim, s => by
    rw [readChildren, readChildren, readNodeHierarchy_nextState lib u t target c,
      readChildren_nextState lib u t target cs]
end

/-- `advanceCrossfade` does not touch the playback clock, the bones or the final matrices. -/
theorem advanceCrossfade_frame (s : Machine K) (dt : K) :
    (advanceCrossfade s dt).currentTime = s.currentTime ∧
      (advanceCrossfade s dt).bones = s.bones ∧
      (advanceCrossfade s dt).finalBoneMatrices = s.finalBoneMatrices := by
  unfold advanceCrossfade
  split
  · dsimp only
    split <;> exact ⟨rfl, rfl, rfl⟩
  · exact ⟨rfl, rfl, rfl⟩

variable [FloorRing K]

/-- With a scene holding at least one animation, `update` is the crossfade bookkeeping
applied to a machine whose control fields are those of the machine before the call. -/
theorem update_eq_advanceCrossfade (lib : Lib K) (u : Undef K) (s : Machine K) (dt : K)
    (scene : Scene K) (hs : s.scene = some scene) (ha : 0 < scene.mAnimations.length) :
    ∃ s4 : Machine K, update lib u s dt = advanceCrossfade s4 dt ∧
      s4.isCrossfading = s.isCrossfading ∧ s4.crossfadeTime = s.crossfadeTime ∧
      s4.crossfadeDuration = s.crossfadeDuration ∧ s4.nextState = s.nextState ∧
      s4.currentState = s.currentState := by
  unfold update
  rw [hs]
  have hne : ¬ scene.mAnimations.length = 0 := by omega
  simp only [hne, if_false]
  refine ⟨_, rfl, ?_⟩
  exact readNodeHierarchy_control lib u _ _ _ _ _

/-- C8: for every machine with a loaded scene holding at least one animation:
while crossfading with timer `tau`, `update(dt)` sets the timer to `tau + dt`; if
`tau + dt ≥ crossfadeDuration` the current state becomes the former target and the flag is
cleared, otherwise current state and flag are unchanged.  When not crossfading, `update`
changes neither the current state nor the flag nor the timer. -/
theorem update_crossfade (lib : Lib K) (u : Undef K) (s : Machine K) (dt : K)
    (scene : Scene K) (hs : s.scene = some scene) (ha : 0 < scene.mAnimations.length) :
    (s.isCrossfading = true →
      (update lib u s dt).crossfadeTime = s.crossfadeTime + dt ∧
      (s.crossfadeTime + dt ≥ s.crossfadeDuration →
        (update lib u s dt).currentState = s.nextState ∧
        (update lib u s dt).isCrossfading = false) ∧
      (¬ s.crossfadeTime + dt ≥ s.crossfadeDuration →
        (update lib u s dt).currentState = s.currentState ∧
        (update lib u s dt).isCrossfading = true)) ∧
    (s.isCrossfading = false →
      (update lib u s dt).currentState = s.currentState ∧
      (update lib u s dt).isCrossfading = false ∧
      (update lib u s dt).crossfadeTime = s.crossfadeTime) := by
  obtain ⟨s4, e, h1, h2, h3, h4, h5⟩ := update_eq_advanceCrossfade lib u s dt scene hs ha
  rw [e]
  unfold advanceCrossfade
  constructor
  · intro hf
    rw [h1, hf]
    simp only [if_true]
    rw [h2, h3]
    refine ⟨?_, ?_, ?_⟩
    · split <;> simp [h2]
    · intro hge
      simp [hge, h4]
    · intro hlt
      simp [hlt, h5, h1, hf]
  · intro hf
    rw [h1, hf]
    simp [h1, h2, h5, hf]

theorem update_crossfade_witness :
    (({ fadingMachine with scene := some demoScene } : Machine ℚ).isCrossfading = true →
      (update demoLib demoUndef { fadingMachine with scene := some demoScene } (1 / 10)).crossfadeTime
        = ({ fadingMachine with scene := some demoScene } : Machine ℚ).crossfadeTime + 1 / 10 ∧
      (({ fadingMachine with scene := some demoScene } : Machine ℚ).crossfadeTime + 1 / 10
          ≥ ({ fadingMachine with scene := some demoScene } : Machine ℚ).crossfadeDuration →
        (update demoLib demoUndef { fadingMachine with scene := some demoScene } (1 / 10)).currentState
          = ({ fadingMachine with scene := some demoScene } : Machine ℚ).nextState ∧
        (update demoLib demoUndef { fadingMachine with scene := some demoScene } (1 / 10)).isCrossfading
          = false) ∧
      (¬ ({ fadingMachine with scene := some demoScene } : Machine ℚ).crossfadeTime + 1 / 10
          ≥ ({ fadingMachine with scene := some demoScene } : Machine ℚ).crossfadeDuration →
        (update demoLib demoUndef { fadingMachine with scene := some demoScene } (1 / 10)).currentState
          = ({ fadingMachine with scene := some demoScene } : Machine ℚ).currentState ∧
        (update demoLib demoUndef { fadingMachine with scene := some demoScene } (1 / 10)).isCrossfading
          = true)) ∧
    (({ fadingMachine with scene := some demoScene } : Machine ℚ).isCrossfading = false →
      (update demoLib demoUndef { fadingMachine with scene := some demoScene } (1 / 10)).currentState
        = ({ fadingMachine with scene := some demoScene } : Machine ℚ).currentState ∧
      (update demoLib demoUndef { fadingMachine with scene := some demoScene } (1 / 10)).isCrossfading
        = false ∧
      (update demoLib demoUndef { fadingMachine with scene := some demoScene } (1 / 10)).crossfadeTime
        = ({ fadingMachine with scene := some demoScene } : Machine ℚ).crossfadeTime) :=
  update_crossfade demoLib demoUndef { fadingMachine with scene := some demoScene } (1 / 10)
    demoScene rfl (by decide)

end StateMachineTheorems

/-! ## Theorems: capsule raycast -/

section PhysicsTheorems

variable [LinearOrderedField K]

/-- The rational root `ratSqrt` is exact on squares of non-negative rationals. -/
theorem ratSqrt_mul_self (x : ℚ) (hx : 0 ≤ x) : ratSqrt (x * x) = x := by
  unfold ratSqrt
  have hnum : 0 ≤ x.num := Rat.num_nonneg.mpr hx
  rw [Rat.mul_self_num, Rat.mul_self_den]
  have h1 : (x.num * x.num).toNat = x.num.toNat * x.num.toNat := by
    have : x.num = (x.num.toNat : Int) := (Int.toNat_of_nonneg hnum).symm
    rw [this]
    norm_cast
  rw [h1, Nat.sqrt_eq, Nat.sqrt_eq]
  have h2 : ((x.num.toNat : ℕ) : ℚ) = (x.num : ℚ) := by
    have : ((x.num.toNat : ℕ) : ℤ) = x.num := Int.toNat_of_nonneg hnum
    exact_mod_cast this
  rw [h2]
  exact Rat.num_div_den x

/-- In exact arithmetic the ray from `(0, h/2, -10)` along `(0,0,1)` meets the cylinder part
of the capsule from `(0,0,0)` to `(0,h,0)` at distance `10 - r`. -/
theorem rayCapsuleIntersection_axis (lib : Lib K)
    (hsqrt : ∀ x : K, 0 ≤ x → lib.sqrt (x * x) = x) (h r : K) (hh : 0 < h) (hr : 0 < r) :
    rayCapsuleIntersection lib ⟨0, h / 2, -10⟩ ⟨0, 0, 1⟩ ⟨0, 0, 0⟩ ⟨0, h, 0⟩ r = some (10 - r) := by
  have hh2 : 0 < h * h := mul_pos hh hh
  have hne : h * h ≠ 0 := ne_of_gt hh2
  have hroot : lib.sqrt ((h * h * r) * (h * h * r)) = h * h * r :=
    hsqrt _ (le_of_lt (mul_pos hh2 hr))
  have hdisc : h * h * (1 * -10) * (h * h * (1 * -10))
      - h * h * (h * h * (h / 2 * (h / 2) + -10 * -10) - h * (h / 2) * (h * (h / 2))
        - r * r * (h * h)) = (h * h * r) * (h * h * r) := by
    ring
  have ht : (-(h * h * (1 * -10)) - h * h * r) / (h * h) = 10 - r := by
    field_simp
    ring
  unfold rayCapsuleIntersection
  simp only [Vec3.sub, Vec3.dot, sub_zero, mul_zero, zero_mul, add_zero, zero_add, mul_one]
  rw [hdisc, hroot, ht]
  have hnn : (h * h * r) * (h * h * r) ≥ 0 := mul_self_nonneg _
  have hy : h * (h / 2) > 0 ∧ h * (h / 2) < h * h := by
    constructor
    · nlinarith
    · nlinarith
  rw [if_pos hnn, if_pos hy]

/-- In exact arithmetic: for every `h > 0`, `r > 0` and `maxDist > 10 - r`, with a single
capsule of radius `r` from `(0,0,0)` to `(0,h,0)`, `raycast` from `(0, h/2, -10)` along
`(0,0,1)` returns `true`, reports the position `origin + (10 - r) * direction` and the
capsule's bone name (`sqrt` being exact on squares). -/
theorem raycast_single_capsule (lib : Lib K)
    (hsqrt : ∀ x : K, 0 ≤ x → lib.sqrt (x * x) = x) (h r maxDist : K) (hh : 0 < h)
    (hr : 0 < r) (hmax : maxDist > 10 - r) (boneName : String) (height damage : K)
    (hit : HitResult K) :
    (raycast lib
        [{ boneName := boneName, radius := r, height := height, damageMultiplier := damage,
           start := ⟨0, 0, 0⟩, endPoint := ⟨0, h, 0⟩ }]
        ⟨0, h / 2, -10⟩ ⟨0, 0, 1⟩ maxDist hit).1 = true ∧
    (raycast lib
        [{ boneName := boneName, radius := r, height := height, damageMultiplier := damage,
           start := ⟨0, 0, 0⟩, endPoint := ⟨0, h, 0⟩ }]
        ⟨0, h / 2, -10⟩ ⟨0, 0, 1⟩ maxDist hit).2.position
      = Vec3.add ⟨0, h / 2, -10⟩ (Vec3.smul (10 - r) ⟨0, 0, 1⟩) ∧
    (raycast lib
        [{ boneName := boneName, radius := r, height := height, damageMultiplier := damage,
           start := ⟨0, 0, 0⟩, endPoint := ⟨0, h, 0⟩ }]
        ⟨0, h / 2, -10⟩ ⟨0, 0, 1⟩ maxDist hit).2.boneName = boneName := by
  have hlt : 10 - r < maxDist := hmax
  simp only [raycast, raycastLoop, List.foldl, raycastStep,
    rayCapsuleIntersection_axis lib hsqrt h r hh hr, if_pos hlt]
  exact ⟨trivial, trivial, trivial⟩

theorem raycast_single_capsule_witness :
    (raycast demoLib
        [{ boneName := "hip", radius := 1, height := 2, damageMultiplier := 3,
           start := ⟨0, 0, 0⟩, endPoint := ⟨0, 2, 0⟩ }]
        ⟨0, 2 / 2, -10⟩ ⟨0, 0, 1⟩ 100 demoHit).1 = true ∧
    (raycast demoLib
        [{ boneName := "hip", radius := 1, height := 2, damageMultiplier := 3,
           start := ⟨0, 0, 0⟩, endPoint := ⟨0, 2, 0⟩ }]
        ⟨0, 2 / 2, -10⟩ ⟨0, 0, 1⟩ 100 demoHit).2.position
      = Vec3.add ⟨0, 2 / 2, -10⟩ (Vec3.smul (10 - 1) ⟨0, 0, 1⟩) ∧
    (raycast demoLib
        [{ boneName := "hip", radius := 1, height := 2, damageMultiplier := 3,
           start := ⟨0, 0, 0⟩, endPoint := ⟨0, 2, 0⟩ }]
        ⟨0, 2 / 2, -10⟩ ⟨0, 0, 1⟩ 100 demoHit).2.boneName = "hip" :=
  raycast_single_capsule demoLib ratSqrt_mul_self 2 1 100 (by norm_num) (by norm_num)
    (by norm_num) "hip" 2 3 demoHit

/-- Invariant of the loop of `raycast`: the running minimum never exceeds `maxDist`, and once
`found` is set the state records a capsule of the list whose intersection distance is the
running minimum, is below `maxDist`, and gives the reported position and bone name. -/
theorem raycast_fold_invariant (lib : Lib K) (rayOrigin rayDir : Vec3 K) (maxDist : K)
    (all : List (Capsule K)) :
    ∀ (colliders : List (Capsule K)) (st : RayState K), (∀ c ∈ colliders, c ∈ all) →
      (st.minDist ≤ maxDist ∧ (st.found = true → ∃ cap ∈ all, ∃ t,
        rayCapsuleIntersection lib rayOrigin rayDir cap.start cap.endPoint cap.radius = some t ∧
        t < maxDist ∧ st.minDist = t ∧
        st.hit.position = Vec3.add rayOrigin (Vec3.smul t rayDir) ∧
        st.hit.boneName = cap.boneName)) →
      ((colliders.foldl (raycastStep lib rayOrigin rayDir) st).minDist ≤ maxDist ∧
        ((colliders.foldl (raycastStep lib rayOrigin rayDir) st).found = true → ∃ cap ∈ all, ∃ t,
          rayCapsuleIntersection lib rayOrigin rayDir cap.start cap.endPoint cap.radius = some t ∧
          t < maxDist ∧ (colliders.foldl (raycastStep lib rayOrigin rayDir) st).minDist = t ∧
          (colliders.foldl (raycastStep lib rayOrigin rayDir) st).hit.position
            = Vec3.add rayOrigin (Vec3.smul t rayDir) ∧
          (colliders.foldl (raycastStep lib rayOrigin rayDir) st).hit.boneName = cap.boneName))
  | [], _, _, h => h
  | c :: cs, st, hsub, h => by
    rw [List.foldl_cons]
    apply raycast_fold_invariant lib rayOrigin rayDir maxDist all cs _
      (fun x hx => hsub x (List.mem_cons_of_mem _ hx))
    unfold raycastStep
    cases hrc : rayCapsuleIntersection lib rayOrigin rayDir c.start c.endPoint c.radius with
    | none => exact h
    | some t =>
      by_cases hlt : t < st.minDist
      · simp only [if_pos hlt]
        refine ⟨le_trans (le_of_lt hlt) h.1, fun _ => ?_⟩
        exact ⟨c, hsub c (List.mem_cons_self _ _), t, hrc, lt_of_lt_of_le hlt h.1, rfl, rfl, rfl⟩
      · simp only [if_neg hlt]
        exact h

/-- C10: for every capsule list, ray and `maxDist`: if every capsule is either not
intersected or intersected at a distance `≥ maxDist`, `raycast` returns `false`; and
whenever `raycast` returns `true`, the hit it reports is the intersection of the ray with a
capsule of the list at a distance `t < maxDist` (`t` is the final `minDist`, the reported
position is `origin + t * direction`). -/
theorem raycast_below_maxDist (lib : Lib K) (colliders : List (Capsule K))
    (rayOrigin rayDir : Vec3 K) (maxDist : K) (hit : HitResult K) :
    ((∀ cap ∈ colliders, ∀ t,
        rayCapsuleIntersection lib rayOrigin rayDir cap.start cap.endPoint cap.radius = some t →
        maxDist ≤ t) →
      (raycast lib colliders rayOrigin rayDir maxDist hit).1 = false) ∧
    ((raycast lib colliders rayOrigin rayDir maxDist hit).1 = true →
      ∃ cap ∈ colliders, ∃ t,
        rayCapsuleIntersection lib rayOrigin rayDir cap.start cap.endPoint cap.radius = some t ∧
        t < maxDist ∧
        (raycastLoop lib colliders rayOrigin rayDir maxDist hit).minDist = t ∧
        (raycast lib colliders rayOrigin rayDir maxDist hit).2.position
          = Vec3.add rayOrigin (Vec3.smul t rayDir) ∧
        (raycast lib colliders rayOrigin rayDir maxDist hit).2.boneName = cap.boneName) := by
  have inv := raycast_fold_invariant lib rayOrigin rayDir maxDist colliders colliders
    { minDist := maxDist, found := false, hit := hit } (fun _ hc => hc)
    ⟨le_refl _, fun hf => by simp at hf⟩
  have second : (raycast lib colliders rayOrigin rayDir maxDist hit).1 = true →
      ∃ cap ∈ colliders, ∃ t,
        rayCapsuleIntersection lib rayOrigin rayDir cap.start cap.endPoint cap.radius = some t ∧
        t < maxDist ∧
        (raycastLoop lib colliders rayOrigin rayDir maxDist hit).minDist = t ∧
        (raycast lib colliders rayOrigin rayDir maxDist hit).2.position
          = Vec3.add rayOrigin (Vec3.smul t rayDir) ∧
        (raycast lib colliders rayOrigin rayDir maxDist hit).2.boneName = cap.boneName :=
    fun hf => inv.2 hf
  refine ⟨fun hall => ?_, second⟩
  cases hfound : (raycast lib colliders rayOrigin rayDir maxDist hit).1 with
  | false => rfl
  | true =>
    obtain ⟨cap, hc, t, ht, hlt, _⟩ := second hfound
    exact absurd (hall cap hc t ht) (not_le_of_lt hlt)

theorem raycast_below_maxDist_witness :
    (raycast demoLib
        [{ boneName := "hip", radius := 1, height := 2, damageMultiplier := 3,
           start := ⟨0, 0, 0⟩, endPoint := ⟨0, 2, 0⟩ }]
        ⟨0, 2 / 2, -10⟩ ⟨0, 0, 1⟩ 5 demoHit).1 = false :=
  (raycast_below_maxDist demoLib
      [{ boneName := "hip", radius := 1, height := 2, damageMultiplier := 3,
         start := ⟨0, 0, 0⟩, endPoint := ⟨0, 2, 0⟩ }]
      ⟨0, 2 / 2, -10⟩ ⟨0, 0, 1⟩ 5 demoHit).1
    (by
      intro cap hc t ht
      rw [List.mem_singleton] at hc
      subst hc
      rw [rayCapsuleIntersection_axis demoLib ratSqrt_mul_self 2 1 (by norm_num) (by norm_num)] at ht
      have : (10 : ℚ) - 1 = t := Option.some.inj ht
      rw [← this]
      norm_num)

end PhysicsTheorems

/-! ## Theorems: the name-to-index map built by `processNode` -/

section MappingTheorems

theorem insertNames_append (a b : List String) (start : Nat) (m : String → Option Int) :
    insertNames (a ++ b) start m = insertNames b (start + a.length) (insertNames a start m) := by
  induction a generalizing start m with
  | nil => rfl
  | cons n ns ih =>
    have e : start + 1 + ns.length = start + (n :: ns).length := by
      simp only [List.length_cons]
      omega
    show insertNames (ns ++ b) (start + 1) (mapInsert m n (start : Int)) = _
    rw [ih, e]
    rfl

theorem insertNames_not_mem (names : List String) (start : Nat) (m : String → Option Int)
    (x : String) (hx : x ∉ names) : insertNames names start m x = m x := by
  induction names generalizing start m with
  | nil => rfl
  | cons n ns ih =>
    have h1 : x ≠ n := fun e => hx (e ▸ List.mem_cons_self _ _)
    have h2 : x ∉ ns := fun e => hx (List.mem_cons_of_mem _ e)
    show insertNames ns (start + 1) (mapInsert m n (start : Int)) x = m x
    rw [ih _ _ h2]
    simp [mapInsert, h1]

theorem insertNames_nodup (names : List String) (hn : names.Nodup) (start : Nat)
    (m : String → Option Int) (i : Nat) (x : String) (hi : names[i]? = some x) :
    insertNames names start m x = some ((start + i : Nat) : Int) := by
  induction names generalizing start m i with
  | nil => simp at hi
  | cons n ns ih =>
    rw [List.nodup_cons] at hn
    show insertNames ns (start + 1) (mapInsert m n (start : Int)) x = _
    cases i with
    | zero =>
      simp at hi
      subst hi
      rw [insertNames_not_mem _ _ _ _ hn.1]
      simp [mapInsert]
    | succ i =>
      simp only [List.getElem?_cons_succ] at hi
      rw [ih hn.2 (start + 1) _ i hi]
      congr 2
      omega

variable [Field K]

mutual
theorem processNode_mapping (uninit : Mat4 K) :
    ∀ (c : Node K) (p : Int) (s : Machine K),
      (processNode uninit c p s).boneMapping
          = insertNames (nodeNames c) s.bones.length s.boneMapping ∧
        (processNode uninit c p s).bones.length = s.bones.length + (nodeNames c).length
  | Node.mk mName mTransformation mChildren, p, s => by
    rw [processNode, nodeNames]
    simp only []
    split
    · have ih := processChildren_mapping uninit mChildren (s.bones.length : Int)
        { s with
          bones := modifyBone (fun b => { b with children := b.children ++ [(s.bones.length : Int)] }) p (s.bones ++ [{ name := mName, parentIndex := p, localTransform := mTransformation, offsetMatrix := 1, finalTransform := uninit, children := [], worldTransform := 1 }])
          boneMapping := mapInsert s.boneMapping mName (s.bones.length : Int) }
      refine ⟨?_, ?_⟩
      · rw [ih.1]
        simp [length_modifyBone, insertNames]
      · rw [ih.2]
        simp [length_modifyBone]
        omega
    · have ih := processChildren_mapping uninit mChildren (s.bones.length : Int)
        { s with
          bones := s.bones ++ [{ name := mName, parentIndex := p, localTransform := mTransformation, offsetMatrix := 1, finalTransform := uninit, children := [], worldTransform := 1 }]
          boneMapping := mapInsert s.boneMapping mName (s.bones.length : Int) }
      refine ⟨?_, ?_⟩
      · rw [ih.1]
        simp [insertNames]
      · rw [ih.2]
        simp
        omega
theorem processChildren_mapping (uninit : Mat4 K) :
    ∀ (cs : List (Node K)) (cur : Int) (s : Machine K),
      (processChildren uninit cs cur s).boneMapping
          = insertNames (nodeNamesList cs) s.bones.length s.boneMapping ∧
        (processChildren uninit cs cur s).bones.length
          = s.bones.length + (nodeNamesList cs).length
  | [], _, s => by
    rw [processChildren, nodeNamesList]
    exact ⟨rfl, rfl⟩
  | c :: cs, cur, s => by
    rw [processChildren, nodeNamesList]
    have h1 := processNode_mapping uninit c cur s
    have h2 := processChildren_mapping uninit cs cur (processNode uninit c cur s)
    rw [h2.1, h2.2, h1.1, h1.2, insertNames_append, List.length_append]
    exact ⟨rfl, by omega⟩
end

end MappingTheorems

/-! ## Theorems: hierarchy evaluator -/

section EvaluatorTheorems

/-- Every bone of `modifyBone f j bones` is a bone of `bones` at the same index, either
unchanged or (at index `j`) passed through `f`. -/
theorem getElem?_modifyBone (f : Bone K → Bone K) (j : Int) (bones : List (Bone K)) (i : Nat)
    (b' : Bone K) (h : (modifyBone f j bones)[i]? = some b') :
    ∃ b, bones[i]? = some b ∧ (b' = b ∨ b' = f b) := by
  unfold modifyBone at h
  split at h
  · rw [List.getElem?_modify] at h
    cases hb : bones[i]? with
    | none => simp [hb] at h
    | some b =>
      rw [hb] at h
      simp only [Option.map_eq_map, Option.map_some', Option.some.injEq] at h
      refine ⟨b, rfl, ?_⟩
      split at h
      · exact Or.inr h.symm
      · exact Or.inl h.symm
  · exact ⟨b', h, Or.inl rfl⟩

/-- The bone at index `j ≥ 0` of `modifyBone f j bones` is `f` of the former bone. -/
theorem getElem?_modifyBone_self (f : Bone K → Bone K) (j : Int) (hj : 0 ≤ j)
    (bones : List (Bone K)) (b' : Bone K) (h : (modifyBone f j bones)[j.toNat]? = some b') :
    ∃ b, b' = f b := by
  unfold modifyBone at h
  rw [if_pos hj, List.getElem?_modify_eq] at h
  cases hb : bones[j.toNat]? with
  | none => simp [hb] at h
  | some b =>
    rw [hb] at h
    simp only [Option.map_eq_map, Option.map_some', Option.some.injEq] at h
    exact ⟨b, h.symm⟩

variable [LinearOrderedField K]

theorem writeBone_goodAt (nodeName : String) (g : Mat4 K) (s : Machine K) (i : Nat)
    (h : GoodAt s i) : GoodAt (writeBone nodeName g s) i := by
  unfold writeBone
  split
  · intro b' hb'
    obtain ⟨b, hb, hcase⟩ := getElem?_modifyBone _ _ _ _ _ hb'
    cases hcase with
    | inl e =>
      rw [e]
      exact h b hb
    | inr e =>
      rw [e]
      rfl
  · exact h

theorem writeBone_establishes (nodeName : String) (g : Mat4 K) (s : Machine K) (j : Int)
    (hm : s.boneMapping nodeName = some j) (hj : 0 ≤ j) :
    GoodAt (writeBone nodeName g s) j.toNat := by
  unfold writeBone
  rw [hm]
  intro b' hb'
  obtain ⟨b, e⟩ := getElem?_modifyBone_self _ j hj _ _ hb'
  rw [e]
  rfl

theorem writeBone_boneMapping (nodeName : String) (g : Mat4 K) (s : Machine K) :
    (writeBone nodeName g s).boneMapping = s.boneMapping := by
  unfold writeBone
  split <;> rfl

mutual
theorem readNodeHierarchy_good (lib : Lib K) (u : Undef K) (t : K) :
    ∀ (c : Node K) (pt : Mat4 K) (anim : Option (Animation K)) (s : Machine K),
      (∀ i, GoodAt s i → GoodAt (readNodeHierarchy lib u t c pt anim s) i) ∧
      (∀ n ∈ nodeNames c, ∀ j : Int, s.boneMapping n = some j → 0 ≤ j →
        GoodAt (readNodeHierarchy lib u t c pt anim s) j.toNat) ∧
      (readNodeHierarchy lib u t c pt anim s).boneMapping = s.boneMapping
  | Node.mk mName mTransformation mChildren, pt, anim, s => by
    rw [readNodeHierarchy]
    obtain ⟨p1, p2, p3⟩ := readChildren_good lib u t mChildren
      (pt * nodeLocalTransform lib u t anim mName mTransformation) anim
      (writeBone mName (pt * nodeLocalTransform lib u t anim mName mTransformation) s)
    refine ⟨fun i hi => p1 i (writeBone_goodAt _ _ _ _ hi), ?_,
      p3.trans (writeBone_boneMapping _ _ _)⟩
    intro n hn j hm hj
    rw [nodeNames] at hn
    rcases List.mem_cons.mp hn with e | hn'
    · subst e
      exact p1 _ (writeBone_establishes _ _ s j hm hj)
    · exact p2 n hn' j (by rw [writeBone_boneMapping]; exact hm) hj
theorem readChildren_good (lib : Lib K) (u : Undef K) (t : K) :
    ∀ (cs : List (Node K)) (g : Mat4 K) (anim : Option (Animation K)) (s : Machine K),
      (∀ i, GoodAt s i → GoodAt (readChildren lib u t cs g anim s) i) ∧
      (∀ n ∈ nodeNamesList cs, ∀ j : Int, s.boneMapping n = some j → 0 ≤ j →
        GoodAt (readChildren lib u t cs g anim s) j.toNat) ∧
      (readChildren lib u t cs g anim s).boneMapping = s.boneMapping
  | [], _, _, s => by
    rw [readChildren]
    refine ⟨fun _ hi => hi, ?_, rfl⟩
    intro n hn
    rw [nodeNamesList] at hn
    simp at hn
  | c :: cs, g, anim, s => by
    rw [readChildren]
    obtain ⟨a1, a2, a3⟩ := readNodeHierarchy_good lib u t c g anim s
    obtain ⟨b1, b2, b3⟩ :=
      readChildren_good lib u t cs g anim (readNodeHierarchy lib u t c g anim s)
    refine ⟨fun i hi => b1 i (a1 i hi), ?_, b3.trans a3⟩
    intro n hn j hm hj
    rw [nodeNamesList] at hn
    rcases List.mem_append.mp hn with h | h
    · exact b1 _ (a2 n h j hm hj)
    · exact b2 n h j (by rw [a3]; exact hm) hj
end

theorem writeBone_length (nodeName : String) (g : Mat4 K) (s : Machine K) :
    (writeBone nodeName g s).bones.length = s.bones.length := by
  unfold writeBone
  split
  · exact length_modifyBone _ _ _
  · rfl

mutual
theorem readNodeHierarchy_length (lib : Lib K) (u : Undef K) (t : K) :
    ∀ (c : Node K) (pt : Mat4 K) (anim : Option (Animation K)) (s : Machine K),
      (readNodeHierarchy lib u t c pt anim s).bones.length = s.bones.length
  | Node.mk mName mTransformation mChildren, pt, anim, s => by
    rw [readNodeHierarchy]
    exact (readChildren_length lib u t mChildren _ anim _).trans (writeBone_length _ _ _)
theorem readChildren_length (lib : Lib K) (u : Undef K) (t : K) :
    ∀ (cs : List (Node K)) (g : Mat4 K) (anim : Option (Animation K)) (s : Machine K),
      (readChildren lib u t cs g anim s).bones.length = s.bones.length
  | [], _, _, s => by
    rw [readChildren]
  | c :: cs, g, anim, s => by
    rw [readChildren]
    exact (readChildren_length lib u t cs g anim _).trans
      (readNodeHierarchy_length lib u t c g anim s)
end

/-- C1: for every skeleton whose node names are unique (a machine whose name-to-index map
and bone count are those built by `processNode(root, -1)` on the cleared skeleton) and every
evaluation pass of `readNodeHierarchy` from the root with identity parent transform, with or
without an animation and at any query time, afterwards every bone satisfies
`finalTransform = globalInverseTransform * worldTransform * offsetMatrix`. -/
theorem readNodeHierarchy_final_transform (lib : Lib K) (u : Undef K) (uninit : Mat4 K)
    (root : Node K) (hu : (nodeNames root).Nodup) (s0 s : Machine K)
    (hmap : s.boneMapping = (processNode uninit root (-1)
      { s0 with bones := [], boneMapping := fun _ => none }).boneMapping)
    (hlen : s.bones.length = (processNode uninit root (-1)
      { s0 with bones := [], boneMapping := fun _ => none }).bones.length)
    (t : K) (anim : Option (Animation K)) :
    ∀ b ∈ (readNodeHierarchy lib u t root 1 anim s).bones,
      b.finalTransform
        = (readNodeHierarchy lib u t root 1 anim s).globalInverseTransform
          * b.worldTransform * b.offsetMatrix := by
  obtain ⟨hm, hl⟩ := processNode_mapping uninit root (-1)
    { s0 with bones := [], boneMapping := fun _ => none }
  rw [hm] at hmap
  rw [hl] at hlen
  simp only [List.length_nil, Nat.zero_add] at hmap hlen
  obtain ⟨_, good, _⟩ := readNodeHierarchy_good lib u t root 1 anim s
  intro b hb
  obtain ⟨i, hi, hbi⟩ := List.getElem_of_mem hb
  have hlen' : (readNodeHierarchy lib u t root 1 anim s).bones.length = (nodeNames root).length := by
    rw [← hlen]
    exact readNodeHierarchy_length lib u t root 1 anim s
  have hi' : i < (nodeNames root).length := hlen' ▸ hi
  have hname : (nodeNames root)[i]? = some ((nodeNames root)[i]) := List.getElem?_eq_getElem hi'
  have hmapped : s.boneMapping ((nodeNames root)[i]) = some ((i : Nat) : Int) := by
    rw [hmap, insertNames_nodup _ hu 0 _ i _ hname]
    simp
  have hgood := good _ (List.getElem_mem hi') (i : Int) hmapped (Int.natCast_nonneg i)
  simp only [Int.toNat_ofNat] at hgood
  exact hgood b (by rw [List.getElem?_eq_getElem hi, hbi])

theorem readNodeHierarchy_final_transform_witness :
    ∃ b : Bone ℚ,
      (readNodeHierarchy demoLib demoUndef 0 demoTree 1 none
        (processNode 0 demoTree (-1)
          { initialMachine with bones := [], boneMapping := fun _ => none })).bones[1]? = some b ∧
      b.finalTransform
        = (readNodeHierarchy demoLib demoUndef 0 demoTree 1 none
            (processNode 0 demoTree (-1)
              { initialMachine with bones := [], boneMapping := fun _ => none })).globalInverseTransform
          * b.worldTransform * b.offsetMatrix := by
  have hlen : (readNodeHierarchy demoLib demoUndef 0 demoTree 1 none
      (processNode 0 demoTree (-1)
        { initialMachine with bones := [], boneMapping := fun _ => none })).bones.length = 2 := by
    rw [readNodeHierarchy_length, (processNode_mapping 0 demoTree (-1) _).2]
    rfl
  have h1 : 1 < (readNodeHierarchy demoLib demoUndef 0 demoTree 1 none
      (processNode 0 demoTree (-1)
        { initialMachine with bones := [], boneMapping := fun _ => none })).bones.length := by
    omega
  exact ⟨_, List.getElem?_eq_getElem h1,
    readNodeHierarchy_final_transform demoLib demoUndef 0 demoTree (by decide) initialMachine
      (processNode 0 demoTree (-1)
        { initialMachine with bones := [], boneMapping := fun _ => none })
      rfl rfl 0 none _ (List.getElem_mem h1)⟩

end EvaluatorTheorems

/-! ## Theorems: nearest hit and tie-breaking of `raycast` -/

section NearestHitTheorems

variable [LinearOrderedField K]

theorem earliestHit_append (lib : Lib K) (rayOrigin rayDir : Vec3 K) (maxDist : K)
    (pre : List (Capsule K)) (c : Capsule K) (st st' : RayState K)
    (hm : st'.minDist = st.minDist) (hh : st'.hit = st.hit)
    (h : EarliestHit lib rayOrigin rayDir maxDist pre st) :
    EarliestHit lib rayOrigin rayDir maxDist (pre ++ [c]) st' := by
  obtain ⟨i, cap, t, hi, hr, hlt, hmin, hprev, hrest⟩ := h
  have hilt : i < pre.length := by
    by_contra hge
    rw [List.getElem?_eq_none (Nat.le_of_not_lt hge)] at hi
    exact Option.noConfusion hi
  refine ⟨i, cap, t, ?_, hr, hlt, hm.trans hmin, ?_, ?_⟩
  · rw [List.getElem?_append_left hilt]
    exact hi
  · intro j c' t' hj hc'
    rw [List.getElem?_append_left (Nat.lt_trans hj hilt)] at hc'
    exact hprev j c' t' hj hc'
  · rw [hh]
    exact hrest

theorem raycastStep_inv (lib : Lib K) (rayOrigin rayDir : Vec3 K) (maxDist : K)
    (pre : List (Capsule K)) (st : RayState K) (c : Capsule K)
    (h : RayInv lib rayOrigin rayDir maxDist pre st) :
    RayInv lib rayOrigin rayDir maxDist (pre ++ [c]) (raycastStep lib rayOrigin rayDir st c) := by
  obtain ⟨h1, h2, h3⟩ := h
  unfold raycastStep
  cases hrc : rayCapsuleIntersection lib rayOrigin rayDir c.start c.endPoint c.radius with
  | none =>
    refine ⟨h1, ?_, fun hf => earliestHit_append lib _ _ _ pre c st st rfl rfl (h3 hf)⟩
    intro c' hc' t' ht'
    rcases List.mem_append.mp hc' with hp | hp
    · exact h2 c' hp t' ht'
    · rw [List.mem_singleton] at hp
      subst hp
      rw [hrc] at ht'
      exact Option.noConfusion ht'
  | some t =>
    by_cases hlt : t < st.minDist
    · simp only [if_pos hlt]
      refine ⟨le_trans (le_of_lt hlt) h1, ?_, fun _ => ?_⟩
      · intro c' hc' t' ht'
        rcases List.mem_append.mp hc' with hp | hp
        · exact le_trans (le_of_lt hlt) (h2 c' hp t' ht')
        · rw [List.mem_singleton] at hp
          subst hp
          rw [hrc] at ht'
          exact le_of_eq (Option.some.inj ht')
      · refine ⟨pre.length, c, t, ?_, hrc, lt_of_lt_of_le hlt h1, rfl, ?_, rfl, rfl, rfl⟩
        · simp
        · intro j c' t' hj hc' ht'
          rw [List.getElem?_append_left hj] at hc'
          have hmem : c' ∈ pre := List.getElem?_mem hc'
          exact lt_of_lt_of_le hlt (h2 c' hmem t' ht')
    · simp only [if_neg hlt]
      refine ⟨h1, ?_, fun hf => earliestHit_append lib _ _ _ pre c st st rfl rfl (h3 hf)⟩
      intro c' hc' t' ht'
      rcases List.mem_append.mp hc' with hp | hp
      · exact h2 c' hp t' ht'
      · rw [List.mem_singleton] at hp
        subst hp
        rw [hrc] at ht'
        have : t = t' := Option.some.inj ht'
        rw [← this]
        exact le_of_not_lt hlt

theorem raycastFold_inv (lib : Lib K) (rayOrigin rayDir : Vec3 K) (maxDist : K) :
    ∀ (rest pre : List (Capsule K)) (st : RayState K),
      RayInv lib rayOrigin rayDir maxDist pre st →
      RayInv lib rayOrigin rayDir maxDist (pre ++ rest)
        (rest.foldl (raycastStep lib rayOrigin rayDir) st)
  | [], pre, st, h => by
    rw [List.append_nil]
    exact h
  | c :: cs, pre, st, h => by
    have e : pre ++ c :: cs = (pre ++ [c]) ++ cs := by simp
    rw [List.foldl_cons, e]
    exact raycastFold_inv lib rayOrigin rayDir maxDist cs (pre ++ [c]) _
      (raycastStep_inv lib rayOrigin rayDir maxDist pre st c h)

/-- C11: for every capsule list and ray, when `raycast` returns `true` the reported hit
belongs to a capsule `colliders[i]` whose intersection distance `t` is below `maxDist` and
is the minimum over all intersected capsules; every capsule earlier in the list is
intersected strictly farther away (so among capsules sharing the minimum the earliest one
wins), and the reported bone name, damage and position are those of `colliders[i]`. -/
theorem raycast_nearest_first (lib : Lib K) (colliders : List (Capsule K))
    (rayOrigin rayDir : Vec3 K) (maxDist : K) (hit : HitResult K) :
    (raycast lib colliders rayOrigin rayDir maxDist hit).1 = true →
    ∃ (i : Nat) (cap : Capsule K) (t : K), colliders[i]? = some cap ∧
      rayCapsuleIntersection lib rayOrigin rayDir cap.start cap.endPoint cap.radius = some t ∧
      t < maxDist ∧
      (∀ c' ∈ colliders, ∀ t',
        rayCapsuleIntersection lib rayOrigin rayDir c'.start c'.endPoint c'.radius = some t' →
        t ≤ t') ∧
      (∀ (j : Nat) (c' : Capsule K) (t' : K), j < i → colliders[j]? = some c' →
        rayCapsuleIntersection lib rayOrigin rayDir c'.start c'.endPoint c'.radius = some t' →
        t < t') ∧
      (raycast lib colliders rayOrigin rayDir maxDist hit).2.boneName = cap.boneName ∧
      (raycast lib colliders rayOrigin rayDir maxDist hit).2.damage = cap.damageMultiplier ∧
      (raycast lib colliders rayOrigin rayDir maxDist hit).2.position
        = Vec3.add rayOrigin (Vec3.smul t rayDir) := by
  intro hf
  have inv := raycastFold_inv lib rayOrigin rayDir maxDist colliders []
    { minDist := maxDist, found := false, hit := hit }
    ⟨le_refl _, fun c' hc' => absurd hc' (List.not_mem_nil c'), fun h => Bool.noConfusion h⟩
  rw [List.nil_append] at inv
  obtain ⟨_, hall, hfound⟩ := inv
  obtain ⟨i, cap, t, hi, hr, hlt, hmin, hprev, hn, hd, hp⟩ := hfound hf
  refine ⟨i, cap, t, hi, hr, hlt, ?_, hprev, hn, hd, hp⟩
  intro c' hc' t' ht'
  rw [← hmin]
  exact hall c' hc' t' ht'

theorem raycast_nearest_first_witness :
    ∃ (i : Nat) (cap : Capsule ℚ) (t : ℚ), tiedCapsules[i]? = some cap ∧
      rayCapsuleIntersection demoLib ⟨0, 2 / 2, -10⟩ ⟨0, 0, 1⟩ cap.start cap.endPoint cap.radius
        = some t ∧
      t < 100 ∧
      (∀ c' ∈ tiedCapsules, ∀ t',
        rayCapsuleIntersection demoLib ⟨0, 2 / 2, -10⟩ ⟨0, 0, 1⟩ c'.start c'.endPoint c'.radius
          = some t' → t ≤ t') ∧
      (∀ (j : Nat) (c' : Capsule ℚ) (t' : ℚ), j < i → tiedCapsules[j]? = some c' →
        rayCapsuleIntersection demoLib ⟨0, 2 / 2, -10⟩ ⟨0, 0, 1⟩ c'.start c'.endPoint c'.radius
          = some t' → t < t') ∧
      (raycast demoLib tiedCapsules ⟨0, 2 / 2, -10⟩ ⟨0, 0, 1⟩ 100 demoHit).2.boneName
        = cap.boneName ∧
      (raycast demoLib tiedCapsules ⟨0, 2 / 2, -10⟩ ⟨0, 0, 1⟩ 100 demoHit).2.damage
        = cap.damageMultiplier ∧
      (raycast demoLib tiedCapsules ⟨0, 2 / 2, -10⟩ ⟨0, 0, 1⟩ 100 demoHit).2.position
        = Vec3.add ⟨0, 2 / 2, -10⟩ (Vec3.smul t ⟨0, 0, 1⟩) :=
  raycast_nearest_first demoLib tiedCapsules ⟨0, 2 / 2, -10⟩ ⟨0, 0, 1⟩ 100 demoHit (by
    have hax := rayCapsuleIntersection_axis demoLib ratSqrt_mul_self 2 1 (by norm_num)
      (by norm_num)
    have h1 : (10 : ℚ) - 1 < 100 := by norm_num
    have h2 : ¬ ((10 : ℚ) - 1 < 10 - 1) := lt_irrefl _
    simp only [raycast, raycastLoop, tiedCapsules, List.foldl, raycastStep, hax, if_pos h1,
      if_neg h2])

/-- On `tiedCapsules` the reported bone is `hip`, the first of the two capsules at distance
`9`, with its damage multiplier `3`. -/
theorem raycast_tie_first_wins :
    (raycast demoLib tiedCapsules ⟨0, 2 / 2, -10⟩ ⟨0, 0, 1⟩ 100 demoHit).1 = true ∧
      (raycast demoLib tiedCapsules ⟨0, 2 / 2, -10⟩ ⟨0, 0, 1⟩ 100 demoHit).2.boneName = "hip" ∧
      (raycast demoLib tiedCapsules ⟨0, 2 / 2, -10⟩ ⟨0, 0, 1⟩ 100 demoHit).2.damage = 3 := by
  have hax := rayCapsuleIntersection_axis demoLib ratSqrt_mul_self 2 1 (by norm_num)
    (by norm_num)
  have h1 : (10 : ℚ) - 1 < 100 := by norm_num
  have h2 : ¬ ((10 : ℚ) - 1 < 10 - 1) := lt_irrefl _
  simp only [raycast, raycastLoop, tiedCapsules, List.foldl, raycastStep, hax, if_pos h1,
    if_neg h2]
  exact ⟨trivial, trivial, trivial⟩

end NearestHitTheorems

/-! ## Theorems: degenerate capsules and capsule repositioning -/

section DegenerateTheorems

variable [LinearOrderedField K]

/-- On a capsule whose start and end coincide, `rayCapsuleIntersection` is the test of the
ray against the sphere of radius `r` about that point. -/
theorem rayCapsuleIntersection_point (lib : Lib K) (ro rd a : Vec3 K) (r : K) :
    rayCapsuleIntersection lib ro rd a a r =
      if Vec3.dot rd (Vec3.sub ro a) * Vec3.dot rd (Vec3.sub ro a)
          - (Vec3.dot (Vec3.sub ro a) (Vec3.sub ro a) - r * r) ≥ 0 then
        some (-(Vec3.dot rd (Vec3.sub ro a))
          - lib.sqrt (Vec3.dot rd (Vec3.sub ro a) * Vec3.dot rd (Vec3.sub ro a)
              - (Vec3.dot (Vec3.sub ro a) (Vec3.sub ro a) - r * r)))
      else none := by
  simp [rayCapsuleIntersection, Vec3.sub, Vec3.dot]

theorem ratSqrt_one : ratSqrt 1 = 1 := by
  have h := ratSqrt_mul_self 1 (by norm_num)
  rwa [mul_one] at h

/-- The sphere test of a point capsule at the origin of radius `1` against the ray from
`(0,0,-10)` along `(0,0,1)` succeeds at distance `9`. -/
theorem rayCapsuleIntersection_origin_point :
    rayCapsuleIntersection demoLib ⟨0, 0, -10⟩ ⟨0, 0, 1⟩ ⟨0, 0, 0⟩ ⟨0, 0, 0⟩ 1 = some 9 := by
  rw [rayCapsuleIntersection_point]
  norm_num [Vec3.sub, Vec3.dot, demoLib, ratSqrt_one]

/-- The ray of the single-capsule test meets a capsule of radius `0` on its axis, at
distance `10`. -/
theorem rayCapsuleIntersection_axis_zero_radius (lib : Lib K)
    (hsqrt : ∀ x : K, 0 ≤ x → lib.sqrt (x * x) = x) (h : K) (hh : 0 < h) :
    rayCapsuleIntersection lib ⟨0, h / 2, -10⟩ ⟨0, 0, 1⟩ ⟨0, 0, 0⟩ ⟨0, h, 0⟩ 0 = some 10 := by
  have hh2 : 0 < h * h := mul_pos hh hh
  have hne : h * h ≠ 0 := ne_of_gt hh2
  have hroot : lib.sqrt ((0 : K) * 0) = 0 := hsqrt 0 (le_refl 0)
  have ht : (-(h * h * (1 * -10)) - 0) / (h * h) = 10 := by
    field_simp
  unfold rayCapsuleIntersection
  simp only [Vec3.sub, Vec3.dot, sub_zero, mul_zero, zero_mul, add_zero, zero_add, mul_one]
  have hdisc' : h * h * (1 * -10) * (h * h * (1 * -10))
      - h * h * (h * h * (h / 2 * (h / 2) + -10 * -10) - h * (h / 2) * (h * (h / 2)))
      = (0 : K) * 0 := by
    ring
  rw [hdisc', hroot, ht]
  have hnn : (0 : K) * 0 ≥ 0 := by simp
  have hy : h * (h / 2) > 0 ∧ h * (h / 2) < h * h := by
    constructor
    · nlinarith
    · nlinarith
  rw [if_pos hnn, if_pos hy]

/-- C13, counterexample: `rayCapsuleIntersection` returns `true` for a capsule of zero length
(start and end both the origin, radius `1`, hit at distance `9`) and for a capsule of radius
`0` (axis from `(0,0,0)` to `(0,2,0)`, hit at distance `10`). -/
theorem rayCapsuleIntersection_degenerate_hits :
    rayCapsuleIntersection demoLib ⟨0, 0, -10⟩ ⟨0, 0, 1⟩ ⟨0, 0, 0⟩ ⟨0, 0, 0⟩ 1 = some 9 ∧
      rayCapsuleIntersection demoLib ⟨0, 2 / 2, -10⟩ ⟨0, 0, 1⟩ ⟨0, 0, 0⟩ ⟨0, 2, 0⟩ 0 = some 10 :=
  ⟨rayCapsuleIntersection_origin_point,
    rayCapsuleIntersection_axis_zero_radius demoLib ratSqrt_mul_self 2 (by norm_num)⟩

/-- C13, amended: a capsule with `start == end` gets no special case; for every ray,
`rayCapsuleIntersection` returns `true` with distance `-(rd·oc) - sqrt(disc)` when the sphere
discriminant `disc = (rd·oc)² - (oc·oc - r²)`, `oc = ro - start`, is non-negative, and
returns `false` exactly when that discriminant is negative. -/
theorem rayCapsuleIntersection_zero_length (lib : Lib K) (ro rd a : Vec3 K) (r : K) :
    (Vec3.dot rd (Vec3.sub ro a) * Vec3.dot rd (Vec3.sub ro a)
          - (Vec3.dot (Vec3.sub ro a) (Vec3.sub ro a) - r * r) ≥ 0 →
      rayCapsuleIntersection lib ro rd a a r =
        some (-(Vec3.dot rd (Vec3.sub ro a))
          - lib.sqrt (Vec3.dot rd (Vec3.sub ro a) * Vec3.dot rd (Vec3.sub ro a)
              - (Vec3.dot (Vec3.sub ro a) (Vec3.sub ro a) - r * r)))) ∧
    (Vec3.dot rd (Vec3.sub ro a) * Vec3.dot rd (Vec3.sub ro a)
          - (Vec3.dot (Vec3.sub ro a) (Vec3.sub ro a) - r * r) < 0 →
      rayCapsuleIntersection lib ro rd a a r = none) := by
  rw [rayCapsuleIntersection_point]
  constructor
  · intro h
    rw [if_pos h]
  · intro h
    rw [if_neg (not_le_of_lt h)]

theorem rayCapsuleIntersection_zero_length_witness :
    rayCapsuleIntersection demoLib ⟨0, 0, -10⟩ ⟨0, 0, 1⟩ ⟨5, 0, 0⟩ ⟨5, 0, 0⟩ 1 = none :=
  (rayCapsuleIntersection_zero_length demoLib ⟨0, 0, -10⟩ ⟨0, 0, 1⟩ ⟨5, 0, 0⟩ 1).2
    (by norm_num [Vec3.sub, Vec3.dot])

/-- A capsule whose bone name is the name of no bone is returned unchanged by the loop body
of `CharacterPhysics::update`. -/
theorem updateCapsule_unmatched (bones : List (Bone K)) (modelTransform : Mat4 K)
    (cap : Capsule K) (hno : ∀ b ∈ bones, b.name ≠ cap.boneName) :
    updateCapsule bones modelTransform cap = cap := by
  unfold updateCapsule
  have hfind : bones.find? (fun bone => decide (bone.name = cap.boneName)) = none := by
    rw [List.find?_eq_none]
    intro b hb
    simpa using hno b hb
  rw [hfind]

/-- C12, counterexample: the colliders are the single capsule `ghostCapsule` (bone name of no
bone, start and end zero) and the bone list is `[offsetBone]`; after
`CharacterPhysics::update` the ray from `(0,0,-10)` along `(0,0,1)` hits, and the capsule
reported is the one named `ghost`. -/
theorem raycast_reports_unmatched_capsule :
    (∀ b ∈ [offsetBone], b.name ≠ ghostCapsule.boneName) ∧
      (raycast demoLib
        (CharacterPhysics.update (CharacterPhysics.setupColliders [ghostCapsule]) [offsetBone] 1)
        ⟨0, 0, -10⟩ ⟨0, 0, 1⟩ 100 demoHit).1 = true ∧
      (raycast demoLib
        (CharacterPhysics.update (CharacterPhysics.setupColliders [ghostCapsule]) [offsetBone] 1)
        ⟨0, 0, -10⟩ ⟨0, 0, 1⟩ 100 demoHit).2.boneName = "ghost" := by
  have hno : ∀ b ∈ [offsetBone], b.name ≠ ghostCapsule.boneName := by
    intro b hb
    rw [List.mem_singleton] at hb
    subst hb
    decide
  have hupd : CharacterPhysics.update (CharacterPhysics.setupColliders [ghostCapsule])
      [offsetBone] 1 = [ghostCapsule] := by
    simp only [CharacterPhysics.update, CharacterPhysics.setupColliders, List.map_cons,
      List.map_nil, updateCapsule_unmatched _ _ _ hno]
  have h1 : (9 : ℚ) < 100 := by norm_num
  refine ⟨hno, ?_, ?_⟩
  · rw [hupd]
    simp only [raycast, raycastLoop, List.foldl, raycastStep, ghostCapsule,
      rayCapsuleIntersection_origin_point, if_pos h1]
  · rw [hupd]
    simp only [raycast, raycastLoop, List.foldl, raycastStep, ghostCapsule,
      rayCapsuleIntersection_origin_point, if_pos h1]

/-- C12, amended: for every bone list, collider configuration and model transform,
`CharacterPhysics::update` keeps the collider list's length and leaves a capsule whose bone
name matches no bone exactly as it was, at the same position of the list (its start and end
are still the points it was installed with); `raycast` runs over that list, so the capsule
is tested like every other one. -/
theorem update_keeps_unmatched_capsule (colliders : List (Capsule K)) (bones : List (Bone K))
    (modelTransform : Mat4 K) (i : Nat) (cap : Capsule K)
    (hi : (CharacterPhysics.setupColliders colliders)[i]? = some cap)
    (hno : ∀ b ∈ bones, b.name ≠ cap.boneName) :
    (CharacterPhysics.update (CharacterPhysics.setupColliders colliders) bones
        modelTransform).length = colliders.length ∧
      (CharacterPhysics.update (CharacterPhysics.setupColliders colliders) bones
        modelTransform)[i]? = some cap := by
  unfold CharacterPhysics.setupColliders at hi ⊢
  unfold CharacterPhysics.update
  refine ⟨List.length_map _ _, ?_⟩
  rw [List.getElem?_map, hi]
  simp only [Option.map_some']
  rw [updateCapsule_unmatched _ _ _ hno]

theorem update_keeps_unmatched_capsule_witness :
    (CharacterPhysics.update (CharacterPhysics.setupColliders [hipCapsule, ghostCapsule])
        [offsetBone] 1).length = [hipCapsule, ghostCapsule].length ∧
      (CharacterPhysics.update (CharacterPhysics.setupColliders [hipCapsule, ghostCapsule])
        [offsetBone] 1)[1]? = some ghostCapsule :=
  update_keeps_unmatched_capsule [hipCapsule, ghostCapsule] [offsetBone] 1 1 ghostCapsule rfl
    (by
      intro b hb
      rw [List.mem_singleton] at hb
      subst hb
      decide)

/-- C14, the code at the failing input: the bone `hip` has world transform the identity and
final transform the translation by `(1,0,0)`; `CharacterPhysics::update(bones, identity)`
puts the capsule's start at `(1,0,0)` and its end at `(1,2,0)` (the final transform applied
to `(0,0,0,1)` and `(0,height,0,1)`), while the world transform applied to these points
gives `(0,0,0)` and `(0,2,0)`. -/
theorem update_positions_by_finalTransform :
    CharacterPhysics.update [hipCapsule] [offsetBone] 1
        = [{ hipCapsule with start := ⟨1, 0, 0⟩, endPoint := ⟨1, 2, 0⟩ }] ∧
      transformPoint offsetBone.worldTransform ⟨0, 0, 0⟩ = ⟨0, 0, 0⟩ ∧
      transformPoint offsetBone.worldTransform ⟨0, hipCapsule.height, 0⟩ = ⟨0, 2, 0⟩ ∧
      transformPoint offsetBone.finalTransform ⟨0, 0, 0⟩ = ⟨1, 0, 0⟩ ∧
      transformPoint offsetBone.finalTransform ⟨0, hipCapsule.height, 0⟩ = ⟨1, 2, 0⟩ := by
  refine ⟨?_, ?_, ?_, ?_, ?_⟩
  · simp [CharacterPhysics.update, updateCapsule, hipCapsule, offsetBone, transformPoint,
      translateM]
  · simp [offsetBone, transformPoint]
  · simp [offsetBone, hipCapsule, transformPoint]
  · simp [offsetBone, transformPoint, translateM]
  · simp [offsetBone, hipCapsule, transformPoint, translateM]

end DegenerateTheorems

/-! ## Theorems: loading -/

section LoadingTheorems

theorem applyOffset_length (s : Machine K) (aiBone : AiBone K) :
    (applyOffset s aiBone).bones.length = s.bones.length := by
  unfold applyOffset
  split
  · exact length_modifyBone _ _ _
  · rfl

theorem foldl_applyOffset_length (mesh : List (AiBone K)) :
    ∀ s : Machine K, (mesh.foldl applyOffset s).bones.length = s.bones.length := by
  induction mesh with
  | nil => intro s; rfl
  | cons b bs ih =>
    intro s
    rw [List.foldl_cons, ih, applyOffset_length]

theorem foldl_meshes_length (meshes : List (List (AiBone K))) :
    ∀ s : Machine K,
      (meshes.foldl (fun acc mesh => mesh.foldl applyOffset acc) s).bones.length
        = s.bones.length := by
  induction meshes with
  | nil => intro s; rfl
  | cons m ms ih =>
    intro s
    rw [List.foldl_cons, ih, foldl_applyOffset_length]

variable [LinearOrderedField K]

/-- After a successful load the machine has one bone and one final matrix per node. -/
theorem loadFBX_some_length (lib : Lib K) (u : Undef K) (uninit : Mat4 K) (scene : Scene K)
    (s : Machine K) :
    (loadFBX lib u uninit (some scene) s).bones.length = (nodeNames scene.mRootNode).length ∧
      (loadFBX lib u uninit (some scene) s).finalBoneMatrices.length
        = (nodeNames scene.mRootNode).length := by
  have h : (loadFBX lib u uninit (some scene) s).bones.length
      = (nodeNames scene.mRootNode).length := by
    simp only [loadFBX]
    rw [readNodeHierarchy_length]
    simp only []
    rw [foldl_meshes_length, (processNode_mapping uninit scene.mRootNode (-1) _).2]
    simp
  refine ⟨h, ?_⟩
  have h2 : (loadFBX lib u uninit (some scene) s).finalBoneMatrices.length
      = (loadFBX lib u uninit (some scene) s).bones.length := by
    simp only [loadFBX, List.length_map]
  rw [h2, h]

/-- A load whose import yields no scene changes the member `scene` only. -/
theorem loadFBX_none (lib : Lib K) (u : Undef K) (uninit : Mat4 K) (s : Machine K) :
    loadFBX lib u uninit none s = { s with scene := none } := rfl

/-- C15, the code at the failing input: the machine has loaded `demoScene` (two nodes); a
second `loadFBX` whose import yields no scene leaves two bones and two final matrices in
place, with the scene cleared. -/
theorem loadFBX_failure_keeps_skeleton :
    (loadFBX demoLib demoUndef 0 none
        (loadFBX demoLib demoUndef 0 (some demoScene) initialMachine)).scene = none ∧
      (loadFBX demoLib demoUndef 0 none
        (loadFBX demoLib demoUndef 0 (some demoScene) initialMachine)).bones.length = 2 ∧
      (loadFBX demoLib demoUndef 0 none
        (loadFBX demoLib demoUndef 0 (some demoScene) initialMachine)).finalBoneMatrices.length
        = 2 := by
  have h := loadFBX_some_length demoLib demoUndef 0 demoScene initialMachine
  have hn : (nodeNames demoScene.mRootNode).length = 2 := rfl
  rw [hn] at h
  rw [loadFBX_none]
  exact ⟨rfl, h.1, h.2⟩

end LoadingTheorems

/-! ## Theorems: the tick (`FBXStateMachine::update`) -/

section TickTheorems

theorem animationAt_valid (u : Undef K) (anims : List (Animation K)) (i : Int)
    (clip : Animation K) (hi : 0 ≤ i) (hclip : anims[i.toNat]? = some clip) :
    animationAt u anims i = clip := by
  unfold animationAt
  rw [if_pos hi, List.getD_eq_getElem?_getD, hclip]
  rfl

variable [LinearOrderedField K] [FloorRing K]

/-- C16: for every machine with no loaded scene, or with a scene holding zero animations,
`update(dt)` has no side effects: the machine afterwards is the machine before (clock,
current and target state, crossfade timer and flag, state-to-clip mapping, bones and final
matrices included). -/
theorem update_without_animation (lib : Lib K) (u : Undef K) (s : Machine K) (dt : K)
    (h : s.scene = none ∨ ∃ scene, s.scene = some scene ∧ scene.mAnimations.length = 0) :
    update lib u s dt = s := by
  unfold update
  rcases h with h | ⟨scene, h, h0⟩
  · rw [h]
  · rw [h]
    simp only [h0, if_true]

theorem update_without_animation_witness :
    update demoLib demoUndef fadingMachine (1 / 10) = fadingMachine :=
  update_without_animation demoLib demoUndef fadingMachine (1 / 10) (Or.inl rfl)

/-- With a scene holding at least one animation, `update` advances the clock, runs the
evaluation pass for the clip selected by the current state at `clipTime`, copies the final
matrices and does the crossfade bookkeeping. -/
theorem update_eq_pass (lib : Lib K) (u : Undef K) (s : Machine K) (dt : K) (scene : Scene K)
    (hs : s.scene = some scene) (ha : 0 < scene.mAnimations.length) :
    update lib u s dt =
      advanceCrossfade
        { (readNodeHierarchy lib u
            (clipTime (animationAt u scene.mAnimations
              (mapIndex s.stateToClipIndex s.currentState).1) (s.currentTime + dt))
            scene.mRootNode 1
            (some (animationAt u scene.mAnimations
              (mapIndex s.stateToClipIndex s.currentState).1))
            { s with currentTime := s.currentTime + dt,
                     stateToClipIndex := (mapIndex s.stateToClipIndex s.currentState).2 }) with
          finalBoneMatrices :=
            (readNodeHierarchy lib u
              (clipTime (animationAt u scene.mAnimations
                (mapIndex s.stateToClipIndex s.currentState).1) (s.currentTime + dt))
              scene.mRootNode 1
              (some (animationAt u scene.mAnimations
                (mapIndex s.stateToClipIndex s.currentState).1))
              { s with currentTime := s.currentTime + dt,
                       stateToClipIndex := (mapIndex s.stateToClipIndex s.currentState).2
                       }).bones.map (fun b => b.finalTransform) }
        dt := by
  unfold update clipTime
  rw [hs]
  have hne : ¬ scene.mAnimations.length = 0 := by omega
  simp only [hne, if_false]

/-- `fmod x y` lies in `[0, y)` for `x ≥ 0` and `y > 0`. -/
theorem fmod_range (x y : K) (hx : 0 ≤ x) (hy : 0 < y) : 0 ≤ fmod x y ∧ fmod x y < y := by
  unfold fmod
  have hq : 0 ≤ x / y := div_nonneg hx (le_of_lt hy)
  rw [if_pos hq]
  have h1 : ((⌊x / y⌋ : Int) : K) ≤ x / y := Int.floor_le _
  have h2 : x / y < ((⌊x / y⌋ : Int) : K) + 1 := Int.lt_floor_add_one _
  have hxy : x / y * y = x := div_mul_cancel₀ x (ne_of_gt hy)
  constructor
  · have : ((⌊x / y⌋ : Int) : K) * y ≤ x / y * y := mul_le_mul_of_nonneg_right h1 (le_of_lt hy)
    rw [hxy] at this
    linarith
  · have : x / y * y < (((⌊x / y⌋ : Int) : K) + 1) * y := mul_lt_mul_of_pos_right h2 hy
    rw [hxy] at this
    linarith

theorem clipTime_range (clip : Animation K) (clock : K) (hclock : 0 ≤ clock)
    (htps : 0 ≤ clip.mTicksPerSecond) (hdur : 0 < clip.mDuration) :
    0 ≤ clipTime clip clock ∧ clipTime clip clock < clip.mDuration := by
  unfold clipTime
  apply fmod_range _ _ _ hdur
  apply mul_nonneg hclock
  split
  · exact htps
  · norm_num

/-- The clock after a tick of a machine with a scene holding at least one animation. -/
theorem update_currentTime (lib : Lib K) (u : Undef K) (s : Machine K) (dt : K)
    (scene : Scene K) (hs : s.scene = some scene) (ha : 0 < scene.mAnimations.length) :
    (update lib u s dt).currentTime = s.currentTime + dt := by
  rw [update_eq_pass lib u s dt scene hs ha, (advanceCrossfade_frame _ dt).1]
  obtain ⟨bs, e⟩ := readNodeHierarchy_frame lib u
    (clipTime (animationAt u scene.mAnimations
      (mapIndex s.stateToClipIndex s.currentState).1) (s.currentTime + dt))
    scene.mRootNode 1
    (some (animationAt u scene.mAnimations (mapIndex s.stateToClipIndex s.currentState).1))
    { s with currentTime := s.currentTime + dt,
             stateToClipIndex := (mapIndex s.stateToClipIndex s.currentState).2 }
  show (readNodeHierarchy lib u _ scene.mRootNode 1 _ _).currentTime = _
  rw [e]

theorem ceil_neg_half : ⌈(-1 / 2 : ℚ)⌉ = 0 := by
  rw [Int.ceil_eq_iff]
  norm_num

theorem clipTime_backward : clipTime backwardAnimation (0 + 1 / 2) = -1 / 2 := by
  have hneg : ¬ (0 : ℚ) ≤ -1 / 2 := by norm_num
  have e1 : ((0 : ℚ) + 1 / 2) * (-1) = -1 / 2 := by norm_num
  have e2 : (-1 / 2 : ℚ) / 1 = -1 / 2 := by norm_num
  have hne : (-1 : ℚ) ≠ 0 := by norm_num
  simp only [clipTime, backwardAnimation, fmod, if_pos hne, e1, e2, if_neg hneg, ceil_neg_half]
  norm_num

/-- C17, counterexample: the machine holds a scene whose clip for the current state has
duration `1` and ticks-per-second `-1`; with clock `0` and `dt = 1/2` the clock after the
tick is `1/2 ≥ 0`, the duration is positive, and the hierarchy is evaluated at time `-1/2`,
outside `[0, 1)`. -/
theorem update_negative_sample_time :
    backwardMachine.scene = some backwardScene ∧
      backwardScene.mAnimations[(mapIndex backwardMachine.stateToClipIndex
        backwardMachine.currentState).1.toNat]? = some backwardAnimation ∧
      (update demoLib demoUndef backwardMachine (1 / 2)).currentTime = 1 / 2 ∧
      0 < backwardAnimation.mDuration ∧
      update demoLib demoUndef backwardMachine (1 / 2) =
        advanceCrossfade
          { (readNodeHierarchy demoLib demoUndef (-1 / 2) demoTree 1 (some backwardAnimation)
              { backwardMachine with
                currentTime := 0 + 1 / 2,
                stateToClipIndex := mapInsert (fun _ => none) State.IDLE 0 }) with
            finalBoneMatrices :=
              (readNodeHierarchy demoLib demoUndef (-1 / 2) demoTree 1 (some backwardAnimation)
                { backwardMachine with
                  currentTime := 0 + 1 / 2,
                  stateToClipIndex := mapInsert (fun _ => none) State.IDLE 0
                  }).bones.map (fun b => b.finalTransform) }
          (1 / 2) ∧
      ¬ (0 ≤ (-1 / 2 : ℚ)) := by
  refine ⟨rfl, rfl, ?_, by norm_num [backwardAnimation], ?_, by norm_num⟩
  · rw [update_currentTime demoLib demoUndef backwardMachine (1 / 2) backwardScene rfl
      (by decide)]
    norm_num [backwardMachine, initialMachine]
  · rw [update_eq_pass demoLib demoUndef backwardMachine (1 / 2) backwardScene rfl (by decide)]
    have ha : animationAt demoUndef backwardScene.mAnimations
        (mapIndex backwardMachine.stateToClipIndex backwardMachine.currentState).1
        = backwardAnimation := rfl
    have hc : backwardMachine.currentTime = 0 := rfl
    rw [ha, hc, clipTime_backward]
    rfl

/-- C17, amended: for every machine with a loaded scene and a valid clip for the current
state, `update(dt)` sets the clock to `currentTime + dt` and evaluates the hierarchy for that
clip at time `fmod((currentTime + dt) * tps, duration)`, `tps` being the clip's
ticks-per-second if non-zero and `25` otherwise; for a non-negative clock, a non-negative
ticks-per-second value and a positive duration this time lies in `[0, duration)`. -/
theorem update_clock_and_sample_time (lib : Lib K) (u : Undef K) (s : Machine K) (dt : K)
    (scene : Scene K) (clip : Animation K) (hs : s.scene = some scene)
    (hidx : 0 ≤ (mapIndex s.stateToClipIndex s.currentState).1)
    (hclip : scene.mAnimations[(mapIndex s.stateToClipIndex s.currentState).1.toNat]?
      = some clip) :
    (update lib u s dt).currentTime = s.currentTime + dt ∧
    update lib u s dt =
      advanceCrossfade
        { (readNodeHierarchy lib u (clipTime clip (s.currentTime + dt)) scene.mRootNode 1
            (some clip)
            { s with currentTime := s.currentTime + dt,
                     stateToClipIndex := (mapIndex s.stateToClipIndex s.currentState).2 }) with
          finalBoneMatrices :=
            (readNodeHierarchy lib u (clipTime clip (s.currentTime + dt)) scene.mRootNode 1
              (some clip)
              { s with currentTime := s.currentTime + dt,
                       stateToClipIndex := (mapIndex s.stateToClipIndex s.currentState).2
                       }).bones.map (fun b => b.finalTransform) }
        dt ∧
    clipTime clip (s.currentTime + dt)
      = fmod ((s.currentTime + dt)
          * (if clip.mTicksPerSecond ≠ 0 then clip.mTicksPerSecond else 25)) clip.mDuration ∧
    (0 ≤ s.currentTime + dt → 0 ≤ clip.mTicksPerSecond → 0 < clip.mDuration →
      0 ≤ clipTime clip (s.currentTime + dt) ∧
        clipTime clip (s.currentTime + dt) < clip.mDuration) := by
  have ha : 0 < scene.mAnimations.length := by
    by_contra hge
    rw [List.getElem?_eq_none (by omega)] at hclip
    exact Option.noConfusion hclip
  refine ⟨update_currentTime lib u s dt scene hs ha, ?_, rfl,
    fun h1 h2 h3 => clipTime_range clip _ h1 h2 h3⟩
  rw [update_eq_pass lib u s dt scene hs ha,
    animationAt_valid u scene.mAnimations _ clip hidx hclip]

theorem update_clock_and_sample_time_witness :
    (update demoLib demoUndef sceneMachine (1 / 10)).currentTime
        = sceneMachine.currentTime + 1 / 10 ∧
    update demoLib demoUndef sceneMachine (1 / 10) =
      advanceCrossfade
        { (readNodeHierarchy demoLib demoUndef
            (clipTime demoAnimation (sceneMachine.currentTime + 1 / 10)) demoScene.mRootNode 1
            (some demoAnimation)
            { sceneMachine with
              currentTime := sceneMachine.currentTime + 1 / 10,
              stateToClipIndex :=
                (mapIndex sceneMachine.stateToClipIndex sceneMachine.currentState).2 }) with
          finalBoneMatrices :=
            (readNodeHierarchy demoLib demoUndef
              (clipTime demoAnimation (sceneMachine.currentTime + 1 / 10)) demoScene.mRootNode 1
              (some demoAnimation)
              { sceneMachine with
                currentTime := sceneMachine.currentTime + 1 / 10,
                stateToClipIndex :=
                  (mapIndex sceneMachine.stateToClipIndex sceneMachine.currentState).2
                  }).bones.map (fun b => b.finalTransform) }
        (1 / 10) ∧
    clipTime demoAnimation (sceneMachine.currentTime + 1 / 10)
      = fmod ((sceneMachine.currentTime + 1 / 10)
          * (if demoAnimation.mTicksPerSecond ≠ 0 then demoAnimation.mTicksPerSecond else 25))
          demoAnimation.mDuration ∧
    (0 ≤ sceneMachine.currentTime + 1 / 10 → 0 ≤ demoAnimation.mTicksPerSecond →
      0 < demoAnimation.mDuration →
      0 ≤ clipTime demoAnimation (sceneMachine.currentTime + 1 / 10) ∧
        clipTime demoAnimation (sceneMachine.currentTime + 1 / 10) < demoAnimation.mDuration) :=
  update_clock_and_sample_time demoLib demoUndef sceneMachine (1 / 10) demoScene demoAnimation
    rfl (by decide) rfl

/-- C18: two machines that differ only in the target (next) state have, after `update(dt)`,
the same bone list (hence identical world and final transforms) and the same final matrix
list: the pose written by a tick does not depend on the crossfade target. -/
theorem update_pose_independent_of_target (lib : Lib K) (u : Undef K) (s : Machine K)
    (target : State) (dt : K) :
    (update lib u { s with nextState := target } dt).bones = (update lib u s dt).bones ∧
      (update lib u { s with nextState := target } dt).finalBoneMatrices
        = (update lib u s dt).finalBoneMatrices := by
  have idle : ∀ s1 : Machine K,
      (s1.scene = none ∨ ∃ sc, s1.scene = some sc ∧ sc.mAnimations.length = 0) →
      update lib u s1 dt = s1 := by
    intro s1 h
    unfold update
    rcases h with h | ⟨sc, h, h0⟩
    · rw [h]
    · rw [h]
      simp only [h0, if_true]
  by_cases hnone : s.scene = none
  · rw [idle s (Or.inl hnone), idle { s with nextState := target } (Or.inl hnone)]
    exact ⟨rfl, rfl⟩
  · obtain ⟨scene, hs⟩ := Option.ne_none_iff_exists'.mp hnone
    by_cases h0 : scene.mAnimations.length = 0
    · rw [idle s (Or.inr ⟨scene, hs, h0⟩),
        idle { s with nextState := target } (Or.inr ⟨scene, hs, h0⟩)]
      exact ⟨rfl, rfl⟩
    · have ha : 0 < scene.mAnimations.length := Nat.pos_of_ne_zero h0
      have hs' : ({ s with nextState := target } : Machine K).scene = some scene := hs
      rw [update_eq_pass lib u s dt scene hs ha,
        update_eq_pass lib u { s with nextState := target } dt scene hs' ha,
        (advanceCrossfade_frame _ dt).2.1, (advanceCrossfade_frame _ dt).2.2,
        (advanceCrossfade_frame _ dt).2.1, (advanceCrossfade_frame _ dt).2.2]
      have key := readNodeHierarchy_nextState lib u
        (clipTime (animationAt u scene.mAnimations
          (mapIndex s.stateToClipIndex s.currentState).1) (s.currentTime + dt)) target
        scene.mRootNode 1
        (some (animationAt u scene.mAnimations (mapIndex s.stateToClipIndex s.currentState).1))
        { s with currentTime := s.currentTime + dt,
                 stateToClipIndex := (mapIndex s.stateToClipIndex s.currentState).2 }
      have hb := congrArg Machine.bones key
      exact ⟨hb, congrArg (List.map (fun b => b.finalTransform)) hb⟩

end TickTheorems

/-! ## Theorems: matrix blending -/

section MixerTheorems

variable [LinearOrderedField K]

/-- C20: for all matrix lists `a` and `b` of equal length and every `alpha`,
`AnimationMixer::blend(a, b, alpha)` returns `a` when `alpha ≤ 0`, returns `b` when
`alpha ≥ 1`, and otherwise returns a list of the length of `a` whose `i`-th entry is the
component-wise combination `(1 - alpha) * a[i] + alpha * b[i]`. -/
theorem blend_spec (junk : Mat4 K) (a b : List (Mat4 K)) (alpha : K)
    (hlen : a.length = b.length) :
    (alpha ≤ 0 → AnimationMixer.blend junk a b alpha = a) ∧
    (alpha ≥ 1 → AnimationMixer.blend junk a b alpha = b) ∧
    (0 < alpha → alpha < 1 →
      (AnimationMixer.blend junk a b alpha).length = a.length ∧
      ∀ (i : Nat) (x : Mat4 K), a[i]? = some x →
        ∃ y : Mat4 K, b[i]? = some y ∧
          (AnimationMixer.blend junk a b alpha)[i]? = some ((1 - alpha) • x + alpha • y) ∧
          ∀ r c : Fin 4,
            ((1 - alpha) • x + alpha • y) r c = (1 - alpha) * x r c + alpha * y r c) := by
  refine ⟨?_, ?_, ?_⟩
  · intro h
    unfold AnimationMixer.blend
    rw [if_pos h]
  · intro h
    have h0 : ¬ alpha ≤ 0 := not_le_of_lt (lt_of_lt_of_le one_pos h)
    unfold AnimationMixer.blend
    rw [if_neg h0, if_pos h]
  · intro h0 h1
    have n0 : ¬ alpha ≤ 0 := not_le_of_lt h0
    have n1 : ¬ alpha ≥ 1 := not_le_of_lt h1
    unfold AnimationMixer.blend
    rw [if_neg n0, if_neg n1]
    refine ⟨by simp, ?_⟩
    intro i x hx
    have hi : i < a.length := by
      by_contra hge
      rw [List.getElem?_eq_none (Nat.le_of_not_lt hge)] at hx
      exact Option.noConfusion hx
    have hib : i < b.length := hlen ▸ hi
    refine ⟨b[i], List.getElem?_eq_getElem hib, ?_,
      fun r c => by simp [Matrix.add_apply, Matrix.smul_apply]⟩
    rw [List.getElem?_map, List.getElem?_range hi]
    simp only [Option.map_some', List.getD_eq_getElem?_getD, hx, List.getElem?_eq_getElem hib,
      Option.getD_some]

theorem blend_spec_witness :
    ((1 / 2 : ℚ) ≤ 0 → AnimationMixer.blend 0 blendA blendB (1 / 2) = blendA) ∧
    ((1 / 2 : ℚ) ≥ 1 → AnimationMixer.blend 0 blendA blendB (1 / 2) = blendB) ∧
    ((0 : ℚ) < 1 / 2 → (1 / 2 : ℚ) < 1 →
      (AnimationMixer.blend 0 blendA blendB (1 / 2)).length = blendA.length ∧
      ∀ (i : Nat) (x : Mat4 ℚ), blendA[i]? = some x →
        ∃ y : Mat4 ℚ, blendB[i]? = some y ∧
          (AnimationMixer.blend 0 blendA blendB (1 / 2))[i]?
            = some ((1 - 1 / 2 : ℚ) • x + (1 / 2 : ℚ) • y) ∧
          ∀ r c : Fin 4, ((1 - 1 / 2 : ℚ) • x + (1 / 2 : ℚ) • y) r c
            = (1 - 1 / 2) * x r c + 1 / 2 * y r c) :=
  blend_spec 0 blendA blendB (1 / 2) rfl

end MixerTheorems

/-! ## Theorems: world transforms written by an evaluation pass -/

section WorldTheorems

mutual
theorem worldList_length [Field K] (localOf : String → Mat4 K → Mat4 K) :
    ∀ (c : Node K) (parent : Mat4 K),
      (worldList localOf c parent).length = (nodeNames c).length
  | Node.mk mName mTransformation mChildren, parent => by
    rw [worldList, nodeNames, List.length_cons, List.length_cons,
      worldListChildren_length localOf mChildren]
theorem worldListChildren_length [Field K] (localOf : String → Mat4 K → Mat4 K) :
    ∀ (cs : List (Node K)) (parent : Mat4 K),
      (worldListChildren localOf cs parent).length = (nodeNamesList cs).length
  | [], _ => by
    rw [worldListChildren, nodeNamesList]
    rfl
  | c :: cs, parent => by
    rw [worldListChildren, nodeNamesList, List.length_append, List.length_append,
      worldList_length localOf c, worldListChildren_length localOf cs]
end

variable [LinearOrderedField K]

/-- The write of `readNodeHierarchy` for a node whose name is mapped to the valid index
`start`: the bone at `start` gets the world transform `g`, every other bone is untouched. -/
theorem writeBone_at (nodeName : String) (g : Mat4 K) (s : Machine K) (start : Nat)
    (hm : s.boneMapping nodeName = some ((start : Nat) : Int)) (hlt : start < s.bones.length) :
    (∃ b, (writeBone nodeName g s).bones[start]? = some b ∧ b.worldTransform = g) ∧
      ∀ i, i ≠ start → (writeBone nodeName g s).bones[i]? = s.bones[i]? := by
  unfold writeBone
  rw [hm]
  simp only [modifyBone, if_pos (Int.natCast_nonneg start), Int.toNat_ofNat]
  constructor
  · rw [List.getElem?_modify_eq, List.getElem?_eq_getElem hlt]
    exact ⟨_, rfl, rfl⟩
  · intro i hi
    rw [List.getElem?_modify_ne _ _ (Ne.symm hi)]

theorem lt_length_of_getElem? {α : Type} (l : List α) (k : Nat) (x : α)
    (h : l[k]? = some x) : k < l.length := by
  by_contra hge
  rw [List.getElem?_eq_none (Nat.le_of_not_lt hge)] at h
  exact Option.noConfusion h

mutual
theorem readNodeHierarchy_worlds (lib : Lib K) (u : Undef K) (t : K)
    (anim : Option (Animation K)) :
    ∀ (c : Node K) (pt : Mat4 K) (s : Machine K) (start : Nat),
      (∀ k n, (nodeNames c)[k]? = some n →
        s.boneMapping n = some ((start + k : Nat) : Int)) →
      start + (nodeNames c).length ≤ s.bones.length →
      (∀ k w, (worldList (nodeLocalTransform lib u t anim) c pt)[k]? = some w →
        ∃ b, (readNodeHierarchy lib u t c pt anim s).bones[start + k]? = some b ∧
          b.worldTransform = w) ∧
      (∀ i, (i < start ∨ start + (nodeNames c).length ≤ i) →
        (readNodeHierarchy lib u t c pt anim s).bones[i]? = s.bones[i]?)
  | Node.mk mName mTransformation mChildren, pt, s, start, hmap, hlen => by
    rw [readNodeHierarchy, worldList]
    rw [nodeNames] at hmap hlen ⊢
    rw [List.length_cons] at hlen ⊢
    have hm0 : s.boneMapping mName = some ((start : Nat) : Int) :=
      hmap 0 mName (List.getElem?_cons_zero)
    have hlt : start < s.bones.length := by omega
    obtain ⟨⟨b0, hb0, hw0⟩, hother⟩ := writeBone_at mName
      (pt * nodeLocalTransform lib u t anim mName mTransformation) s start hm0 hlt
    obtain ⟨ihA, ihB⟩ := readChildren_worlds lib u t anim mChildren
      (pt * nodeLocalTransform lib u t anim mName mTransformation)
      (writeBone mName (pt * nodeLocalTransform lib u t anim mName mTransformation) s)
      (start + 1)
      (fun k n h => by
        rw [writeBone_boneMapping]
        have := hmap (k + 1) n (by rw [List.getElem?_cons_succ]; exact h)
        have e : start + (k + 1) = start + 1 + k := by omega
        rw [e] at this
        exact this)
      (by rw [writeBone_length]; omega)
    constructor
    · intro k w hk
      cases k with
      | zero =>
        rw [List.getElem?_cons_zero] at hk
        have e : pt * nodeLocalTransform lib u t anim mName mTransformation = w :=
          Option.some.inj hk
        refine ⟨b0, ?_, hw0.trans e⟩
        rw [Nat.add_zero, ihB start (Or.inl (Nat.lt_succ_self _))]
        exact hb0
      | succ k =>
        rw [List.getElem?_cons_succ] at hk
        obtain ⟨b, hb, hw⟩ := ihA k w hk
        refine ⟨b, ?_, hw⟩
        have e : start + (k + 1) = start + 1 + k := by omega
        rw [e]
        exact hb
    · intro i hi
      rw [ihB i (by omega), hother i (by omega)]
theorem readChildren_worlds (lib : Lib K) (u : Undef K) (t : K)
    (anim : Option (Animation K)) :
    ∀ (cs : List (Node K)) (g : Mat4 K) (s : Machine K) (start : Nat),
      (∀ k n, (nodeNamesList cs)[k]? = some n →
        s.boneMapping n = some ((start + k : Nat) : Int)) →
      start + (nodeNamesList cs).length ≤ s.bones.length →
      (∀ k w, (worldListChildren (nodeLocalTransform lib u t anim) cs g)[k]? = some w →
        ∃ b, (readChildren lib u t cs g anim s).bones[start + k]? = some b ∧
          b.worldTransform = w) ∧
      (∀ i, (i < start ∨ start + (nodeNamesList cs).length ≤ i) →
        (readChildren lib u t cs g anim s).bones[i]? = s.bones[i]?)
  | [], g, s, start, _, _ => by
    rw [readChildren, worldListChildren]
    constructor
    · intro k w hk
      rw [List.getElem?_nil] at hk
      exact Option.noConfusion hk
    · intro i _
      rfl
  | c :: cs, g, s, start, hmap, hlen => by
    rw [readChildren, worldListChildren]
    rw [nodeNamesList] at hmap hlen ⊢
    rw [List.length_append] at hlen ⊢
    obtain ⟨a1, a2⟩ := readNodeHierarchy_worlds lib u t anim c g s start
      (fun k n h => hmap k n (by
        rw [List.getElem?_append_left (lt_length_of_getElem? _ _ _ h)]
        exact h))
      (by omega)
    have bm : (readNodeHierarchy lib u t c g anim s).boneMapping = s.boneMapping :=
      (readNodeHierarchy_good lib u t c g anim s).2.2
    obtain ⟨b1, b2⟩ := readChildren_worlds lib u t anim cs g
      (readNodeHierarchy lib u t c g anim s) (start + (nodeNames c).length)
      (fun k n h => by
        rw [bm]
        have := hmap ((nodeNames c).length + k) n (by
          rw [List.getElem?_append_right (Nat.le_add_right _ _), Nat.add_sub_cancel_left]
          exact h)
        rw [← Nat.add_assoc] at this
        exact this)
      (by rw [readNodeHierarchy_length]; omega)
    have wl := worldList_length (nodeLocalTransform lib u t anim) c g
    constructor
    · intro k w hk
      by_cases hkl : k < (worldList (nodeLocalTransform lib u t anim) c g).length
      · rw [List.getElem?_append_left hkl] at hk
        obtain ⟨b, hb, hw⟩ := a1 k w hk
        refine ⟨b, ?_, hw⟩
        rw [b2 (start + k) (Or.inl (by omega))]
        exact hb
      · rw [List.getElem?_append_right (Nat.le_of_not_lt hkl)] at hk
        obtain ⟨b, hb, hw⟩ := b1 _ w hk
        refine ⟨b, ?_, hw⟩
        have e : start + k = start + (nodeNames c).length
            + (k - (worldList (nodeLocalTransform lib u t anim) c g).length) := by omega
        rw [e]
        exact hb
    · intro i hi
      rw [b2 i (by omega), a2 i (by omega)]
end

/-- A node without a channel in the animation (or with no animation at all) keeps its rest
transform as local transform. -/
theorem nodeLocalTransform_no_channel (lib : Lib K) (u : Undef K) (t : K)
    (anim : Option (Animation K)) (name : String) (rest : Mat4 K)
    (h : anim = none ∨ ∃ a, anim = some a ∧ ∀ ch ∈ a.mChannels, ch.mNodeName ≠ name) :
    nodeLocalTransform lib u t anim name rest = rest := by
  have hfind : findNodeAnim anim name = none := by
    rcases h with h | ⟨a, h, hch⟩
    · rw [h]
      rfl
    · rw [h]
      show a.mChannels.find? (fun pNodeAnim => decide (pNodeAnim.mNodeName = name)) = none
      rw [List.find?_eq_none]
      intro ch hc
      simpa using hch ch hc
  unfold nodeLocalTransform
  rw [hfind]

/-- With unique node names, after a pass the world transforms of the bones, in index order,
are the world transforms of the nodes in pre-order. -/
theorem readNodeHierarchy_worldList (lib : Lib K) (u : Undef K) (uninit : Mat4 K)
    (root : Node K) (hu : (nodeNames root).Nodup) (s0 s : Machine K)
    (hmap : s.boneMapping = (processNode uninit root (-1)
      { s0 with bones := [], boneMapping := fun _ => none }).boneMapping)
    (hlen : s.bones.length = (processNode uninit root (-1)
      { s0 with bones := [], boneMapping := fun _ => none }).bones.length)
    (t : K) (anim : Option (Animation K)) :
    (readNodeHierarchy lib u t root 1 anim s).bones.map Bone.worldTransform
      = worldList (nodeLocalTransform lib u t anim) root 1 := by
  obtain ⟨hm, hl⟩ := processNode_mapping uninit root (-1)
    { s0 with bones := [], boneMapping := fun _ => none }
  rw [hm] at hmap
  rw [hl] at hlen
  simp only [List.length_nil, Nat.zero_add] at hmap hlen
  obtain ⟨hA, _⟩ := readNodeHierarchy_worlds lib u t anim root 1 s 0
    (fun k n h => by
      rw [hmap, insertNames_nodup _ hu 0 _ k n h])
    (by omega)
  have wl := worldList_length (nodeLocalTransform lib u t anim) root 1
  have rl := readNodeHierarchy_length lib u t root 1 anim s
  apply List.ext_getElem?
  intro k
  by_cases hk : k < (worldList (nodeLocalTransform lib u t anim) root 1).length
  · obtain ⟨b, hb, hw⟩ := hA k _ (List.getElem?_eq_getElem hk)
    rw [Nat.zero_add] at hb
    rw [List.getElem?_map, hb, List.getElem?_eq_getElem hk, ← hw]
    rfl
  · rw [List.getElem?_eq_none (Nat.le_of_not_lt hk), List.getElem?_eq_none]
    rw [List.length_map]
    omega

/-- C19, counterexample: in `dupTree` both nodes are named `a`, so the name map sends `a` to
bone 1 and the pass with a null animation never writes bone 0; its world transform is still
the identity, while the product of rest transforms along the path to it is the scaling by
`2`. -/
theorem duplicate_names_break_rest_pose :
    ∃ (b : Bone ℚ) (w : Mat4 ℚ),
      (readNodeHierarchy demoLib demoUndef 0 dupTree 1 none
        (processNode 0 dupTree (-1)
          { initialMachine with bones := [], boneMapping := fun _ => none })).bones[0]? = some b ∧
      (worldList (fun _ rest => rest) dupTree 1)[0]? = some w ∧
      b.worldTransform = 1 ∧ w = scaleM ⟨2, 2, 2⟩ ∧ b.worldTransform ≠ w := by
  refine ⟨_, _, rfl, rfl, rfl, one_mul _, ?_⟩
  show (1 : Mat4 ℚ) ≠ 1 * scaleM ⟨2, 2, 2⟩
  rw [one_mul]
  intro h
  have h00 := congrFun (congrFun h 0) 0
  simp [scaleM] at h00

/-- C19, amended: for every node that has no channel in the animation passed to
`readNodeHierarchy` (including a null animation) and every query time, the local transform
used for that node is its rest transform; hence, in a skeleton with unique node names, after
a pass with a null animation the world transforms of the bones (in index order) are the
products of the rest transforms along the path from the root to each bone. -/
theorem rest_pose_world_transforms (lib : Lib K) (u : Undef K) (uninit : Mat4 K)
    (root : Node K) (hu : (nodeNames root).Nodup) (s0 s : Machine K)
    (hmap : s.boneMapping = (processNode uninit root (-1)
      { s0 with bones := [], boneMapping := fun _ => none }).boneMapping)
    (hlen : s.bones.length = (processNode uninit root (-1)
      { s0 with bones := [], boneMapping := fun _ => none }).bones.length)
    (t : K) :
    (∀ (anim : Option (Animation K)) (name : String) (rest : Mat4 K) (time : K),
      (anim = none ∨ ∃ a, anim = some a ∧ ∀ ch ∈ a.mChannels, ch.mNodeName ≠ name) →
      nodeLocalTransform lib u time anim name rest = rest) ∧
    (readNodeHierarchy lib u t root 1 none s).bones.map Bone.worldTransform
      = worldList (fun _ rest => rest) root 1 := by
  refine ⟨fun anim name rest time h => nodeLocalTransform_no_channel lib u time anim name rest h,
    ?_⟩
  have e : nodeLocalTransform lib u t none = fun _ rest => rest := by
    funext name rest
    exact nodeLocalTransform_no_channel lib u t none name rest (Or.inl rfl)
  rw [← e]
  exact readNodeHierarchy_worldList lib u uninit root hu s0 s hmap hlen t none

theorem rest_pose_world_transforms_witness :
    (∀ (anim : Option (Animation ℚ)) (name : String) (rest : Mat4 ℚ) (time : ℚ),
      (anim = none ∨ ∃ a, anim = some a ∧ ∀ ch ∈ a.mChannels, ch.mNodeName ≠ name) →
      nodeLocalTransform demoLib demoUndef time anim name rest = rest) ∧
    (readNodeHierarchy demoLib demoUndef 0 demoTree 1 none
        (processNode 0 demoTree (-1)
          { initialMachine with bones := [], boneMapping := fun _ => none })).bones.map
        Bone.worldTransform
      = worldList (fun _ rest => rest) demoTree 1 :=
  rest_pose_world_transforms demoLib demoUndef 0 demoTree (by decide) initialMachine
    (processNode 0 demoTree (-1) { initialMachine with bones := [], boneMapping := fun _ => none })
    rfl rfl 0

end WorldTheorems

/-! ## Theorems: bracketing keys and the interpolation factor -/

section BracketTheorems

variable [LinearOrderedField K]

end BracketTheorems

/-! ## Theorems: geometry of `rayCapsuleIntersection` -/

section GeometryTheorems

variable [LinearOrderedField K]

/-- `rayCapsuleIntersection` written with its named locals: on the path `h ≥ 0` it divides
by `a_coeff`, returns the cylinder distance when the projection `y` is strictly inside the
segment, and otherwise runs the cap test for the end selected by `y`. -/
theorem rayCapsuleIntersection_eq (lib : Lib K) (ro rd a b : Vec3 K) (r : K) :
    rayCapsuleIntersection lib ro rd a b r =
      if capsuleDiscriminant ro rd a b r ≥ 0 then
        if Vec3.dot (Vec3.sub b a) (Vec3.sub ro a)
              + cylinderT lib ro rd a b r * Vec3.dot (Vec3.sub b a) rd > 0 ∧
            Vec3.dot (Vec3.sub b a) (Vec3.sub ro a)
              + cylinderT lib ro rd a b r * Vec3.dot (Vec3.sub b a) rd
              < Vec3.dot (Vec3.sub b a) (Vec3.sub b a) then
          some (cylinderT lib ro rd a b r)
        else
          capTest lib rd
            (if Vec3.dot (Vec3.sub b a) (Vec3.sub ro a)
                + cylinderT lib ro rd a b r * Vec3.dot (Vec3.sub b a) rd ≤ 0
              then Vec3.sub ro a else Vec3.sub ro b) r
      else none := rfl

/-- The ray from `(0, h/2, z0)` along `(0,0,1)` meets the cylinder part of the capsule from
`(0,0,0)` to `(0,h,0)` at the signed distance `-z0 - r`, whatever the sign of that value. -/
theorem rayCapsuleIntersection_axis_from (lib : Lib K)
    (hsqrt : ∀ x : K, 0 ≤ x → lib.sqrt (x * x) = x) (h r z0 : K) (hh : 0 < h) (hr : 0 < r) :
    rayCapsuleIntersection lib ⟨0, h / 2, z0⟩ ⟨0, 0, 1⟩ ⟨0, 0, 0⟩ ⟨0, h, 0⟩ r
      = some (-z0 - r) := by
  have hh2 : 0 < h * h := mul_pos hh hh
  have hne : h * h ≠ 0 := ne_of_gt hh2
  have hroot : lib.sqrt ((h * h * r) * (h * h * r)) = h * h * r :=
    hsqrt _ (le_of_lt (mul_pos hh2 hr))
  have hA : capsuleACoeff (⟨0, 0, 1⟩ : Vec3 K) ⟨0, 0, 0⟩ ⟨0, h, 0⟩ = h * h := by
    simp only [capsuleACoeff, Vec3.dot, Vec3.sub]
    ring
  have hB : capsuleBCoeff (⟨0, h / 2, z0⟩ : Vec3 K) ⟨0, 0, 1⟩ ⟨0, 0, 0⟩ ⟨0, h, 0⟩
      = h * h * z0 := by
    simp only [capsuleBCoeff, Vec3.dot, Vec3.sub]
    ring
  have hD : capsuleDiscriminant (⟨0, h / 2, z0⟩ : Vec3 K) ⟨0, 0, 1⟩ ⟨0, 0, 0⟩ ⟨0, h, 0⟩ r
      = (h * h * r) * (h * h * r) := by
    simp only [capsuleDiscriminant, capsuleBCoeff, capsuleACoeff, capsuleCCoeff, Vec3.dot,
      Vec3.sub]
    ring
  have hT : cylinderT lib (⟨0, h / 2, z0⟩ : Vec3 K) ⟨0, 0, 1⟩ ⟨0, 0, 0⟩ ⟨0, h, 0⟩ r
      = -z0 - r := by
    unfold cylinderT
    rw [hD, hroot, hB, hA]
    field_simp
    ring
  have hnn : capsuleDiscriminant (⟨0, h / 2, z0⟩ : Vec3 K) ⟨0, 0, 1⟩ ⟨0, 0, 0⟩ ⟨0, h, 0⟩ r
      ≥ 0 := by
    rw [hD]
    exact mul_self_nonneg _
  have hba : Vec3.dot (Vec3.sub (⟨0, h, 0⟩ : Vec3 K) ⟨0, 0, 0⟩)
      (Vec3.sub ⟨0, h / 2, z0⟩ ⟨0, 0, 0⟩) = h * h / 2 := by
    simp only [Vec3.dot, Vec3.sub]
    ring
  have hbd : Vec3.dot (Vec3.sub (⟨0, h, 0⟩ : Vec3 K) ⟨0, 0, 0⟩) ⟨0, 0, 1⟩ = 0 := by
    simp only [Vec3.dot, Vec3.sub]
    ring
  have hbb : Vec3.dot (Vec3.sub (⟨0, h, 0⟩ : Vec3 K) ⟨0, 0, 0⟩)
      (Vec3.sub ⟨0, h, 0⟩ ⟨0, 0, 0⟩) = h * h := by
    simp only [Vec3.dot, Vec3.sub]
    ring
  rw [rayCapsuleIntersection_eq, if_pos hnn, hT, hba, hbd, hbb, mul_zero, add_zero]
  have hy : h * h / 2 > 0 ∧ h * h / 2 < h * h := by
    constructor
    · linarith
    · linarith
  rw [if_pos hy]

/-- C25, counterexample: the capsule `axisCapsule` and the ray from `(0,1,10)` along the unit
direction `(0,0,1)`, which points away from the capsule, with `maxDist = 100`: `raycast`
returns `true` and reports the position `(0,1,-1) = origin + (-11) * direction`; no `t ≥ 0`
gives that position. -/
theorem raycast_reports_capsule_behind_origin :
    Vec3.dot (⟨0, 0, 1⟩ : Vec3 ℚ) ⟨0, 0, 1⟩ = 1 ∧ (0 : ℚ) < 100 ∧
      (raycast demoLib [axisCapsule] ⟨0, 2 / 2, 10⟩ ⟨0, 0, 1⟩ 100 demoHit).1 = true ∧
      (raycast demoLib [axisCapsule] ⟨0, 2 / 2, 10⟩ ⟨0, 0, 1⟩ 100 demoHit).2.position
        = ⟨0, 1, -1⟩ ∧
      ∀ t : ℚ, 0 ≤ t →
        (raycast demoLib [axisCapsule] ⟨0, 2 / 2, 10⟩ ⟨0, 0, 1⟩ 100 demoHit).2.position
          ≠ Vec3.add ⟨0, 2 / 2, 10⟩ (Vec3.smul t ⟨0, 0, 1⟩) := by
  have hax : rayCapsuleIntersection demoLib ⟨0, 2 / 2, 10⟩ ⟨0, 0, 1⟩ axisCapsule.start
      axisCapsule.endPoint axisCapsule.radius = some (-10 - 1) :=
    rayCapsuleIntersection_axis_from demoLib ratSqrt_mul_self 2 1 10 (by norm_num)
      (by norm_num)
  have hlt : (-10 - 1 : ℚ) < 100 := by norm_num
  have hpos : (raycast demoLib [axisCapsule] ⟨0, 2 / 2, 10⟩ ⟨0, 0, 1⟩ 100 demoHit).2.position
      = ⟨0, 1, -1⟩ := by
    simp only [raycast, raycastLoop, List.foldl, raycastStep, hax, if_pos hlt]
    simp only [Vec3.add, Vec3.smul, Vec3.mk.injEq]
    norm_num
  refine ⟨by norm_num [Vec3.dot], by norm_num, ?_, hpos, ?_⟩
  · simp only [raycast, raycastLoop, List.foldl, raycastStep, hax, if_pos hlt]
  · intro t ht
    rw [hpos]
    intro h
    have hz := congrArg Vec3.z h
    simp only [Vec3.add, Vec3.smul] at hz
    linarith

/-- C25, amended: for every capsule set, ray and `maxDist`, whenever `raycast` returns `true`
the reported position is `origin + t * direction` for some `t < maxDist` that is the distance
`rayCapsuleIntersection` returns for a capsule of the set; no lower bound is imposed on `t`
by `raycast`, and `0 ≤ t` holds when no capsule of the set is intersected at a negative
distance. -/
theorem raycast_hit_on_ray_line (lib : Lib K) (colliders : List (Capsule K))
    (rayOrigin rayDir : Vec3 K) (maxDist : K) (hit : HitResult K)
    (hfound : (raycast lib colliders rayOrigin rayDir maxDist hit).1 = true) :
    ∃ t, t < maxDist ∧
      (raycast lib colliders rayOrigin rayDir maxDist hit).2.position
        = Vec3.add rayOrigin (Vec3.smul t rayDir) ∧
      (∃ cap ∈ colliders,
        rayCapsuleIntersection lib rayOrigin rayDir cap.start cap.endPoint cap.radius
          = some t) ∧
      ((∀ cap ∈ colliders, ∀ t',
          rayCapsuleIntersection lib rayOrigin rayDir cap.start cap.endPoint cap.radius
            = some t' → 0 ≤ t') → 0 ≤ t) := by
  have inv := raycast_fold_invariant lib rayOrigin rayDir maxDist colliders colliders
    { minDist := maxDist, found := false, hit := hit } (fun _ hc => hc)
    ⟨le_refl _, fun hf => by simp at hf⟩
  obtain ⟨cap, hc, t, ht, hlt, _, hp, _⟩ := inv.2 hfound
  exact ⟨t, hlt, hp, ⟨cap, hc, ht⟩, fun hall => hall cap hc t ht⟩

theorem raycast_hit_on_ray_line_witness :
    ∃ t : ℚ, t < 100 ∧
      (raycast demoLib [axisCapsule] ⟨0, 2 / 2, -10⟩ ⟨0, 0, 1⟩ 100 demoHit).2.position
        = Vec3.add ⟨0, 2 / 2, -10⟩ (Vec3.smul t ⟨0, 0, 1⟩) ∧
      (∃ cap ∈ [axisCapsule],
        rayCapsuleIntersection demoLib ⟨0, 2 / 2, -10⟩ ⟨0, 0, 1⟩ cap.start cap.endPoint
          cap.radius = some t) ∧
      ((∀ cap ∈ [axisCapsule], ∀ t',
          rayCapsuleIntersection demoLib ⟨0, 2 / 2, -10⟩ ⟨0, 0, 1⟩ cap.start cap.endPoint
            cap.radius = some t' → 0 ≤ t') → 0 ≤ t) :=
  raycast_hit_on_ray_line demoLib [axisCapsule] ⟨0, 2 / 2, -10⟩ ⟨0, 0, 1⟩ 100 demoHit
    (by
      have hax : rayCapsuleIntersection demoLib ⟨0, 2 / 2, -10⟩ ⟨0, 0, 1⟩ axisCapsule.start
          axisCapsule.endPoint axisCapsule.radius = some (10 - 1) :=
        rayCapsuleIntersection_axis demoLib ratSqrt_mul_self 2 1 (by norm_num) (by norm_num)
      have hlt : (10 - 1 : ℚ) < 100 := by norm_num
      simp only [raycast, raycastLoop, List.foldl, raycastStep, hax, if_pos hlt])

end GeometryTheorems

/-! ## Theorems: the crossfade flag over all reachable states -/

section ReachTheorems

mutual
theorem processNode_control [Field K] (uninit : Mat4 K) :
    ∀ (c : Node K) (p : Int) (s : Machine K),
      (processNode uninit c p s).currentState = s.currentState ∧
        (processNode uninit c p s).nextState = s.nextState ∧
        (processNode uninit c p s).isCrossfading = s.isCrossfading
  | Node.mk mName mTransformation mChildren, p, s => by
    rw [processNode]
    simp only []
    refine ⟨?_, ?_, ?_⟩
    · rw [(processChildren_control uninit mChildren _ _).1]
      split <;> rfl
    · rw [(processChildren_control uninit mChildren _ _).2.1]
      split <;> rfl
    · rw [(processChildren_control uninit mChildren _ _).2.2]
      split <;> rfl
theorem processChildren_control [Field K] (uninit : Mat4 K) :
    ∀ (cs : List (Node K)) (cur : Int) (s : Machine K),
      (processChildren uninit cs cur s).currentState = s.currentState ∧
        (processChildren uninit cs cur s).nextState = s.nextState ∧
        (processChildren uninit cs cur s).isCrossfading = s.isCrossfading
  | [], _, s => by
    rw [processChildren]
    exact ⟨rfl, rfl, rfl⟩
  | c :: cs, cur, s => by
    rw [processChildren]
    have h1 := processNode_control uninit c cur s
    have h2 := processChildren_control uninit cs cur (processNode uninit c cur s)
    exact ⟨h2.1.trans h1.1, h2.2.1.trans h1.2.1, h2.2.2.trans h1.2.2⟩
end

theorem applyOffset_control [Field K] (s : Machine K) (aiBone : AiBone K) :
    (applyOffset s aiBone).currentState = s.currentState ∧
      (applyOffset s aiBone).nextState = s.nextState ∧
      (applyOffset s aiBone).isCrossfading = s.isCrossfading := by
  unfold applyOffset
  split <;> exact ⟨rfl, rfl, rfl⟩

theorem foldl_applyOffset_control [Field K] (mesh : List (AiBone K)) :
    ∀ s : Machine K,
      (mesh.foldl applyOffset s).currentState = s.currentState ∧
        (mesh.foldl applyOffset s).nextState = s.nextState ∧
        (mesh.foldl applyOffset s).isCrossfading = s.isCrossfading := by
  induction mesh with
  | nil => intro s; exact ⟨rfl, rfl, rfl⟩
  | cons b bs ih =>
    intro s
    rw [List.foldl_cons]
    have h1 := applyOffset_control s b
    have h2 := ih (applyOffset s b)
    exact ⟨h2.1.trans h1.1, h2.2.1.trans h1.2.1, h2.2.2.trans h1.2.2⟩

theorem foldl_meshes_control [Field K] (meshes : List (List (AiBone K))) :
    ∀ s : Machine K,
      (meshes.foldl (fun acc mesh => mesh.foldl applyOffset acc) s).currentState
          = s.currentState ∧
        (meshes.foldl (fun acc mesh => mesh.foldl applyOffset acc) s).nextState
          = s.nextState ∧
        (meshes.foldl (fun acc mesh => mesh.foldl applyOffset acc) s).isCrossfading
          = s.isCrossfading := by
  induction meshes with
  | nil => intro s; exact ⟨rfl, rfl, rfl⟩
  | cons m ms ih =>
    intro s
    rw [List.foldl_cons]
    have h1 := foldl_applyOffset_control m s
    have h2 := ih (m.foldl applyOffset s)
    exact ⟨h2.1.trans h1.1, h2.2.1.trans h1.2.1, h2.2.2.trans h1.2.2⟩

variable [LinearOrderedField K]

/-- `loadFBX` leaves the current state, the target state and the crossfade flag untouched. -/
theorem loadFBX_control (lib : Lib K) (u : Undef K) (uninit : Mat4 K)
    (imported : Option (Scene K)) (s : Machine K) :
    (loadFBX lib u uninit imported s).currentState = s.currentState ∧
      (loadFBX lib u uninit imported s).nextState = s.nextState ∧
      (loadFBX lib u uninit imported s).isCrossfading = s.isCrossfading := by
  cases imported with
  | none => exact ⟨rfl, rfl, rfl⟩
  | some scene =>
    simp only [loadFBX]
    have h1 := readNodeHierarchy_control lib u 0 scene.mRootNode 1 none
      { scene.mMeshBones.foldl (fun acc mesh => mesh.foldl applyOffset acc)
          (processNode uninit scene.mRootNode (-1)
            { s with scene := some scene, bones := [], boneMapping := fun _ => none }) with
        globalInverseTransform := matInverse scene.mRootNode.mTransformation }
    have h2 := foldl_meshes_control scene.mMeshBones
      (processNode uninit scene.mRootNode (-1)
        { s with scene := some scene, bones := [], boneMapping := fun _ => none })
    have h3 := processNode_control uninit scene.mRootNode (-1)
      { s with scene := some scene, bones := [], boneMapping := fun _ => none }
    refine ⟨?_, ?_, ?_⟩
    · exact h1.2.2.2.2.trans (h2.1.trans h3.1)
    · exact h1.2.2.2.1.trans (h2.2.1.trans h3.2.1)
    · exact h1.1.trans (h2.2.2.trans h3.2.2)

theorem advanceCrossfade_flag (s : Machine K) (dt : K) (h : FlagMatchesTarget s) :
    FlagMatchesTarget (advanceCrossfade s dt) := by
  unfold advanceCrossfade
  split
  · dsimp only
    split
    · unfold FlagMatchesTarget
      simp
    · exact h
  · exact h

theorem setState_flag (s : Machine K) (state : State) (h : FlagMatchesTarget s) :
    FlagMatchesTarget (setState s state) := by
  unfold setState
  split
  · exact h
  · rename_i hne
    unfold FlagMatchesTarget
    simp only [true_iff]
    exact fun e => hne e.symm

variable [FloorRing K]

theorem update_flag (lib : Lib K) (u : Undef K) (s : Machine K) (dt : K)
    (h : FlagMatchesTarget s) : FlagMatchesTarget (update lib u s dt) := by
  by_cases hnone : s.scene = none
  · have e : update lib u s dt = s := by
      unfold update
      rw [hnone]
    rw [e]
    exact h
  · obtain ⟨scene, hs⟩ := Option.ne_none_iff_exists'.mp hnone
    by_cases h0 : scene.mAnimations.length = 0
    · have e : update lib u s dt = s := by
        unfold update
        rw [hs]
        simp only [h0, if_true]
      rw [e]
      exact h
    · obtain ⟨s4, e, h1, _, _, h4, h5⟩ :=
        update_eq_advanceCrossfade lib u s dt scene hs (Nat.pos_of_ne_zero h0)
      rw [e]
      apply advanceCrossfade_flag
      unfold FlagMatchesTarget at h ⊢
      rw [h1, h4, h5]
      exact h

/-- C24: in every state reachable from an initial machine state (current and target state
`IDLE`, crossfade flag clear, as the member initialisers leave them) by any sequence of
`setState`, `setAnimationMapping`, `update` and `loadFBX` calls, the crossfade flag is set
if and only if the target state differs from the current state. -/
theorem crossfade_flag_iff_target_differs (lib : Lib K) (u : Undef K) (s0 s : Machine K)
    (hcur : s0.currentState = State.IDLE) (hnext : s0.nextState = State.IDLE)
    (hflag : s0.isCrossfading = false) (hreach : Reachable lib u s0 s) :
    s.isCrossfading = true ↔ s.nextState ≠ s.currentState := by
  have key : FlagMatchesTarget s := by
    induction hreach with
    | start =>
      unfold FlagMatchesTarget
      rw [hcur, hnext, hflag]
      simp
    | afterSetState s1 state _ ih => exact setState_flag s1 state ih
    | afterSetAnimationMapping s1 state clipIndex _ ih => exact ih
    | afterUpdate s1 dt _ ih => exact update_flag lib u s1 dt ih
    | afterLoadFBX s1 uninit imported _ ih =>
      obtain ⟨h1, h2, h3⟩ := loadFBX_control lib u uninit imported s1
      unfold FlagMatchesTarget at ih ⊢
      rw [h1, h2, h3]
      exact ih
  exact key

theorem crossfade_flag_iff_target_differs_witness :
    (update demoLib demoUndef
        (setState (loadFBX demoLib demoUndef 0 (some demoScene) initialMachine) State.RUN)
        (1 / 10)).isCrossfading = true ↔
      (update demoLib demoUndef
        (setState (loadFBX demoLib demoUndef 0 (some demoScene) initialMachine) State.RUN)
        (1 / 10)).nextState ≠
      (update demoLib demoUndef
        (setState (loadFBX demoLib demoUndef 0 (some demoScene) initialMachine) State.RUN)
        (1 / 10)).currentState :=
  crossfade_flag_iff_target_differs demoLib demoUndef initialMachine
    (update demoLib demoUndef
      (setState (loadFBX demoLib demoUndef 0 (some demoScene) initialMachine) State.RUN)
      (1 / 10))
    rfl rfl rfl
    (Reachable.afterUpdate _ _
      (Reachable.afterSetState _ _ (Reachable.afterLoadFBX _ _ _ Reachable.start)))

end ReachTheorems

/-! ## Theorems: completion of a crossfade over repeated ticks -/

section CrossfadeTheorems

variable [LinearOrderedField K]

theorem readNodeHierarchy_scene (lib : Lib K) (u : Undef K) (t : K) (c : Node K)
    (pt : Mat4 K) (anim : Option (Animation K)) (s : Machine K) :
    (readNodeHierarchy lib u t c pt anim s).scene = s.scene := by
  obtain ⟨bs, e⟩ := readNodeHierarchy_frame lib u t c pt anim s
  rw [e]

theorem advanceCrossfade_keep (s : Machine K) (dt : K) :
    (advanceCrossfade s dt).scene = s.scene ∧
      (advanceCrossfade s dt).crossfadeDuration = s.crossfadeDuration ∧
      (advanceCrossfade s dt).nextState = s.nextState := by
  unfold advanceCrossfade
  split
  · dsimp only
    split <;> exact ⟨rfl, rfl, rfl⟩
  · exact ⟨rfl, rfl, rfl⟩

/-- The three cases of the crossfade bookkeeping. -/
theorem advanceCrossfade_cases (s : Machine K) (dt : K) :
    (s.isCrossfading = true → s.crossfadeTime + dt ≥ s.crossfadeDuration →
        (advanceCrossfade s dt).currentState = s.nextState ∧
        (advanceCrossfade s dt).isCrossfading = false) ∧
      (s.isCrossfading = true → ¬ s.crossfadeTime + dt ≥ s.crossfadeDuration →
        (advanceCrossfade s dt).currentState = s.currentState ∧
        (advanceCrossfade s dt).isCrossfading = true ∧
        (advanceCrossfade s dt).crossfadeTime = s.crossfadeTime + dt) ∧
      (s.isCrossfading = false →
        (advanceCrossfade s dt).currentState = s.currentState ∧
        (advanceCrossfade s dt).isCrossfading = false) := by
  unfold advanceCrossfade
  refine ⟨fun hf hge => ?_, fun hf hlt => ?_, fun hf => ?_⟩
  · rw [if_pos hf]
    dsimp only
    rw [if_pos hge]
    exact ⟨rfl, rfl⟩
  · rw [if_pos hf]
    dsimp only
    rw [if_neg hlt]
    exact ⟨rfl, hf, rfl⟩
  · have hn : ¬ s.isCrossfading = true := by
      rw [hf]
      simp
    rw [if_neg hn]
    exact ⟨rfl, hf⟩

variable [FloorRing K]

theorem update_scene (lib : Lib K) (u : Undef K) (s : Machine K) (dt : K) :
    (update lib u s dt).scene = s.scene := by
  unfold update
  split
  · rfl
  · split
    · rfl
    · dsimp only
      rw [(advanceCrossfade_keep _ _).1]
      dsimp only
      rw [readNodeHierarchy_scene]

/-- One tick of a machine with a scene holding at least one animation, on the control
fields. -/
theorem update_control (lib : Lib K) (u : Undef K) (s : Machine K) (dt : K)
    (scene : Scene K) (hs : s.scene = some scene) (ha : 0 < scene.mAnimations.length) :
    (update lib u s dt).crossfadeDuration = s.crossfadeDuration ∧
      (update lib u s dt).nextState = s.nextState ∧
      (s.isCrossfading = true → s.crossfadeTime + dt ≥ s.crossfadeDuration →
        (update lib u s dt).currentState = s.nextState ∧
        (update lib u s dt).isCrossfading = false) ∧
      (s.isCrossfading = true → ¬ s.crossfadeTime + dt ≥ s.crossfadeDuration →
        (update lib u s dt).currentState = s.currentState ∧
        (update lib u s dt).isCrossfading = true ∧
        (update lib u s dt).crossfadeTime = s.crossfadeTime + dt) ∧
      (s.isCrossfading = false →
        (update lib u s dt).currentState = s.currentState ∧
        (update lib u s dt).isCrossfading = false) := by
  obtain ⟨s4, e, h1, h2, h3, h4, h5⟩ := update_eq_advanceCrossfade lib u s dt scene hs ha
  have hk := advanceCrossfade_keep s4 dt
  have hc := advanceCrossfade_cases s4 dt
  rw [h1, h2, h3, h4, h5] at hc
  rw [e, hk.2.1, hk.2.2, h3, h4]
  exact ⟨rfl, rfl, hc⟩

/-- State of a machine that has just begun a crossfade to `T` after `n` ticks of length
`dt`: either the crossfade is still running with timer `n * dt` (and `n = 0` or
`n * dt` below the duration), or it has completed (`n ≥ 1`, `n * dt` at least the
duration). -/
theorem updateTimes_crossfade (lib : Lib K) (u : Undef K) (s0 : Machine K) (T : State)
    (dt : K) (scene : Scene K) (hs : s0.scene = some scene)
    (ha : 0 < scene.mAnimations.length) (hT : s0.currentState ≠ T) (hdt : 0 < dt) :
    ∀ n : Nat,
      (updateTimes lib u dt n (setState s0 T)).scene = some scene ∧
      (updateTimes lib u dt n (setState s0 T)).crossfadeDuration = s0.crossfadeDuration ∧
      (updateTimes lib u dt n (setState s0 T)).nextState = T ∧
      (((n = 0 ∨ (n : K) * dt < s0.crossfadeDuration) ∧
          (updateTimes lib u dt n (setState s0 T)).isCrossfading = true ∧
          (updateTimes lib u dt n (setState s0 T)).crossfadeTime = (n : K) * dt ∧
          (updateTimes lib u dt n (setState s0 T)).currentState = s0.currentState) ∨
        (1 ≤ n ∧ (n : K) * dt ≥ s0.crossfadeDuration ∧
          (updateTimes lib u dt n (setState s0 T)).isCrossfading = false ∧
          (updateTimes lib u dt n (setState s0 T)).currentState = T)) := by
  intro n
  induction n with
  | zero =>
    have e : updateTimes lib u dt 0 (setState s0 T)
        = { s0 with nextState := T, isCrossfading := true, crossfadeTime := 0 } := by
      unfold updateTimes setState
      rw [if_neg hT]
    rw [e]
    refine ⟨hs, rfl, rfl, Or.inl ⟨Or.inl rfl, rfl, ?_, rfl⟩⟩
    simp
  | succ n ih =>
    obtain ⟨ihs, ihd, ihn, ihc⟩ := ih
    have hstep : updateTimes lib u dt (n + 1) (setState s0 T)
        = update lib u (updateTimes lib u dt n (setState s0 T)) dt := rfl
    rw [hstep]
    obtain ⟨hd, hn, hfin, hrun, hidle⟩ :=
      update_control lib u (updateTimes lib u dt n (setState s0 T)) dt scene ihs ha
    have hcast : ((n + 1 : Nat) : K) * dt = (n : K) * dt + dt := by
      push_cast
      ring
    refine ⟨(update_scene lib u _ dt).trans ihs, hd.trans ihd, hn.trans ihn, ?_⟩
    rcases ihc with ⟨_, hf, ht, hc⟩ | ⟨_, hge, hf, hc⟩
    · by_cases hdone : (n : K) * dt + dt ≥ s0.crossfadeDuration
      · right
        have h := hfin hf (by rw [ht, ihd]; exact hdone)
        refine ⟨by omega, by rw [hcast]; exact hdone, h.2, h.1.trans ihn⟩
      · left
        have h := hrun hf (by rw [ht, ihd]; exact hdone)
        refine ⟨Or.inr (by rw [hcast]; exact lt_of_not_le hdone), h.2.1, ?_, h.1.trans hc⟩
        rw [h.2.2, ht, hcast]
    · right
      have h := hidle hf
      refine ⟨by omega, ?_, h.2, h.1.trans hc⟩
      rw [hcast]
      have : s0.crossfadeDuration ≤ (n : K) * dt := hge
      linarith

/-- C28: for every machine with a loaded scene holding at least one animation that has just
begun a crossfade to a target `T` different from its current state (`setState(T)`, timer
`0`), every `dt > 0` and every `n ≥ 1`: after `n` consecutive `update(dt)` calls the current
state is `T` if and only if `n * dt ≥ crossfadeDuration`, and while `n * dt` is below the
duration the current state is still the original one. -/
theorem crossfade_completes_after (lib : Lib K) (u : Undef K) (s0 : Machine K) (T : State)
    (dt : K) (n : Nat) (scene : Scene K) (hs : s0.scene = some scene)
    (ha : 0 < scene.mAnimations.length) (hT : s0.currentState ≠ T) (hdt : 0 < dt)
    (hn : 1 ≤ n) :
    ((updateTimes lib u dt n (setState s0 T)).currentState = T ↔
        (n : K) * dt ≥ s0.crossfadeDuration) ∧
      ((n : K) * dt < s0.crossfadeDuration →
        (updateTimes lib u dt n (setState s0 T)).currentState = s0.currentState) := by
  obtain ⟨_, _, _, hc⟩ := updateTimes_crossfade lib u s0 T dt scene hs ha hT hdt n
  rcases hc with ⟨hlt, _, _, hcur⟩ | ⟨_, hge, _, hcur⟩
  · have hlt2 : (n : K) * dt < s0.crossfadeDuration := by
      rcases hlt with h0 | h
      · omega
      · exact h
    refine ⟨⟨fun h => ?_, fun h => absurd h (not_le_of_lt hlt2)⟩, fun _ => hcur⟩
    rw [hcur] at h
    exact absurd h hT
  · exact ⟨⟨fun _ => hge, fun _ => hcur⟩, fun h => absurd hge (not_le_of_lt h)⟩

theorem crossfade_completes_after_witness :
    ((updateTimes demoLib demoUndef (1 / 10) 2 (setState sceneMachine State.RUN)).currentState
          = State.RUN ↔
        ((2 : Nat) : ℚ) * (1 / 10) ≥ sceneMachine.crossfadeDuration) ∧
      (((2 : Nat) : ℚ) * (1 / 10) < sceneMachine.crossfadeDuration →
        (updateTimes demoLib demoUndef (1 / 10) 2 (setState sceneMachine State.RUN)).currentState
          = sceneMachine.currentState) :=
  crossfade_completes_after demoLib demoUndef sceneMachine State.RUN (1 / 10) 2 demoScene rfl
    (by decide) (by decide) (by norm_num) (by norm_num)

end CrossfadeTheorems

/-! ## Theorems: the parent-child recurrence of world transforms -/

section RecurrenceTheorems

theorem map_boneSkel_modifyBone (f : Bone K → Bone K) (hf : ∀ b, boneSkel (f b) = boneSkel b)
    (i : Int) (bones : List (Bone K)) :
    (modifyBone f i bones).map boneSkel = bones.map boneSkel := by
  unfold modifyBone
  split
  · generalize i.toNat = n
    induction bones generalizing n with
    | nil => simp
    | cons b bs ih =>
      cases n with
      | zero => simp [hf]
      | succ n => simp [ih]
  · rfl

/-- In a bone list with pairwise distinct names, the first bone carrying the name of the
bone at index `i` is the bone at index `i`. -/
theorem find?_name_nodup (bones : List (Bone K)) (hn : (bones.map Bone.name).Nodup) (i : Nat)
    (b : Bone K) (hi : bones[i]? = some b) :
    bones.find? (fun bone => decide (bone.name = b.name)) = some b := by
  induction bones generalizing i with
  | nil => simp at hi
  | cons x xs ih =>
    rw [List.map_cons, List.nodup_cons] at hn
    cases i with
    | zero =>
      simp only [List.getElem?_cons_zero, Option.some.injEq] at hi
      subst hi
      simp
    | succ i =>
      rw [List.getElem?_cons_succ] at hi
      have hmem : b.name ∈ xs.map Bone.name :=
        List.mem_map_of_mem Bone.name (List.getElem?_mem hi)
      have hne : ¬ x.name = b.name := fun e => hn.1 (e ▸ hmem)
      rw [List.find?_cons_of_neg _ (by simpa using hne)]
      exact ih hn.2 i hi

variable [Field K]

mutual
theorem skelList_length :
    ∀ (c : Node K) (p : Int) (start : Nat), (skelList c p start).length = (nodeNames c).length
  | Node.mk mName mTransformation mChildren, p, start => by
    rw [skelList, nodeNames, List.length_cons, List.length_cons,
      skelListChildren_length mChildren]
theorem skelListChildren_length :
    ∀ (cs : List (Node K)) (p : Int) (start : Nat),
      (skelListChildren cs p start).length = (nodeNamesList cs).length
  | [], _, _ => by
    rw [skelListChildren, nodeNamesList]
    rfl
  | c :: cs, p, start => by
    rw [skelListChildren, nodeNamesList, List.length_append, List.length_append,
      skelList_length c, skelListChildren_length cs]
end

mutual
theorem skelList_names :
    ∀ (c : Node K) (p : Int) (start : Nat),
      (skelList c p start).map (fun x => x.2.1) = nodeNames c
  | Node.mk mName mTransformation mChildren, p, start => by
    rw [skelList, nodeNames, List.map_cons, skelListChildren_names mChildren]
theorem skelListChildren_names :
    ∀ (cs : List (Node K)) (p : Int) (start : Nat),
      (skelListChildren cs p start).map (fun x => x.2.1) = nodeNamesList cs
  | [], _, _ => by
    rw [skelListChildren, nodeNamesList]
    rfl
  | c :: cs, p, start => by
    rw [skelListChildren, nodeNamesList, List.map_append, skelList_names c,
      skelListChildren_names cs]
end

mutual
/-- The bones `processNode` appends for a tree are its nodes in pre-order, each with its
parent's index, its name and its rest transform. -/
theorem processNode_skel (uninit : Mat4 K) :
    ∀ (c : Node K) (p : Int) (s : Machine K),
      (processNode uninit c p s).bones.map boneSkel
        = s.bones.map boneSkel ++ skelList c p s.bones.length
  | Node.mk mName mTransformation mChildren, p, s => by
    rw [processNode, skelList]
    simp only []
    split
    · have ih := processChildren_skel uninit mChildren (s.bones.length : Int)
        { s with
          bones := modifyBone (fun b => { b with children := b.children ++ [(s.bones.length : Int)] }) p (s.bones ++ [{ name := mName, parentIndex := p, localTransform := mTransformation, offsetMatrix := 1, finalTransform := uninit, children := [], worldTransform := 1 }])
          boneMapping := mapInsert s.boneMapping mName (s.bones.length : Int) }
      rw [ih]
      simp [length_modifyBone, map_boneSkel_modifyBone, boneSkel]
    · have ih := processChildren_skel uninit mChildren (s.bones.length : Int)
        { s with
          bones := s.bones ++ [{ name := mName, parentIndex := p, localTransform := mTransformation, offsetMatrix := 1, finalTransform := uninit, children := [], worldTransform := 1 }]
          boneMapping := mapInsert s.boneMapping mName (s.bones.length : Int) }
      rw [ih]
      simp [boneSkel]
theorem processChildren_skel (uninit : Mat4 K) :
    ∀ (cs : List (Node K)) (cur : Int) (s : Machine K),
      (processChildren uninit cs cur s).bones.map boneSkel
        = s.bones.map boneSkel ++ skelListChildren cs cur s.bones.length
  | [], _, s => by
    rw [processChildren, skelListChildren, List.append_nil]
  | c :: cs, cur, s => by
    rw [processChildren, skelListChildren]
    have h1 := processNode_skel uninit c cur s
    have h2 := processChildren_skel uninit cs cur (processNode uninit c cur s)
    rw [h2, h1, (processNode_mapping uninit c cur s).2, List.append_assoc]
end

mutual
/-- The recurrence behind `worldList`: the first entry is the parent transform times the
local transform of the root, and every later entry is the entry of its parent (an earlier
position, given by the parent index) times its own local transform. -/
theorem worldList_recurrence (localOf : String → Mat4 K → Mat4 K) :
    ∀ (c : Node K) (pt : Mat4 K) (p : Int) (start k : Nat) (q : Int) (n : String)
      (r w : Mat4 K),
      (skelList c p start)[k]? = some (q, n, r) → (worldList localOf c pt)[k]? = some w →
      (k = 0 ∧ q = p ∧ w = pt * localOf n r) ∨
        (∃ j, j < k ∧ q = ((start + j : Nat) : Int) ∧
          ∃ wj, (worldList localOf c pt)[j]? = some wj ∧ w = wj * localOf n r)
  | Node.mk mName mTransformation mChildren, pt, p, start, k, q, n, r, w, hs, hw => by
    rw [skelList] at hs
    rw [worldList] at hw ⊢
    cases k with
    | zero =>
      simp only [List.getElem?_cons_zero, Option.some.injEq, Prod.mk.injEq] at hs hw
      obtain ⟨h1, h2, h3⟩ := hs
      left
      exact ⟨rfl, h1.symm, by rw [← hw, h2, h3]⟩
    | succ k =>
      rw [List.getElem?_cons_succ] at hs hw
      right
      rcases worldListChildren_recurrence localOf mChildren
          (pt * localOf mName mTransformation) (start : Int) (start + 1) k q n r w hs hw with
        ⟨hq, hw2⟩ | ⟨j, hj, hq, wj, hwj, hw2⟩
      · exact ⟨0, Nat.succ_pos _, by rw [hq]; rfl, _, List.getElem?_cons_zero, hw2⟩
      · refine ⟨j + 1, by omega, ?_, wj, ?_, hw2⟩
        · rw [hq]
          congr 1
          omega
        · rw [List.getElem?_cons_succ]
          exact hwj
theorem worldListChildren_recurrence (localOf : String → Mat4 K → Mat4 K) :
    ∀ (cs : List (Node K)) (g : Mat4 K) (cur : Int) (start k : Nat) (q : Int) (n : String)
      (r w : Mat4 K),
      (skelListChildren cs cur start)[k]? = some (q, n, r) →
      (worldListChildren localOf cs g)[k]? = some w →
      (q = cur ∧ w = g * localOf n r) ∨
        (∃ j, j < k ∧ q = ((start + j : Nat) : Int) ∧
          ∃ wj, (worldListChildren localOf cs g)[j]? = some wj ∧ w = wj * localOf n r)
  | [], _, _, _, _, _, _, _, _, hs, _ => by
    rw [skelListChildren] at hs
    simp at hs
  | c :: cs, g, cur, start, k, q, n, r, w, hs, hw => by
    rw [skelListChildren] at hs
    rw [worldListChildren] at hw ⊢
    have hl1 := skelList_length c cur start
    have hl2 := worldList_length localOf c g
    by_cases hk : k < (nodeNames c).length
    · rw [List.getElem?_append_left (by omega)] at hs hw
      rcases worldList_recurrence localOf c g cur start k q n r w hs hw with
        ⟨_, hq, hw2⟩ | ⟨j, hj, hq, wj, hwj, hw2⟩
      · left
        exact ⟨hq, hw2⟩
      · right
        refine ⟨j, hj, hq, wj, ?_, hw2⟩
        rw [List.getElem?_append_left (by omega)]
        exact hwj
    · rw [List.getElem?_append_right (by omega)] at hs hw
      rw [hl1] at hs
      rw [hl2] at hw
      rcases worldListChildren_recurrence localOf cs g cur (start + (nodeNames c).length)
          (k - (nodeNames c).length) q n r w hs hw with
        ⟨hq, hw2⟩ | ⟨j, hj, hq, wj, hwj, hw2⟩
      · left
        exact ⟨hq, hw2⟩
      · right
        refine ⟨(nodeNames c).length + j, by omega, ?_, wj, ?_, hw2⟩
        · rw [hq]
          congr 1
          omega
        · rw [List.getElem?_append_right (by omega), hl2]
          have e : (nodeNames c).length + j - (nodeNames c).length = j := by omega
          rw [e]
          exact hwj
end

end RecurrenceTheorems

/-! ## Theorems: world transforms along parent links, and the bone a capsule follows -/

section PoseTheorems

variable [LinearOrderedField K]

theorem writeBone_skel (nodeName : String) (g : Mat4 K) (s : Machine K) :
    (writeBone nodeName g s).bones.map boneSkel = s.bones.map boneSkel := by
  unfold writeBone
  split
  · dsimp only
    apply map_boneSkel_modifyBone
    intro b
    rfl
  · rfl

mutual
/-- An evaluation pass changes no parent index, name or rest transform. -/
theorem readNodeHierarchy_skel (lib : Lib K) (u : Undef K) (t : K) :
    ∀ (c : Node K) (pt : Mat4 K) (anim : Option (Animation K)) (s : Machine K),
      (readNodeHierarchy lib u t c pt anim s).bones.map boneSkel = s.bones.map boneSkel
  | Node.mk mName mTransformation mChildren, pt, anim, s => by
    rw [readNodeHierarchy]
    exact (readChildren_skel lib u t mChildren _ anim _).trans (writeBone_skel _ _ _)
theorem readChildren_skel (lib : Lib K) (u : Undef K) (t : K) :
    ∀ (cs : List (Node K)) (g : Mat4 K) (anim : Option (Animation K)) (s : Machine K),
      (readChildren lib u t cs g anim s).bones.map boneSkel = s.bones.map boneSkel
  | [], _, _, s => by
    rw [readChildren]
  | c :: cs, g, anim, s => by
    rw [readChildren]
    exact (readChildren_skel lib u t cs g anim _).trans (readNodeHierarchy_skel lib u t c g anim s)
end

/-- A machine whose bones carry the parent indices, names and rest transforms that
`processNode` builds for `root` has them in pre-order. -/
theorem skel_of_processNode (uninit : Mat4 K) (root : Node K) (s0 s : Machine K)
    (hskel : s.bones.map boneSkel = (processNode uninit root (-1)
      { s0 with bones := [], boneMapping := fun _ => none }).bones.map boneSkel) :
    s.bones.map boneSkel = skelList root (-1) 0 ∧
      s.bones.length = (processNode uninit root (-1)
        { s0 with bones := [], boneMapping := fun _ => none }).bones.length := by
  have hP := processNode_skel uninit root (-1)
    { s0 with bones := [], boneMapping := fun _ => none }
  simp only [List.map_nil, List.nil_append, List.length_nil] at hP
  refine ⟨hskel.trans hP, ?_⟩
  have h := congrArg List.length hskel
  simpa using h

/-- The first element of a list that satisfies `p`, given by its position, is what `find?`
returns. -/
theorem find?_first {α : Type} (p : α → Bool) (l : List α) (k : Nat) (x : α)
    (hk : l[k]? = some x) (hp : p x = true)
    (hfirst : ∀ (j : Nat) (c : α), j < k → l[j]? = some c → p c = false) :
    l.find? p = some x := by
  induction l generalizing k with
  | nil => simp at hk
  | cons y ys ih =>
    cases k with
    | zero =>
      simp only [List.getElem?_cons_zero, Option.some.injEq] at hk
      subst hk
      rw [List.find?_cons_of_pos _ hp]
    | succ k =>
      rw [List.getElem?_cons_succ] at hk
      have hy : p y = false := hfirst 0 y (Nat.succ_pos _) List.getElem?_cons_zero
      rw [List.find?_cons_of_neg _ (by simp [hy])]
      exact ih k hk (fun j c hj hc =>
        hfirst (j + 1) c (Nat.succ_lt_succ hj) (by rw [List.getElem?_cons_succ]; exact hc))

/-- The local transform of a node that has a channel: when `ch` is the first channel of the
animation carrying the node name, it is translation * rotation * scale of the values sampled
from `ch`. -/
theorem nodeLocalTransform_channel (lib : Lib K) (u : Undef K) (t : K) (a : Animation K)
    (name : String) (rest : Mat4 K) (k : Nat) (ch : NodeAnim K)
    (hk : a.mChannels[k]? = some ch) (hname : ch.mNodeName = name)
    (hfirst : ∀ (j : Nat) (c : NodeAnim K), j < k → a.mChannels[j]? = some c →
      c.mNodeName ≠ name) :
    nodeLocalTransform lib u t (some a) name rest
      = translateM (calcInterpolatedPosition u t ch)
        * lib.quatGetMatrix (calcInterpolatedRotation lib u t ch)
        * scaleM (calcInterpolatedScaling u t ch) := by
  have hfind : findNodeAnim (some a) name = some ch := by
    show a.mChannels.find? (fun pNodeAnim => decide (pNodeAnim.mNodeName = name)) = some ch
    apply find?_first _ _ k ch hk
    · simpa using hname
    · intro j c hj hc
      simpa using hfirst j c hj hc
  unfold nodeLocalTransform
  rw [hfind]

/-- C21: for every skeleton with unique node names, after an evaluation pass of
`readNodeHierarchy` started at the root with identity parent transform, bone `0` is the root
bone (parent index `-1`) and its world transform equals its local transform; every bone
`i > 0` has a parent index `j < i` and satisfies
`worldTransform(i) = worldTransform(j) * local(i)`, where `local(i)` is
`nodeLocalTransform` at the bone's name and rest transform: for every name it is
`translation * rotation * scale` of the values sampled (`calcInterpolatedPosition`,
`calcInterpolatedRotation`, `calcInterpolatedScaling`) from the first channel of the animation
that carries the name, and the rest transform when the animation is null or has no channel
of that name. -/
theorem world_transform_recurrence (lib : Lib K) (u : Undef K) (uninit : Mat4 K)
    (root : Node K) (hu : (nodeNames root).Nodup) (s0 s : Machine K)
    (hmap : s.boneMapping = (processNode uninit root (-1)
      { s0 with bones := [], boneMapping := fun _ => none }).boneMapping)
    (hskel : s.bones.map boneSkel = (processNode uninit root (-1)
      { s0 with bones := [], boneMapping := fun _ => none }).bones.map boneSkel)
    (t : K) (anim : Option (Animation K)) :
    (∃ b, (readNodeHierarchy lib u t root 1 anim s).bones[0]? = some b ∧
        b.parentIndex = -1 ∧
        b.worldTransform = nodeLocalTransform lib u t anim b.name b.localTransform) ∧
      (∀ (i : Nat) (b : Bone K), 0 < i →
        (readNodeHierarchy lib u t root 1 anim s).bones[i]? = some b →
        ∃ (j : Nat) (bp : Bone K), j < i ∧ b.parentIndex = (j : Int) ∧
          (readNodeHierarchy lib u t root 1 anim s).bones[j]? = some bp ∧
          b.worldTransform
            = bp.worldTransform * nodeLocalTransform lib u t anim b.name b.localTransform) ∧
      (∀ (name : String) (rest : Mat4 K),
        (∀ (a : Animation K) (k : Nat) (ch : NodeAnim K), anim = some a →
          a.mChannels[k]? = some ch → ch.mNodeName = name →
          (∀ (j : Nat) (c : NodeAnim K), j < k → a.mChannels[j]? = some c →
            c.mNodeName ≠ name) →
          nodeLocalTransform lib u t anim name rest
            = translateM (calcInterpolatedPosition u t ch)
              * lib.quatGetMatrix (calcInterpolatedRotation lib u t ch)
              * scaleM (calcInterpolatedScaling u t ch)) ∧
        ((anim = none ∨ ∃ a, anim = some a ∧ ∀ ch ∈ a.mChannels, ch.mNodeName ≠ name) →
          nodeLocalTransform lib u t anim name rest = rest)) := by
  obtain ⟨hS0, hlen⟩ := skel_of_processNode uninit root s0 s hskel
  have hS : (readNodeHierarchy lib u t root 1 anim s).bones.map boneSkel
      = skelList root (-1) 0 := (readNodeHierarchy_skel lib u t root 1 anim s).trans hS0
  have hW := readNodeHierarchy_worldList lib u uninit root hu s0 s hmap hlen t anim
  have key : ∀ (i : Nat) (b : Bone K),
      (readNodeHierarchy lib u t root 1 anim s).bones[i]? = some b →
      (skelList root (-1) 0)[i]? = some (b.parentIndex, b.name, b.localTransform) ∧
        (worldList (nodeLocalTransform lib u t anim) root 1)[i]? = some b.worldTransform := by
    intro i b hb
    rw [← hS, ← hW, List.getElem?_map, List.getElem?_map, hb]
    exact ⟨rfl, rfl⟩
  refine ⟨?_, ?_, fun name rest => ⟨fun a k ch ha hk hname hfirst => ?_,
    fun hno => nodeLocalTransform_no_channel lib u t anim name rest hno⟩⟩
  · have hpos : 0 < (readNodeHierarchy lib u t root 1 anim s).bones.length := by
      have h := congrArg List.length hW
      rw [List.length_map, worldList_length] at h
      rw [h]
      cases root with
      | mk n r cs =>
        rw [nodeNames]
        exact Nat.succ_pos _
    refine ⟨_, List.getElem?_eq_getElem hpos, ?_⟩
    obtain ⟨h1, h2⟩ := key 0 _ (List.getElem?_eq_getElem hpos)
    rcases worldList_recurrence (nodeLocalTransform lib u t anim) root 1 (-1) 0 0 _ _ _ _ h1 h2
      with ⟨_, hq, hw⟩ | ⟨j, hj, _⟩
    · rw [one_mul] at hw
      exact ⟨hq, hw⟩
    · omega
  · intro i b hi hb
    obtain ⟨h1, h2⟩ := key i b hb
    rcases worldList_recurrence (nodeLocalTransform lib u t anim) root 1 (-1) 0 i _ _ _ _ h1 h2
      with ⟨h0, _, _⟩ | ⟨j, hj, hq, wj, hwj, hw⟩
    · omega
    · rw [← hW, List.getElem?_map] at hwj
      cases hbp : (readNodeHierarchy lib u t root 1 anim s).bones[j]? with
      | none =>
        rw [hbp] at hwj
        simp at hwj
      | some bp =>
        rw [hbp] at hwj
        simp only [Option.map_some', Option.some.injEq] at hwj
        refine ⟨j, bp, hj, ?_, hbp, ?_⟩
        · rw [hq, Nat.zero_add]
        · rw [hwj]
          exact hw
  · rw [ha]
    exact nodeLocalTransform_channel lib u t a name rest k ch hk hname hfirst

theorem world_transform_recurrence_witness :
    ∃ b0 b1 : Bone ℚ,
      (readNodeHierarchy demoLib demoUndef (1 / 2) poseTree 1 (some hipAnimation)
        (processNode 0 poseTree (-1)
          { initialMachine with bones := [], boneMapping := fun _ => none })).bones[0]?
        = some b0 ∧
      (readNodeHierarchy demoLib demoUndef (1 / 2) poseTree 1 (some hipAnimation)
        (processNode 0 poseTree (-1)
          { initialMachine with bones := [], boneMapping := fun _ => none })).bones[1]?
        = some b1 ∧
      b0.parentIndex = -1 ∧ b0.worldTransform = scaleM ⟨2, 2, 2⟩ ∧
      b1.parentIndex = 0 ∧
      b1.worldTransform
        = b0.worldTransform
          * (translateM ⟨1 / 2, 1 / 2, 1 / 2⟩
            * demoLib.quatGetMatrix
                (calcInterpolatedRotation demoLib demoUndef (1 / 2) demoChannel)
            * scaleM ⟨3 / 2, 3 / 2, 3 / 2⟩) := by
  have h := world_transform_recurrence demoLib demoUndef 0 poseTree (by decide) initialMachine
    (processNode 0 poseTree (-1) { initialMachine with bones := [], boneMapping := fun _ => none })
    rfl rfl (1 / 2) (some hipAnimation)
  obtain ⟨hroot, hrec, hlocal⟩ := h
  obtain ⟨b0, hb0, hp0, hw0⟩ := hroot
  obtain ⟨j, bp, hj, hp1, hbp, hw1⟩ := hrec 1 _ (by decide) rfl
  have hj0 : j = 0 := by omega
  subst hj0
  have hbp0 : bp = b0 := Option.some.inj (hbp.symm.trans hb0)
  subst hbp0
  have e0 : (readNodeHierarchy demoLib demoUndef (1 / 2) poseTree 1 (some hipAnimation)
      (processNode 0 poseTree (-1)
        { initialMachine with bones := [], boneMapping := fun _ => none })).bones[0]?
      = some _ := rfl
  have hb0' := Option.some.inj (hb0.symm.trans e0)
  have hn0 : bp.name = "root" ∧ bp.localTransform = scaleM ⟨2, 2, 2⟩ := by
    rw [hb0']
    exact ⟨rfl, rfl⟩
  have hroot_local := (hlocal "root" (scaleM ⟨2, 2, 2⟩)).2
    (Or.inr ⟨hipAnimation, rfl, by
      intro ch hch
      simp only [hipAnimation, List.mem_singleton] at hch
      rw [hch]
      decide⟩)
  have hhip_local := (hlocal "hip" (translateM ⟨5, 0, 0⟩)).1 hipAnimation 0 demoChannel rfl rfl
    rfl (fun j c hj _ => absurd hj (Nat.not_lt_zero j))
  have hpos : calcInterpolatedPosition demoUndef (1 / 2) demoChannel = ⟨1 / 2, 1 / 2, 1 / 2⟩ := by
    norm_num [calcInterpolatedPosition, findPosition, demoChannel, findKey_two, Vec3.add,
      Vec3.smul, Vec3.sub]
  have hscale : calcInterpolatedScaling demoUndef (1 / 2) demoChannel
      = ⟨3 / 2, 3 / 2, 3 / 2⟩ := by
    norm_num [calcInterpolatedScaling, findScaling, demoChannel, findKey_two, Vec3.add,
      Vec3.smul, Vec3.sub]
  rw [hpos, hscale] at hhip_local
  refine ⟨bp, _, hb0, rfl, hp0, ?_, hp1, ?_⟩
  · rw [hw0, hn0.1, hn0.2]
    exact hroot_local
  · rw [hw1]
    exact congrArg _ hhip_local

/-- A machine whose bones carry the names `processNode` builds for `root` has them in
pre-order. -/
theorem names_of_processNode (uninit : Mat4 K) (root : Node K) (s0 s : Machine K)
    (hskel : s.bones.map boneSkel = (processNode uninit root (-1)
      { s0 with bones := [], boneMapping := fun _ => none }).bones.map boneSkel) :
    s.bones.map Bone.name = nodeNames root := by
  have h := (skel_of_processNode uninit root s0 s hskel).1
  have h2 := congrArg (List.map (fun x : Int × String × Mat4 K => x.2.1)) h
  rw [List.map_map, skelList_names] at h2
  exact h2

/-- C29, counterexample: in `dupTree` both nodes are named `a`.  After `processNode` and an
evaluation pass, the first bone named `a` (the one `CharacterPhysics::update` reads) is bone
`0`, the root, whose world transform was never written and is still the identity, while
`boneMapping` resolves `a` to bone `1`, the child, which is the bone the pass wrote. -/
theorem duplicate_names_split_bone_lookup :
    ∃ b0 b1 : Bone ℚ,
      (readNodeHierarchy demoLib demoUndef 0 dupTree 1 none
        (processNode 0 dupTree (-1)
          { initialMachine with bones := [], boneMapping := fun _ => none })).bones.find?
          (fun bone => decide (bone.name = "a")) = some b0 ∧
      (readNodeHierarchy demoLib demoUndef 0 dupTree 1 none
        (processNode 0 dupTree (-1)
          { initialMachine with bones := [], boneMapping := fun _ => none })).boneMapping "a"
          = some 1 ∧
      (readNodeHierarchy demoLib demoUndef 0 dupTree 1 none
        (processNode 0 dupTree (-1)
          { initialMachine with bones := [], boneMapping := fun _ => none })).bones[1]?
          = some b1 ∧
      b0.parentIndex = -1 ∧ b1.parentIndex = 0 ∧ b0.worldTransform = 1 ∧
      b1.worldTransform = 1 * scaleM ⟨2, 2, 2⟩ * 1 :=
  ⟨_, _, rfl, rfl, rfl, rfl, rfl, rfl, rfl⟩

/-- C29, amended: for every skeleton built by `processNode` from a tree with unique node
names and every name present in it, there is a bone index `i` such that `boneMapping`
resolves the name to `i`, the first bone in index order with that name is the bone at
index `i`, `CharacterPhysics::update` positions a capsule of that name from that bone's
`finalTransform`, and the write of `readNodeHierarchy` for the name modifies the bone at
index `i`. -/
theorem capsule_bone_is_mapped_bone (uninit : Mat4 K) (root : Node K)
    (hu : (nodeNames root).Nodup) (s0 s : Machine K)
    (hmap : s.boneMapping = (processNode uninit root (-1)
      { s0 with bones := [], boneMapping := fun _ => none }).boneMapping)
    (hskel : s.bones.map boneSkel = (processNode uninit root (-1)
      { s0 with bones := [], boneMapping := fun _ => none }).bones.map boneSkel)
    (name : String) (hname : name ∈ nodeNames root) :
    ∃ (i : Nat) (b : Bone K), s.boneMapping name = some (i : Int) ∧
      s.bones[i]? = some b ∧ b.name = name ∧
      s.bones.find? (fun bone => decide (bone.name = name)) = some b ∧
      (∀ (modelTransform : Mat4 K) (cap : Capsule K), cap.boneName = name →
        updateCapsule s.bones modelTransform cap =
          { cap with
            start := transformPoint (modelTransform * b.finalTransform) ⟨0, 0, 0⟩,
            endPoint := transformPoint (modelTransform * b.finalTransform) ⟨0, cap.height, 0⟩ }) ∧
      (∀ g : Mat4 K, (writeBone name g s).bones =
        modifyBone (fun b => { b with worldTransform := g, finalTransform := s.globalInverseTransform * g * b.offsetMatrix }) (i : Int) s.bones) := by
  have hnames := names_of_processNode uninit root s0 s hskel
  obtain ⟨i, hi⟩ := List.getElem?_of_mem hname
  have hm : s.boneMapping name = some (i : Int) := by
    rw [hmap, (processNode_mapping uninit root (-1)
      { s0 with bones := [], boneMapping := fun _ => none }).1,
      insertNames_nodup _ hu _ _ i name hi]
    simp
  have hb : ∃ b, s.bones[i]? = some b ∧ b.name = name := by
    rw [← hnames, List.getElem?_map] at hi
    cases hbi : s.bones[i]? with
    | none =>
      rw [hbi] at hi
      simp at hi
    | some b =>
      rw [hbi] at hi
      simp only [Option.map_some', Option.some.injEq] at hi
      exact ⟨b, rfl, hi⟩
  obtain ⟨b, hbi, hbn⟩ := hb
  have hfind : s.bones.find? (fun bone => decide (bone.name = name)) = some b := by
    have h := find?_name_nodup s.bones (by rw [hnames]; exact hu) i b hbi
    rw [hbn] at h
    exact h
  refine ⟨i, b, hm, hbi, hbn, hfind, ?_, ?_⟩
  · intro modelTransform cap hcap
    unfold updateCapsule
    rw [hcap, hfind]
  · intro g
    unfold writeBone
    rw [hm]

theorem capsule_bone_is_mapped_bone_witness :
    ∃ (i : Nat) (b : Bone ℚ),
      (processNode 0 demoTree (-1)
        { initialMachine with bones := [], boneMapping := fun _ => none }).boneMapping "hip"
        = some (i : Int) ∧
      (processNode 0 demoTree (-1)
        { initialMachine with bones := [], boneMapping := fun _ => none }).bones[i]? = some b ∧
      b.name = "hip" ∧
      (processNode 0 demoTree (-1)
        { initialMachine with bones := [], boneMapping := fun _ => none }).bones.find?
          (fun bone => decide (bone.name = "hip")) = some b ∧
      (∀ (modelTransform : Mat4 ℚ) (cap : Capsule ℚ), cap.boneName = "hip" →
        updateCapsule (processNode 0 demoTree (-1)
            { initialMachine with bones := [], boneMapping := fun _ => none }).bones
            modelTransform cap =
          { cap with
            start := transformPoint (modelTransform * b.finalTransform) ⟨0, 0, 0⟩,
            endPoint := transformPoint (modelTransform * b.finalTransform) ⟨0, cap.height, 0⟩ }) ∧
      (∀ g : Mat4 ℚ, (writeBone "hip" g (processNode 0 demoTree (-1)
            { initialMachine with bones := [], boneMapping := fun _ => none })).bones =
        modifyBone (fun b => { b with worldTransform := g, finalTransform := (processNode 0 demoTree (-1) { initialMachine with bones := [], boneMapping := fun _ => none }).globalInverseTransform * g * b.offsetMatrix }) (i : Int)
          (processNode 0 demoTree (-1)
            { initialMachine with bones := [], boneMapping := fun _ => none }).bones) :=
  capsule_bone_is_mapped_bone 0 demoTree (by decide) initialMachine
    (processNode 0 demoTree (-1) { initialMachine with bones := [], boneMapping := fun _ => none })
    rfl rfl "hip" (by decide)

end PoseTheorems

/-! ## Theorems: the exact definitions are the rounded ones without rounding -/

section ExactArithTheorems

variable [LinearOrderedField K]

theorem rounded_exact_rayCapsuleIntersection (lib : Lib K) (ro rd a b : Vec3 K) (r : K) :
    Rounded.rayCapsuleIntersection exactArith lib ro rd a b r
      = rayCapsuleIntersection lib ro rd a b r := rfl

theorem rounded_exact_raycastStep (lib : Lib K) (rayOrigin rayDir : Vec3 K) :
    Rounded.raycastStep exactArith lib rayOrigin rayDir = raycastStep lib rayOrigin rayDir := by
  funext st cap
  unfold Rounded.raycastStep raycastStep
  rw [rounded_exact_rayCapsuleIntersection]
  rfl

/-- Without rounding, the rounded `raycast` is the exact one. -/
theorem rounded_exact_raycast (lib : Lib K) (colliders : List (Capsule K))
    (rayOrigin rayDir : Vec3 K) (maxDist : K) (hit : HitResult K) :
    Rounded.raycast exactArith lib colliders rayOrigin rayDir maxDist hit
      = raycast lib colliders rayOrigin rayDir maxDist hit := by
  unfold Rounded.raycast raycast Rounded.raycastLoop raycastLoop
  rw [rounded_exact_raycastStep]

theorem rounded_exact_findKeyLoop {V : Type} (junk : Key K V) (t : K) (keys : List (Key K V)) :
    ∀ (n i : Nat), Rounded.findKeyLoop exactArith junk t keys n i = findKeyLoop junk t keys n i
  | 0, _ => rfl
  | n + 1, i => by
    unfold Rounded.findKeyLoop findKeyLoop
    rw [rounded_exact_findKeyLoop junk t keys n (i + 1)]
    rfl

/-- Without rounding, the rounded position sampler is the exact one. -/
theorem rounded_exact_calcInterpolatedPosition (u : Undef K) (t : K) (ch : NodeAnim K) :
    Rounded.calcInterpolatedPosition exactArith u t ch = calcInterpolatedPosition u t ch := by
  unfold Rounded.calcInterpolatedPosition calcInterpolatedPosition Rounded.findPosition
    findPosition Rounded.findKey findKey
  rw [rounded_exact_findKeyLoop]
  rfl

/-- Without rounding, the rounded scale sampler is the exact one. -/
theorem rounded_exact_calcInterpolatedScaling (u : Undef K) (t : K) (ch : NodeAnim K) :
    Rounded.calcInterpolatedScaling exactArith u t ch = calcInterpolatedScaling u t ch := by
  unfold Rounded.calcInterpolatedScaling calcInterpolatedScaling Rounded.findScaling
    findScaling Rounded.findKey findKey
  rw [rounded_exact_findKeyLoop]
  rfl

end ExactArithTheorems

/-! ## Theorems: evaluation with rounding -/

section RoundingTheorems

end RoundingTheorems

/-! ## Theorems: the raycast evaluated with rounding -/

section RoundedPhysicsTheorems

variable [LinearOrderedField K]

end RoundedPhysicsTheorems

/-! ## Theorems: the two-key sampler evaluated with rounding -/

section RoundedSamplerTheorems

variable [LinearOrderedField K]

end RoundedSamplerTheorems

end Origin
